import Mathlib

/-!
# Column metadata, DDL rendering and field resolution of `go-xorm/core`

A shallow embedding of `vendor/github.com/go-xorm/core/column.go`:

* `Column`, `NewColumn`: the column metadata record and its constructor;
* `Column.String`, `Column.StringNoPk`: the two DDL fragment renderers;
* `Column.ValueOf`, `Column.ValueOfV`: the reflective field resolver, over a
  model of the part of Go's `reflect` package that the resolver calls.

Definitions come first, theorems afterwards.
-/

set_option autoImplicit false

/-! ## Column metadata -/

/-- Modelled from the spec: `SQLType` is declared in `type.go`, which is not part of
the sources at hand. The spec describes it as a logical type descriptor (name + size
class) that is opaque to this file beyond being handed to the dialect. -/
structure SQLType where
  Name : String
  DefaultLength : Int
  DefaultLength2 : Int

/-- The constant `TWOSIDES = iota + 1`. -/
def TWOSIDES : Int := 1

/-- The constant `ONLYTODB`, second of the `iota + 1` block. -/
def ONLYTODB : Int := 2

/-- The constant `ONLYFROMDB`, third of the `iota + 1` block. -/
def ONLYFROMDB : Int := 3

/-- The `Column` struct. Go maps and slices are `Option (List _)`: `none` is the nil
map or nil slice, `some l` an allocated one. `TimeZone` is a nilable pointer to a
`time.Location`, kept as the location's name. -/
structure Column where
  Name : String
  FieldName : String
  SQLType : SQLType
  Length : Int
  Length2 : Int
  Nullable : Bool
  Default : String
  Indexes : Option (List (String × Bool))
  IsPrimaryKey : Bool
  IsAutoIncrement : Bool
  MapType : Int
  IsCreated : Bool
  IsUpdated : Bool
  IsDeleted : Bool
  IsCascade : Bool
  IsVersion : Bool
  fieldPath : Option (List String)
  DefaultIsEmpty : Bool
  EnumOptions : Option (List (String × Int))
  SetOptions : Option (List (String × Int))
  DisableTimeZone : Bool
  TimeZone : Option String

/-- The constructor `NewColumn`. Fields the struct literal leaves out (`SetOptions`,
`DisableTimeZone`, `TimeZone`) take their zero value. -/
def NewColumn (name fieldName : String) (sqlType : SQLType) (len1 len2 : Int)
    (nullable : Bool) : Column :=
  { Name := name
    FieldName := fieldName
    SQLType := sqlType
    Length := len1
    Length2 := len2
    Nullable := nullable
    Default := ""
    Indexes := some []
    IsPrimaryKey := false
    IsAutoIncrement := false
    MapType := TWOSIDES
    IsCreated := false
    IsUpdated := false
    IsDeleted := false
    IsCascade := false
    IsVersion := false
    fieldPath := none
    DefaultIsEmpty := false
    EnumOptions := some []
    SetOptions := none
    DisableTimeZone := false
    TimeZone := none }

/-! ## DDL rendering -/

/-- Modelled from the spec: the `Dialect` interface is declared in `dialect.go`, which
is not part of the sources at hand. The spec lists the four operations the renderer
calls (`quoteChar`, `renderSQLType`, `autoIncrementKeyword`,
`showsExplicitNullability`) as operations that return a string or a boolean; they are
fields named after the Go methods. -/
structure Dialect where
  QuoteStr : String
  SqlType : Column → String
  AutoIncrStr : String
  ShowCreateNull : Bool

/-- Go's `string` type, under a name that stays distinct from the method
`Column.String` inside the `Column` namespace. -/
abbrev GoString : Type := String

/-- The method `Column.String`: the column description with the primary-key clause.
Every `sql += x` of the source is one rebinding of `sql`. -/
def Column.String (col : Column) (d : Dialect) : GoString :=
  let sql := d.QuoteStr ++ col.Name ++ d.QuoteStr ++ " "
  let sql := sql ++ (d.SqlType col ++ " ")
  let sql :=
    if col.IsPrimaryKey then
      let sql := sql ++ "PRIMARY KEY "
      if col.IsAutoIncrement then sql ++ (d.AutoIncrStr ++ " ") else sql
    else sql
  let sql :=
    if d.ShowCreateNull then
      if col.Nullable then sql ++ "NULL " else sql ++ "NOT NULL "
    else sql
  let sql :=
    if col.Default ≠ "" then sql ++ ("DEFAULT " ++ col.Default ++ " ") else sql
  sql

/-- The method `Column.StringNoPk`: the column description without the primary-key
clause. -/
def Column.StringNoPk (col : Column) (d : Dialect) : GoString :=
  let sql := d.QuoteStr ++ col.Name ++ d.QuoteStr ++ " "
  let sql := sql ++ (d.SqlType col ++ " ")
  let sql :=
    if d.ShowCreateNull then
      if col.Nullable then sql ++ "NULL " else sql ++ "NOT NULL "
    else sql
  let sql :=
    if col.Default ≠ "" then sql ++ ("DEFAULT " ++ col.Default ++ " ") else sql
  sql

/-! ## Go values

The resolver inspects its argument through `reflect`, so records are modelled as
run-time values: a tree of structs, pointers, maps, interfaces and scalars. A pointer
owns its pointee (no aliasing, and no recursive types); a struct lists its declared
fields and says which of them are embedded; `string`, `int`, `bool` stand for the
types that are neither struct, pointer, map nor interface. -/

/-- Go types, as far as the resolver can tell them apart. A struct type lists its
declared fields in order, and the names of those among them that are embedded
(anonymous) fields; the name of an embedded field is the name of its type. `iface` is
`interface{}`. -/
inductive GoType where
  | string
  | int
  | bool
  | struct (fields : List (String × GoType)) (embedded : List String := [])
  | ptr (elem : GoType)
  | map (key elem : GoType)
  | iface

/-- Go values. A struct carries the names of its embedded fields like its type does; a
pointer carries its element type and `none` when nil; a map carries its key and
element types (a nil map has no entries); an interface holds `none` when nil and
otherwise its dynamic value. -/
inductive GoVal where
  | str (s : String)
  | int (n : Int)
  | bool (b : Bool)
  | struct (fields : List (String × GoVal)) (embedded : List String := [])
  | ptr (elem : GoType) (target : Option GoVal)
  | map (key elem : GoType) (entries : List (GoVal × GoVal))
  | iface (dyn : Option GoVal)

mutual
/-- The zero value of a type. -/
def GoType.zero : GoType → GoVal
  | .string => .str ""
  | .int => .int 0
  | .bool => .bool false
  | .struct fs em => .struct (GoType.zeroFields fs) em
  | .ptr e => .ptr e none
  | .map k e => .map k e []
  | .iface => .iface none
/-- The zero values of the fields of a struct type. -/
def GoType.zeroFields : List (String × GoType) → List (String × GoVal)
  | [] => []
  | (n, t) :: rest => (n, GoType.zero t) :: GoType.zeroFields rest
end

mutual
/-- The static type of the location that holds a value. -/
def GoVal.Type : GoVal → GoType
  | .str _ => .string
  | .int _ => .int
  | .bool _ => .bool
  | .struct fs em => .struct (GoVal.fieldTypes fs) em
  | .ptr e _ => .ptr e
  | .map k e _ => .map k e
  | .iface _ => .iface
/-- The types of the fields of a struct value. -/
def GoVal.fieldTypes : List (String × GoVal) → List (String × GoType)
  | [] => []
  | (n, v) :: rest => (n, GoVal.Type v) :: GoVal.fieldTypes rest
end

mutual
/-- Whether two types are identical. -/
def GoType.identical : GoType → GoType → Bool
  | .string, .string => true
  | .int, .int => true
  | .bool, .bool => true
  | .struct fs em, .struct gs en => GoType.identicalFields fs gs && em == en
  | .ptr a, .ptr b => GoType.identical a b
  | .map k a, .map l b => GoType.identical k l && GoType.identical a b
  | .iface, .iface => true
  | _, _ => false
/-- Whether two lists of declared fields are identical: the same names with identical
types, in the same order. -/
def GoType.identicalFields : List (String × GoType) → List (String × GoType) → Bool
  | [], [] => true
  | (n, t) :: fs, (m, u) :: gs =>
    n == m && GoType.identical t u && GoType.identicalFields fs gs
  | _, _ => false
end

namespace unicode

/-- The range table `unicode.Upper` (the general category `Lu` of upper-case letters,
as of Unicode 14.0), each range as `(Lo, Hi, Stride)`: the code points `Lo`,
`Lo + Stride`, ... up to `Hi`. -/
def Upper : List (Nat × Nat × Nat) :=
  [(65, 90, 1), (192, 214, 1), (216, 222, 1), (256, 310, 2), (313, 327, 2), (330, 376, 2),
   (377, 381, 2), (385, 386, 1), (388, 388, 1), (390, 391, 1), (393, 395, 1), (398, 401, 1),
   (403, 404, 1), (406, 408, 1), (412, 413, 1), (415, 416, 1), (418, 422, 2), (423, 423, 1),
   (425, 425, 1), (428, 428, 1), (430, 431, 1), (433, 435, 1), (437, 437, 1), (439, 440, 1),
   (444, 444, 1), (452, 461, 3), (463, 475, 2), (478, 494, 2), (497, 497, 1), (500, 500, 1),
   (502, 504, 1), (506, 562, 2), (570, 571, 1), (573, 574, 1), (577, 577, 1), (579, 582, 1),
   (584, 590, 2), (880, 880, 1), (882, 882, 1), (886, 886, 1), (895, 895, 1), (902, 902, 1),
   (904, 906, 1), (908, 908, 1), (910, 911, 1), (913, 929, 1), (931, 939, 1), (975, 975, 1),
   (978, 980, 1), (984, 1006, 2), (1012, 1012, 1), (1015, 1015, 1), (1017, 1018, 1),
   (1021, 1071, 1), (1120, 1152, 2), (1162, 1216, 2), (1217, 1229, 2), (1232, 1326, 2),
   (1329, 1366, 1), (4256, 4293, 1), (4295, 4295, 1), (4301, 4301, 1), (5024, 5109, 1),
   (7312, 7354, 1), (7357, 7359, 1), (7680, 7828, 2), (7838, 7934, 2), (7944, 7951, 1),
   (7960, 7965, 1), (7976, 7983, 1), (7992, 7999, 1), (8008, 8013, 1), (8025, 8031, 2),
   (8040, 8047, 1), (8120, 8123, 1), (8136, 8139, 1), (8152, 8155, 1), (8168, 8172, 1),
   (8184, 8187, 1), (8450, 8450, 1), (8455, 8455, 1), (8459, 8461, 1), (8464, 8466, 1),
   (8469, 8469, 1), (8473, 8477, 1), (8484, 8490, 2), (8491, 8493, 1), (8496, 8499, 1),
   (8510, 8511, 1), (8517, 8517, 1), (8579, 8579, 1), (11264, 11311, 1), (11360, 11360, 1),
   (11362, 11364, 1), (11367, 11373, 2), (11374, 11376, 1), (11378, 11378, 1),
   (11381, 11381, 1), (11390, 11392, 1), (11394, 11490, 2), (11499, 11499, 1),
   (11501, 11501, 1), (11506, 11506, 1), (42560, 42604, 2), (42624, 42650, 2),
   (42786, 42798, 2), (42802, 42862, 2), (42873, 42877, 2), (42878, 42886, 2),
   (42891, 42891, 1), (42893, 42893, 1), (42896, 42896, 1), (42898, 42898, 1),
   (42902, 42922, 2), (42923, 42926, 1), (42928, 42932, 1), (42934, 42948, 2),
   (42949, 42951, 1), (42953, 42953, 1), (42960, 42960, 1), (42966, 42966, 1),
   (42968, 42968, 1), (42997, 42997, 1), (65313, 65338, 1), (66560, 66599, 1),
   (66736, 66771, 1), (66928, 66938, 1), (66940, 66954, 1), (66956, 66962, 1),
   (66964, 66965, 1), (68736, 68786, 1), (71840, 71871, 1), (93760, 93791, 1),
   (119808, 119833, 1), (119860, 119885, 1), (119912, 119937, 1), (119964, 119964, 1),
   (119966, 119967, 1), (119970, 119970, 1), (119973, 119974, 1), (119977, 119980, 1),
   (119982, 119989, 1), (120016, 120041, 1), (120068, 120069, 1), (120071, 120074, 1),
   (120077, 120084, 1), (120086, 120092, 1), (120120, 120121, 1), (120123, 120126, 1),
   (120128, 120132, 1), (120134, 120134, 1), (120138, 120144, 1), (120172, 120197, 1),
   (120224, 120249, 1), (120276, 120301, 1), (120328, 120353, 1), (120380, 120405, 1),
   (120432, 120457, 1), (120488, 120512, 1), (120546, 120570, 1), (120604, 120628, 1),
   (120662, 120686, 1), (120720, 120744, 1), (120778, 120778, 1), (125184, 125217, 1)]

/-- The function `unicode.IsUpper`: whether the character is an upper-case letter. -/
def IsUpper (c : Char) : Bool :=
  Upper.any fun r => r.1 ≤ c.toNat && c.toNat ≤ r.2.1 && (c.toNat - r.1) % r.2.2 == 0

end unicode

/-- Go's `token.IsExported`, which decides whether a struct field is exported: the
name starts with an upper-case letter. -/
def isExported (name : String) : Bool :=
  match name.data with
  | c :: _ => unicode.IsUpper c
  | [] => false

/-- Replace the value of the first field called `name` by its image under `f`. -/
def setField (name : String) (f : GoVal → GoVal) :
    List (String × GoVal) → List (String × GoVal)
  | [] => []
  | (n, v) :: rest =>
    if n = name then (n, f v) :: rest else (n, v) :: setField name f rest

/-- Whether a map key is the string `k`: a `string` key, or an `interface{}` key that
holds a `string`. -/
def isStringKey (k : String) : GoVal → Bool
  | .str s => s == k
  | .iface (some (.str s)) => s == k
  | _ => false

/-- The map entry stored under the string key `k`, as `mapaccess` finds it. -/
def mapaccess (k : String) : List (GoVal × GoVal) → Option GoVal
  | [] => none
  | (key, v) :: rest => if isStringKey k key then some v else mapaccess k rest

/-- Replace the value of the first entry stored under the string key `k` by its image
under `f`. -/
def setEntry (k : String) (f : GoVal → GoVal) :
    List (GoVal × GoVal) → List (GoVal × GoVal)
  | [] => []
  | (key, v) :: rest =>
    if isStringKey k key then (key, f v) :: rest else (key, v) :: setEntry k f rest

/-- Whether a `string` is assignable to the type: the type is `string` or
`interface{}`. -/
def GoType.acceptsString : GoType → Bool
  | .string => true
  | .iface => true
  | _ => false

/-- The conversion `Value.assignTo` that `Set` applies to the value it stores: a value
is stored as it is in a location of its own type and boxed in a location of type
`interface{}`; it is not assignable to any other location (`none`, a panic). -/
def GoVal.assignTo (x : GoVal) (dst : GoType) : Option GoVal :=
  if x.Type.identical dst then some x
  else
    match dst with
    | .iface => some (.iface (some x))
    | _ => none

namespace reflect

/-- The kinds `reflect.Kind` that occur in the model. -/
inductive Kind where
  | Invalid
  | Bool
  | Int
  | String
  | Struct
  | Ptr
  | Map
  | Interface
  deriving DecidableEq

/-- One step from a value to a value it contains: a struct field, the pointee of a
pointer, the dynamic value of an interface, the map entry under a string key. -/
inductive Step where
  | field (name : String)
  | deref
  | dyn
  | key (k : String)

end reflect

/-- The method `Type.Kind`. -/
def GoType.Kind : GoType → reflect.Kind
  | .string => .String
  | .int => .Int
  | .bool => .Bool
  | .struct _ _ => .Struct
  | .ptr _ => .Ptr
  | .map _ _ => .Map
  | .iface => .Interface

/-- The method `Type.Elem`: the element type of a pointer or map type; `none` when the
call panics. -/
def GoType.Elem : GoType → Option GoType
  | .ptr e => some e
  | .map _ e => some e
  | _ => none

mutual
/-- The fields called `name` among the declared fields of a struct type and, through
its embedded fields, among the fields of the embedded structs, each as the chain of
field names that leads to it. An embedded field called `name` is a match itself and is
not entered. -/
def GoType.promotedIn (name : String) (embedded : List String) :
    List (String × GoType) → List (List String)
  | [] => []
  | (n, t) :: rest =>
    (if n = name then [[n]]
      else if embedded.contains n then (GoType.promotedVia name t).map (fun index => n :: index)
      else []) ++
    GoType.promotedIn name embedded rest
/-- The fields called `name` below an embedded field of the given type: a struct, or a
pointer to one. -/
def GoType.promotedVia (name : String) : GoType → List (List String)
  | .struct fs em => GoType.promotedIn name em fs
  | .ptr (.struct fs em) => GoType.promotedIn name em fs
  | _ => []
end

/-- The chains of least length in a list. -/
def shallowest (found : List (List String)) : List (List String) :=
  match (found.map List.length).min? with
  | some depth => found.filter (fun index => index.length == depth)
  | none => []

/-- The method `Type.FieldByName` of a struct type, as the index sequence of the field
found. A declared field wins; otherwise the embedded structs are searched breadth
first, and the field is found when exactly one field of that name sits at the least
depth at which there is any (more than one annihilate each other). The empty name has
no field. -/
def GoType.FieldByName (t : GoType) (name : String) : Option (List String) :=
  match t with
  | .struct fs em =>
    if name = "" then none
    else if (fs.lookup name).isSome then some [name]
    else
      match shallowest (GoType.promotedIn name em fs) with
      | [index] => some index
      | _ => none
  | _ => none

/-- The value one step away, if there is one. -/
def GoVal.step : GoVal → reflect.Step → Option GoVal
  | .struct fs _, .field name => fs.lookup name
  | .ptr _ (some x), .deref => some x
  | .iface (some x), .dyn => some x
  | .map _ _ es, .key k => mapaccess k es
  | _, _ => none

/-- The value at the end of a path. -/
def GoVal.getAt : GoVal → List reflect.Step → Option GoVal
  | v, [] => some v
  | v, s :: p =>
    match v.step s with
    | some x => x.getAt p
    | none => none

/-- Overwrite the value at the end of a path; the value is left as it is when the path
leads nowhere. A path through a map entry is followed to the pointees below the entry;
the entry itself is not addressable and no `reflect.Value` that may be set ends at
it. -/
def GoVal.setAt : GoVal → List reflect.Step → GoVal → GoVal
  | _, [], new => new
  | .struct fs em, .field name :: p, new =>
    .struct (setField name (fun x => x.setAt p new) fs) em
  | .ptr e (some x), .deref :: p, new => .ptr e (some (x.setAt p new))
  | .iface (some x), .dyn :: p, new => .iface (some (x.setAt p new))
  | .map k e es, .key s :: p, new => .map k e (setEntry s (fun x => x.setAt p new) es)
  | v, _ :: _, _ => v

/-! ## The part of `reflect` the resolver calls

A `reflect.Value` refers to a place in memory. Memory is passed explicitly as the
value `heap : GoVal` the resolver works on, and a `reflect.Value` is a path into it
together with the flags that decide what may be done through it. A method that can
panic returns an `Option`, `none` being the panic. -/

namespace reflect

/-- A `reflect.Value`: `valid = false` is the zero `Value`; `path` leads from the heap
to the value referred to; `addr` is `flagAddr` (the value is addressable); `ro` is
`flagStickyRO` (the value was reached through an unexported field that is not
embedded) and `embedRO` is `flagEmbedRO` (the value is an unexported embedded
field). -/
structure Value where
  valid : Bool
  path : List Step
  addr : Bool
  ro : Bool
  embedRO : Bool

/-- The zero `Value`, `reflect.Value{}`. -/
def Value.zero : Value := ⟨false, [], false, false, false⟩

/-- The method `IsValid`. -/
def Value.IsValid (v : Value) : Bool := v.valid

/-- The Go value a `Value` refers to. -/
def Value.get (v : Value) (heap : GoVal) : Option GoVal :=
  if v.valid then heap.getAt v.path else none

/-- The method `Type`; it panics on the zero `Value`. -/
def Value.Type (v : Value) (heap : GoVal) : Option GoType :=
  (v.get heap).map GoVal.Type

/-- The method `Kind`; the zero `Value` has kind `Invalid`. -/
def Value.Kind (v : Value) (heap : GoVal) : Kind :=
  match v.Type heap with
  | some t => t.Kind
  | none => Kind.Invalid

/-- The method `IsNil`, for the pointer and interface kinds. -/
def Value.IsNil (v : Value) (heap : GoVal) : Bool :=
  match v.get heap with
  | some (.ptr _ none) => true
  | some (.iface none) => true
  | _ => false

/-- The method `Elem`: the pointee of a pointer (always addressable, read-only as the
pointer is) or the dynamic value of an interface (never addressable, read-only when
the interface is); the zero `Value` for nil; a panic on other kinds. -/
def Value.Elem (v : Value) (heap : GoVal) : Option Value :=
  match v.get heap with
  | some (.ptr _ (some _)) => some ⟨true, v.path ++ [Step.deref], true, v.ro, v.embedRO⟩
  | some (.ptr _ none) => some Value.zero
  | some (.iface (some _)) =>
    some ⟨true, v.path ++ [Step.dyn], false, v.ro || v.embedRO, false⟩
  | some (.iface none) => some Value.zero
  | _ => none

/-- The method `Field`, for the declared field called `name`: it panics unless the
value is a struct with such a field. The field inherits addressability and
`flagStickyRO`; an unexported field is read-only, by `flagEmbedRO` when it is embedded
and by `flagStickyRO` when it is not. -/
def Value.Field (v : Value) (heap : GoVal) (name : String) : Option Value :=
  match v.get heap with
  | some (.struct fs em) =>
    match fs.lookup name with
    | some _ =>
      some ⟨true, v.path ++ [Step.field name], v.addr,
        v.ro || (!isExported name && !em.contains name),
        !isExported name && em.contains name⟩
    | none => none
  | _ => none

/-- Whether the value is a pointer to a struct. -/
def Value.isPtrToStruct (v : Value) (heap : GoVal) : Bool :=
  match v.get heap with
  | some (.ptr e _) => e.Kind = Kind.Struct
  | _ => false

/-- The loop of the method `FieldByIndex` from the second index on: an embedded pointer
to a struct is followed, with a panic when it is nil, and the next field is taken. -/
def Value.FieldByIndex.loop (heap : GoVal) : Value → List String → Option Value
  | v, [] => some v
  | v, x :: index =>
    let entered : Option Value :=
      if v.isPtrToStruct heap then
        if v.IsNil heap then none else v.Elem heap
      else some v
    match entered with
    | some v =>
      match v.Field heap x with
      | some field => Value.FieldByIndex.loop heap field index
      | none => none
    | none => none

/-- The method `FieldByIndex`: the nested field an index sequence leads to. -/
def Value.FieldByIndex (v : Value) (heap : GoVal) (index : List String) : Option Value :=
  match index with
  | [] => if v.Kind heap = Kind.Struct then some v else none
  | x :: index =>
    match v.Field heap x with
    | some field => Value.FieldByIndex.loop heap field index
    | none => none

/-- The method `FieldByName`: it panics unless the value is a struct; it returns the
zero `Value` when the struct type has no field of that name, declared or promoted, and
otherwise the field its index sequence leads to, which panics when the way leads
through a nil embedded pointer. -/
def Value.FieldByName (v : Value) (heap : GoVal) (name : String) : Option Value :=
  match v.get heap with
  | some (.struct fs em) =>
    match (GoVal.struct fs em).Type.FieldByName name with
    | some index => v.FieldByIndex heap index
    | none => some Value.zero
  | _ => none

/-- The method `CanSet`: the value is addressable and was not reached through an
unexported field; the zero `Value` cannot be set. -/
def Value.CanSet (v : Value) : Bool := v.valid && v.addr && !v.ro && !v.embedRO

/-- The method `Set`, as a heap update: it panics unless `CanSet` holds, and unless the
value to store is assignable to the type of the location; the location then holds the
value, boxed when the location is of type `interface{}`. -/
def Value.Set (v : Value) (heap : GoVal) (x : GoVal) : Option GoVal :=
  if v.CanSet then
    match v.Type heap with
    | some t =>
      match x.assignTo t with
      | some y => some (heap.setAt v.path y)
      | none => none
    | none => none
  else none

/-- The method `MapIndex` with a `string` key: it panics unless the value is a map
whose key type a `string` is assignable to; it returns the zero `Value` when the key
is absent, and otherwise an unaddressable value. -/
def Value.MapIndex (v : Value) (heap : GoVal) (key : String) : Option Value :=
  match v.get heap with
  | some (.map k _ es) =>
    if k.acceptsString then
      match mapaccess key es with
      | some _ => some ⟨true, v.path ++ [Step.key key], false, v.ro || v.embedRO, false⟩
      | none => some Value.zero
    else none
  | _ => none

/-- The method `Interface`: the value as an `interface{}` (`none` inside is the nil
interface); it panics on the zero `Value` and on a read-only value. A value of kind
`Interface` yields its dynamic value. -/
def Value.Interface (v : Value) (heap : GoVal) : Option (Option GoVal) :=
  if v.ro || v.embedRO then none
  else
    match v.get heap with
    | some (.iface dyn) => some dyn
    | some x => some (some x)
    | none => none

/-- The function `reflect.ValueOf`: the zero `Value` for a nil interface, otherwise an
unaddressable value; `origin` is where the interface content sits in the heap. -/
def ValueOf (i : Option GoVal) (origin : List Step) : Value :=
  match i with
  | some _ => ⟨true, origin, false, false, false⟩
  | none => Value.zero

/-- The function `reflect.Indirect`: the pointee of a pointer, any other value
itself. -/
def Indirect (v : Value) (heap : GoVal) : Value :=
  if v.Kind heap ≠ Kind.Ptr then v
  else
    match v.Elem heap with
    | some e => e
    | none => v

/-- The function `reflect.New`: a pointer to a fresh zero value of the type. -/
def New (t : GoType) : GoVal := .ptr t (some t.zero)

end reflect

namespace strings

/-- Cut a list of characters at every occurrence of `sep`. -/
def splitChars (sep : Char) : List Char → List (List Char)
  | [] => [[]]
  | c :: cs =>
    if c = sep then [] :: splitChars sep cs
    else
      match splitChars sep cs with
      | seg :: segs => (c :: seg) :: segs
      | [] => [[c]]

/-- The function `strings.Split` for a one-character separator, the form the resolver
uses it in: the substrings between the separators, `[s]` when there is none. -/
def Split (s : String) (sep : Char) : List String :=
  (splitChars sep s.data).map String.mk

end strings

/-! ## Field resolution -/

/-- How a call of the resolver ends: `return &fieldValue, nil`, `return nil, err` with
the error's message, or a run-time panic. -/
inductive Outcome where
  | ok (fieldValue : reflect.Value)
  | error (msg : String)
  | aborted

/-- What a call of the resolver leaves behind: the column (its `fieldPath` cache may
have been filled), the heap (nil pointers may have been set), the calls of
`reflect.New` it made, each as the path of the nil pointer the new value was made for,
and the outcome. -/
structure Result where
  col : Column
  heap : GoVal
  allocated : List (List reflect.Step)
  out : Outcome

/-- The error of the resolver, `fmt.Errorf("field  %v is not valid", col.FieldName)`. -/
def fieldError (FieldName : String) : String :=
  "field  " ++ FieldName ++ " is not valid"

/-- The state a part of the walk ends in, when `reflect.New` was called for the
pointers at `paths` before that part began. -/
def Column.ValueOfV.after (paths : List (List reflect.Step))
    (r : GoVal × List (List reflect.Step) × Except Outcome reflect.Value) :
    GoVal × List (List reflect.Step) × Except Outcome reflect.Value :=
  (r.1, paths ++ r.2.1, r.2.2)

/-- The loop `for i := 0; i < level-1; i++` of `ValueOfV`, over the segments
`fieldPath[i+1]` still to come. It yields the heap, the calls of `reflect.New` made,
and `Except.ok fieldValue` when the loop is left by `break` or by its condition,
`Except.error out` when the function is left from inside the loop. -/
def Column.ValueOfV.loop (col : Column) :
    List GoString → reflect.Value → GoVal →
      GoVal × List (List reflect.Step) × Except Outcome reflect.Value
  | [], fieldValue, heap => (heap, [], .ok fieldValue)
  | next :: rest, fieldValue, heap =>
    if !fieldValue.IsValid then (heap, [], .ok fieldValue)
    else if fieldValue.Kind heap = reflect.Kind.Struct then
      match fieldValue.FieldByName heap next with
      | some fv => Column.ValueOfV.loop col rest fv heap
      | none => (heap, [], .error .aborted)
    else if fieldValue.Kind heap = reflect.Kind.Ptr then
      let allocated : List (List reflect.Step) :=
        if fieldValue.IsNil heap then [fieldValue.path] else []
      let set : Option GoVal :=
        if fieldValue.IsNil heap then
          match (fieldValue.Type heap).bind GoType.Elem with
          | some t => fieldValue.Set heap (reflect.New t)
          | none => none
        else some heap
      match set with
      | none => (heap, allocated, .error .aborted)
      | some heap =>
        match (fieldValue.Elem heap).bind (fun e => e.FieldByName heap next) with
        | some fv => Column.ValueOfV.after allocated (Column.ValueOfV.loop col rest fv heap)
        | none => (heap, allocated, .error .aborted)
    else (heap, [], .error (.error (fieldError col.FieldName)))

/-- The first statement of `ValueOfV`,
`if col.fieldPath == nil { col.fieldPath = strings.Split(col.FieldName, ".") }`, as
an update of the column. -/
def Column.splitFieldPath (col : Column) : Column :=
  if col.fieldPath.isNone then
    { col with fieldPath := some (strings.Split col.FieldName '.') }
  else col

/-- The method `Column.ValueOfV`. `heap` is the memory `dataStruct` refers into. An
index into `fieldPath` panics when the slice is empty. -/
def Column.ValueOfV (col : Column) (dataStruct : reflect.Value) (heap : GoVal) : Result :=
  let col : Column := col.splitFieldPath
  let fieldPath := col.fieldPath.getD []
  match dataStruct.Type heap with
  | none => ⟨col, heap, [], .aborted⟩
  | some t =>
    if t.Kind = reflect.Kind.Map then
      match fieldPath.getLast? with
      | none => ⟨col, heap, [], .aborted⟩
      | some last =>
        match dataStruct.MapIndex heap last with
        | some fieldValue => ⟨col, heap, [], .ok fieldValue⟩
        | none => ⟨col, heap, [], .aborted⟩
    else
      let unwrapped : Option reflect.Value :=
        if t.Kind = reflect.Kind.Interface then
          (dataStruct.Interface heap).map
            (fun i => reflect.ValueOf i (dataStruct.path ++ [reflect.Step.dyn]))
        else some dataStruct
      match unwrapped with
      | none => ⟨col, heap, [], .aborted⟩
      | some dataStruct =>
        match fieldPath with
        | [] => ⟨col, heap, [], .aborted⟩
        | first :: rest =>
          match dataStruct.FieldByName heap first with
          | none => ⟨col, heap, [], .aborted⟩
          | some fieldValue =>
            match Column.ValueOfV.loop col rest fieldValue heap with
            | (heap, allocated, .error out) => ⟨col, heap, allocated, out⟩
            | (heap, allocated, .ok fieldValue) =>
              if !fieldValue.IsValid then
                ⟨col, heap, allocated, .error (fieldError col.FieldName)⟩
              else ⟨col, heap, allocated, .ok fieldValue⟩

/-- The method `Column.ValueOf`. The heap is the interface value `bean` itself. -/
def Column.ValueOf (col : Column) (bean : Option GoVal) : Result :=
  let heap := GoVal.iface bean
  let dataStruct := reflect.Indirect (reflect.ValueOf bean [reflect.Step.dyn]) heap
  col.ValueOfV dataStruct heap

/-- The invariant of the `fieldPath` cache that the spec's data model states: the
cache is unset, or it holds `FieldName` split on `.`. `NewColumn` establishes it and
`ValueOfV` keeps it as long as `FieldName` is not reassigned. -/
def Column.cacheCoherent (c : Column) : Prop :=
  c.fieldPath = none ∨ c.fieldPath = some (strings.Split c.FieldName '.')

instance (c : Column) : Decidable c.cacheCoherent :=
  inferInstanceAs (Decidable (_ ∨ _))

/-! ## The renderers as the spec words them

The spec describes the two renderers as a sequence of clauses. The definitions below
follow that wording; the theorems compare them with `Column.String` and
`Column.StringNoPk`. -/

/-- Spec side: the nullability clause, `"NULL "` or `"NOT NULL "` when the dialect
displays nullability, nothing otherwise. -/
def nullabilityClause (c : Column) (d : Dialect) : String :=
  if d.ShowCreateNull then (if c.Nullable then "NULL " else "NOT NULL ") else ""

/-- Spec side: the default clause, `"DEFAULT " + default + " "` when `default` is
non-empty, nothing otherwise. -/
def defaultClause (c : Column) : String :=
  if c.Default ≠ "" then "DEFAULT " ++ c.Default ++ " " else ""

/-- Spec side: the quoted column name, a space, the dialect's rendering of the SQL
type, a space. -/
def nameAndType (c : Column) (d : Dialect) : String :=
  d.QuoteStr ++ c.Name ++ d.QuoteStr ++ " " ++ (d.SqlType c ++ " ")

/-- Spec side: the number of positions of a text at which the pattern starts. -/
def occurrences (pat : List Char) : List Char → Nat
  | [] => 0
  | c :: cs => (if pat.isPrefixOf (c :: cs) then 1 else 0) + occurrences pat cs

/-- Spec side: how often the pattern occurs in the output of a renderer. -/
def occurrencesIn (pat out : String) : Nat := occurrences pat.data out.data

/-- The stub dialect of the rendering scenario: back-quote quoting, `INT` for every
column, `AUTOINCREMENT`, nullability displayed. -/
def stubDialect : Dialect :=
  { QuoteStr := "`"
    SqlType := fun _ => "INT"
    AutoIncrStr := "AUTOINCREMENT"
    ShowCreateNull := true }

/-- The column of the rendering scenario: `NewColumn("id", "ID", ...)` declared
primary key and auto-increment, not nullable, no default. -/
def idColumn : Column :=
  { NewColumn "id" "ID" ⟨"INT", 0, 0⟩ 0 0 false with
    IsPrimaryKey := true
    IsAutoIncrement := true }

/-! ## Scenarios of the resolver -/

/-- The struct type `{City string}` of the resolver scenario. -/
def addrType : GoType := .struct [("City", .string)]

/-- The record `{Addr: nil}` of the resolver scenario, `Addr` being a pointer to
`{City string}`. -/
def nilAddrRecord : GoVal := .struct [("Addr", .ptr addrType none)]

/-- The column of the resolver scenario, with `FieldName` `Addr.City` and no
default. -/
def addrCityColumn : Column := NewColumn "city" "Addr.City" ⟨"TEXT", 0, 0⟩ 0 0 true

/-- The `reflect.Value` of a record that is the whole heap: valid, at the empty path,
with the given flags `flagAddr` and `flagStickyRO`, and without `flagEmbedRO`.
`record true false` is what `reflect.ValueOf(&r).Elem()` yields, up to the place of
`r` in the heap. -/
def reflect.record (addr ro : Bool) : reflect.Value := ⟨true, [], addr, ro, false⟩

/-! ## The life of a column -/

/-- What can happen to a column after `NewColumn`: a call of `ValueOfV`, a call of
`ValueOf`, an assignment to the exported field `FieldName`. -/
inductive ColumnEvent where
  | callValueOfV (dataStruct : reflect.Value) (heap : GoVal)
  | callValueOf (bean : Option GoVal)
  | assignFieldName (FieldName : String)

/-- The column after one event. -/
def Column.afterEvent (c : Column) : ColumnEvent → Column
  | .callValueOfV dataStruct heap => (c.ValueOfV dataStruct heap).col
  | .callValueOf bean => (c.ValueOf bean).col
  | .assignFieldName n => { c with FieldName := n }

/-- The column after a sequence of events, the first event first. -/
def Column.afterEvents (c : Column) (events : List ColumnEvent) : Column :=
  events.foldl Column.afterEvent c

/-- Spec side: the value `FieldName` has when the first call of `ValueOfV` or `ValueOf`
in a sequence of events is made, `current` being its value before the sequence; `none`
when the sequence holds no call. -/
def fieldNameAtFirstCall (current : String) : List ColumnEvent → Option String
  | [] => none
  | .assignFieldName n :: events => fieldNameAtFirstCall n events
  | .callValueOfV _ _ :: _ => some current
  | .callValueOf _ :: _ => some current

/-! ## A value seen from a wrapping heap -/

/-- The `reflect.Value` `v` of a heap, as a `reflect.Value` of a heap that holds the
former heap at the end of the path `origin`: the zero `Value` stays what it is, the
path of a valid one is lengthened in front. -/
def reflect.Value.under (origin : List reflect.Step) (v : reflect.Value) : reflect.Value :=
  if v.valid then { v with path := origin ++ v.path } else v

/-- The `reflect.Value` `v`, as a `reflect.Value` of the heap that consists of the value
it refers to alone: the same flags at the empty path. -/
def reflect.Value.atRoot (v : reflect.Value) : reflect.Value := { v with path := [] }

/-- The outcome of a call on a heap, as the outcome on a heap that holds the former heap
at the end of the path `origin`. -/
def Outcome.under (origin : List reflect.Step) : Outcome → Outcome
  | .ok fieldValue => .ok (fieldValue.under origin)
  | .error msg => .error msg
  | .aborted => .aborted

/-- The statement `fieldValue = x.FieldByName(fieldPath[i+1])` that ends a turn of the
loop of `ValueOfV`, `x` being the struct entered, followed by the remaining turns. -/
def Column.ValueOfV.turn (col : Column) (next : GoString) (rest : List GoString)
    (x : reflect.Value) (heap : GoVal) :
    GoVal × List (List reflect.Step) × Except Outcome reflect.Value :=
  match x.FieldByName heap next with
  | some fieldValue => Column.ValueOfV.loop col rest fieldValue heap
  | none => (heap, [], .error .aborted)

/-- The end state of a walk in a heap, as the end state of the walk in a heap that holds
the former heap at the end of the path `origin`: the former heap is replaced by what
the walk left of it, and the paths of the pointers set and of the value reached are
lengthened in front. -/
def Column.ValueOfV.seenFrom (origin : List reflect.Step) (heap : GoVal)
    (r : GoVal × List (List reflect.Step) × Except Outcome reflect.Value) :
    GoVal × List (List reflect.Step) × Except Outcome reflect.Value :=
  (heap.setAt origin r.1, r.2.1.map (fun path => origin ++ path),
    match r.2.2 with
    | .ok fieldValue => .ok (fieldValue.under origin)
    | .error out => .error out)

/-! ## The effect of the walk as the spec words it

The walk replaces nil pointers on the path by pointers to fresh zero values, and
nothing else. The definitions below say which value a record becomes when that is done
for a given path; the theorems compare the heap `ValueOfV` leaves with it. -/

/-- Spec side: the place of the field called `name` in a struct, as the path from the
struct to the field: one field step for a declared field, the way through the embedded
structs for a promoted one; `none` when the value is no struct, when it has no such
field, and when the way leads through a nil embedded pointer. -/
def fieldPlace (name : String) (x : GoVal) : Option (List reflect.Step) :=
  match (reflect.record false false).FieldByName x name with
  | some field => if field.valid then some field.path else none
  | none => none

/-- Spec side: the declared field of a struct through which the way to the field called
`name` leaves the struct: the field itself when it is declared, the embedded field that
promotes it otherwise. -/
def entryField (name : String) (x : GoVal) : Option String :=
  match fieldPlace name x with
  | some (reflect.Step.field entry :: _) => some entry
  | _ => none

/-- Spec side: apply `f` to the field `next` of a struct, declared or promoted; any
other value is left as it is. -/
def descend (f : GoVal → GoVal) (next : String) (x : GoVal) : GoVal :=
  match fieldPlace next x with
  | some place =>
    match x.getAt place with
    | some y => x.setAt place (f y)
    | none => x
  | none => x

/-- Spec side: what the value of a field on the path becomes when the segments `rest`
are still to be walked from it. The field of the last segment is left as it is; a
struct is entered at the next segment; a nil pointer is replaced by a pointer to the
zero value of its element type, which is then entered like the pointee of a non-nil
pointer; any other value is left as it is. -/
def materializeField : List String → GoVal → GoVal
  | [], y => y
  | next :: rest, .struct gs em => descend (materializeField rest) next (.struct gs em)
  | next :: rest, .ptr e none => .ptr e (some (descend (materializeField rest) next e.zero))
  | next :: rest, .ptr e (some z) => .ptr e (some (descend (materializeField rest) next z))
  | _ :: _, y => y

/-- Spec side: what a record becomes when the nil pointers on the path `segments`,
its last segment apart, are replaced by pointers to zero values. -/
def materialize : List String → GoVal → GoVal
  | [], r => r
  | first :: rest, r => descend (materializeField rest) first r

/-- Spec side: whether no nil pointer is met at the field called `next` of a struct and
on the way from it, `below` being the answer for the value of the field. -/
def pointersNonNilBelow (next : String) (x : GoVal) (below : GoVal → Bool) : Bool :=
  match fieldPlace next x with
  | some place =>
    match x.getAt place with
    | some y => below y
    | none => true
  | none => true

/-- Spec side: whether no nil pointer lies on the way from the value of a field on
the path through the segments `rest`. -/
def pointersNonNilFrom : List String → GoVal → Bool
  | [], _ => true
  | next :: rest, .struct gs em =>
    pointersNonNilBelow next (.struct gs em) (pointersNonNilFrom rest)
  | _ :: _, .ptr _ none => false
  | next :: rest, .ptr _ (some z) => pointersNonNilBelow next z (pointersNonNilFrom rest)
  | _ :: _, _ => true

/-- Spec side: whether every pointer on the path `segments` through the fields of the
record is non-nil already. -/
def pointersNonNil (segments : List String) (r : GoVal) : Bool :=
  match segments with
  | [] => true
  | first :: rest => pointersNonNilBelow first r (pointersNonNilFrom rest)

/-! # Theorems -/

/-! ## DDL rendering -/

theorem string_append_empty_right (s : String) : s ++ "" = s := by
  apply String.ext
  simp

theorem string_empty_append_left (s : String) : "" ++ s = s := by
  apply String.ext
  simp

theorem string_render_eq (c : Column) (d : Dialect) :
    c.String d =
      d.QuoteStr ++ c.Name ++ d.QuoteStr ++ " " ++
      (d.SqlType c ++ " ") ++
      (if c.IsPrimaryKey then
          "PRIMARY KEY " ++ (if c.IsAutoIncrement then d.AutoIncrStr ++ " " else "")
        else "") ++
      (if d.ShowCreateNull then (if c.Nullable then "NULL " else "NOT NULL ") else "") ++
      (if c.Default ≠ "" then "DEFAULT " ++ c.Default ++ " " else "") := by
  unfold Column.String
  by_cases hpk : c.IsPrimaryKey = true <;> by_cases hai : c.IsAutoIncrement = true <;>
    by_cases hn : d.ShowCreateNull = true <;> by_cases hnl : c.Nullable = true <;>
    by_cases hd : c.Default = "" <;>
    simp only [hpk, hai, hn, hnl, hd, if_true, if_false, ne_eq, not_true_eq_false,
      not_false_eq_true, Bool.false_eq_true, String.append_assoc, string_append_empty_right,
      string_empty_append_left]

/-- C1. `Column.String` is exactly the concatenation, in this order, of the quoted
name and a space, the dialect's type rendering and a space, `"PRIMARY KEY "` when the
column is a primary key (followed by the auto-increment keyword and a space when it is
auto-increment as well, and by nothing for auto-increment without primary key), the
nullability clause when the dialect displays nullability, and the default clause when
the default is non-empty. -/
theorem String_eq_concatenation (c : Column) (d : Dialect) :
    c.String d =
      d.QuoteStr ++ c.Name ++ d.QuoteStr ++ " " ++
      (d.SqlType c ++ " ") ++
      (if c.IsPrimaryKey then
          "PRIMARY KEY " ++ (if c.IsAutoIncrement then d.AutoIncrStr ++ " " else "")
        else "") ++
      (if d.ShowCreateNull then (if c.Nullable then "NULL " else "NOT NULL ") else "") ++
      (if c.Default ≠ "" then "DEFAULT " ++ c.Default ++ " " else "") :=
  string_render_eq c d

theorem stringNoPk_render_eq (c : Column) (d : Dialect) :
    c.StringNoPk d =
      d.QuoteStr ++ c.Name ++ d.QuoteStr ++ " " ++ (d.SqlType c ++ " ") ++
        nullabilityClause c d ++ defaultClause c := by
  unfold Column.StringNoPk nullabilityClause defaultClause
  by_cases hn : d.ShowCreateNull = true <;> by_cases hnl : c.Nullable = true <;>
    by_cases hd : c.Default = "" <;>
    simp only [hn, hnl, hd, if_true, if_false, ne_eq, not_true_eq_false,
      not_false_eq_true, Bool.false_eq_true, String.append_assoc,
      string_append_empty_right, string_empty_append_left]

/-- C2. `Column.StringNoPk` never emits the primary-key clause: it is the quoted name,
the type, the nullability clause and the default clause, whatever the two flags are.
It equals `Column.String` when the column is no primary key; when the column is a
primary key, `Column.String` is name and type, then the primary-key clause (with the
auto-increment keyword when the column is auto-increment), then a remainder, and
`Column.StringNoPk` is name and type followed directly by that remainder. -/
theorem StringNoPk_eq_String_without_primary_key (c : Column) (d : Dialect) :
    c.StringNoPk d =
      d.QuoteStr ++ c.Name ++ d.QuoteStr ++ " " ++ (d.SqlType c ++ " ") ++
        nullabilityClause c d ++ defaultClause c ∧
    (c.IsPrimaryKey = false → c.StringNoPk d = c.String d) ∧
    (c.IsPrimaryKey = true →
      c.String d =
        nameAndType c d ++
          ("PRIMARY KEY " ++ (if c.IsAutoIncrement then d.AutoIncrStr ++ " " else "")) ++
          (nullabilityClause c d ++ defaultClause c) ∧
      c.StringNoPk d = nameAndType c d ++ (nullabilityClause c d ++ defaultClause c)) := by
  refine ⟨stringNoPk_render_eq c d, ?_, ?_⟩
  · intro hpk
    unfold Column.StringNoPk Column.String
    simp only [hpk, Bool.false_eq_true, if_false]
  · intro hpk
    unfold Column.StringNoPk Column.String nameAndType nullabilityClause defaultClause
    by_cases hai : c.IsAutoIncrement = true <;>
      by_cases hn : d.ShowCreateNull = true <;> by_cases hnl : c.Nullable = true <;>
      by_cases hd : c.Default = "" <;>
      simp only [hpk, hai, hn, hnl, hd, if_true, if_false, ne_eq, not_true_eq_false,
        not_false_eq_true, Bool.false_eq_true, String.append_assoc,
        string_append_empty_right, string_empty_append_left, and_self]

/-! ### Counting the occurrences of a clause in the output -/

theorem first_occurrence_unique (ch : Char) :
    ∀ (l1 l2 r1 r2 : List Char), l1 ++ ch :: r1 = l2 ++ ch :: r2 → ch ∉ l1 → ch ∉ l2 →
      l1 = l2 := by
  intro l1
  induction l1 with
  | nil =>
    intro l2 r1 r2 h _ h2
    cases l2 with
    | nil => rfl
    | cons b l2 =>
      simp only [List.nil_append, List.cons_append, List.cons.injEq] at h
      exact absurd (List.mem_cons.2 (Or.inl h.1)) h2
  | cons a l1 ih =>
    intro l2 r1 r2 h h1 h2
    cases l2 with
    | nil =>
      simp only [List.nil_append, List.cons_append, List.cons.injEq] at h
      exact absurd (List.mem_cons.2 (Or.inl h.1.symm)) h1
    | cons b l2 =>
      simp only [List.cons_append, List.cons.injEq] at h
      rw [h.1, ih l2 r1 r2 h.2 (fun hm => h1 (List.mem_cons_of_mem _ hm))
        (fun hm => h2 (List.mem_cons_of_mem _ hm))]

theorem occurrences_cons (pat : List Char) (c : Char) (cs : List Char) :
    occurrences pat (c :: cs) =
      (if pat.isPrefixOf (c :: cs) then 1 else 0) + occurrences pat cs := rfl

theorem occurrences_eq_zero (pat : List Char) (ch : Char) (hch : ch ∈ pat) :
    ∀ s : List Char, ch ∉ s → occurrences pat s = 0 := by
  intro s
  induction s with
  | nil => intro _; rfl
  | cons c cs ih =>
    intro hs
    have hfirst : pat.isPrefixOf (c :: cs) = false := by
      cases hp : pat.isPrefixOf (c :: cs) with
      | false => rfl
      | true =>
        obtain ⟨t, ht⟩ := List.isPrefixOf_iff_prefix.1 hp
        exact absurd (ht ▸ List.mem_append_left t hch) hs
    rw [occurrences_cons, hfirst, ih (fun hm => hs (List.mem_cons_of_mem _ hm))]
    rfl

theorem occurrences_early (ch : Char) (p1 p2 : List Char) (hp1 : ch ∉ p1) :
    ∀ (l r : List Char), ch ∉ l → ch ∉ r → l.length < p1.length →
      occurrences (p1 ++ ch :: p2) (l ++ ch :: r) = 0 := by
  have hmem : ch ∈ p1 ++ ch :: p2 := List.mem_append_right _ (List.mem_cons_self _ _)
  have hfirst : ∀ (l r : List Char), ch ∉ l → l.length < p1.length →
      (p1 ++ ch :: p2).isPrefixOf (l ++ ch :: r) = false := by
    intro l r hl hlen
    cases hp : (p1 ++ ch :: p2).isPrefixOf (l ++ ch :: r) with
    | false => rfl
    | true =>
      obtain ⟨t, ht⟩ := List.isPrefixOf_iff_prefix.1 hp
      have h : p1 ++ ch :: (p2 ++ t) = l ++ ch :: r := by
        rw [← ht]
        simp only [List.append_assoc, List.cons_append]
      have := first_occurrence_unique ch p1 l _ _ h hp1 hl
      rw [this] at hlen
      exact absurd hlen (Nat.lt_irrefl _)
  intro l
  induction l with
  | nil =>
    intro r hl hr hlen
    have h1 := hfirst [] r hl hlen
    simp only [List.nil_append] at h1 ⊢
    rw [occurrences_cons, h1, occurrences_eq_zero _ ch hmem r hr]
    rfl
  | cons a l ih =>
    intro r hl hr hlen
    have h1 := hfirst (a :: l) r hl hlen
    simp only [List.cons_append] at h1 ⊢
    rw [occurrences_cons, h1,
      ih r (fun hm => hl (List.mem_cons_of_mem _ hm)) hr
        (Nat.lt_of_succ_lt (by simpa using hlen))]
    rfl

theorem occurrences_once (ch : Char) (p1 p2 post : List Char) (hp1 : ch ∉ p1)
    (hp2 : ch ∉ p2) (hpost : ch ∉ post) :
    ∀ pre : List Char, ch ∉ pre →
      occurrences (p1 ++ ch :: p2) (pre ++ (p1 ++ ch :: p2) ++ post) = 1 := by
  have hmem : ch ∈ p1 ++ ch :: p2 := List.mem_append_right _ (List.mem_cons_self _ _)
  have hrest : ch ∉ p2 ++ post := by
    intro hm
    rcases List.mem_append.1 hm with h | h
    · exact hp2 h
    · exact hpost h
  have hself : (p1 ++ ch :: p2).isPrefixOf ((p1 ++ ch :: p2) ++ post) = true :=
    List.isPrefixOf_iff_prefix.2 ⟨post, rfl⟩
  intro pre
  induction pre with
  | nil =>
    intro _
    simp only [List.nil_append]
    cases p1 with
    | nil =>
      simp only [List.nil_append, List.cons_append] at hself ⊢
      rw [occurrences_cons, hself, occurrences_eq_zero _ ch (List.mem_cons_self _ _) _ hrest]
      rfl
    | cons a p1 =>
      have hearly := occurrences_early ch (a :: p1) p2 hp1 p1 (p2 ++ post)
        (fun hm => hp1 (List.mem_cons_of_mem _ hm)) hrest (by simp)
      simp only [List.cons_append, List.append_assoc] at hself hearly ⊢
      rw [occurrences_cons, hself, hearly]
      rfl
  | cons a pre ih =>
    intro hpre
    have hfirst : (p1 ++ ch :: p2).isPrefixOf (a :: pre ++ (p1 ++ ch :: p2) ++ post) = false := by
      cases hp : (p1 ++ ch :: p2).isPrefixOf (a :: pre ++ (p1 ++ ch :: p2) ++ post) with
      | false => rfl
      | true =>
        obtain ⟨t, ht⟩ := List.isPrefixOf_iff_prefix.1 hp
        have h : p1 ++ ch :: (p2 ++ t) = (a :: pre ++ p1) ++ ch :: (p2 ++ post) := by
          rw [show p1 ++ ch :: (p2 ++ t) = (p1 ++ ch :: p2) ++ t by
            simp only [List.append_assoc, List.cons_append], ht]
          simp only [List.append_assoc, List.cons_append]
        have hne : ch ∉ a :: pre ++ p1 := by
          intro hm
          rcases List.mem_append.1 hm with h | h
          · exact hpre h
          · exact hp1 h
        have := congrArg List.length (first_occurrence_unique ch p1 _ _ _ h hp1 hne)
        simp only [List.length_append, List.length_cons] at this
        omega
    simp only [List.cons_append] at hfirst ⊢
    rw [occurrences_cons, hfirst, ih (fun hm => hpre (List.mem_cons_of_mem _ hm))]
    rfl

theorem not_mem_nameAndType (c : Column) (d : Dialect) (ch : Char) (hsp : ch ≠ ' ')
    (hq : ch ∉ d.QuoteStr.data) (hn : ch ∉ c.Name.data) (ht : ch ∉ (d.SqlType c).data) :
    ch ∉ (nameAndType c d).data := by
  unfold nameAndType
  simp only [String.data_append, List.mem_append, not_or]
  refine ⟨⟨⟨⟨hq, hn⟩, hq⟩, ?_⟩, ht, ?_⟩ <;>
    · intro h
      exact hsp (List.mem_singleton.1 h)

theorem not_mem_trailing (c : Column) (d : Dialect) (ch : Char)
    (hwords : ch ∉ "PRIMARY KEY NOT NULL DEFAULT ".data) (hd : ch ∉ c.Default.data) :
    ch ∉ (nullabilityClause c d ++ defaultClause c).data := by
  have hsub : ∀ w : List Char, (∀ x ∈ w, x ∈ "PRIMARY KEY NOT NULL DEFAULT ".data) → ch ∉ w :=
    fun w hw hm => hwords (hw ch hm)
  have h1 : ch ∉ "NULL ".data := hsub _ (by decide)
  have h2 : ch ∉ "NOT NULL ".data := hsub _ (by decide)
  have h3 : ch ∉ "DEFAULT ".data := hsub _ (by decide)
  have h4 : ch ∉ " ".data := hsub _ (by decide)
  have h5 : ch ∉ "".data := hsub _ (by decide)
  unfold nullabilityClause defaultClause
  simp only [String.data_append, List.mem_append, not_or]
  refine ⟨?_, ?_⟩
  · split_ifs
    · exact h1
    · exact h2
    · exact h5
  · split_ifs
    · simp only [String.data_append, List.mem_append, not_or]
      exact ⟨⟨h3, hd⟩, h4⟩
    · exact h5

theorem string_render_primary_key (c : Column) (d : Dialect)
    (hpk : c.IsPrimaryKey = true) (hai : c.IsAutoIncrement = true) :
    c.String d =
        nameAndType c d ++ "PRIMARY KEY " ++ (d.AutoIncrStr ++ " ") ++
          (nullabilityClause c d ++ defaultClause c) ∧
    c.StringNoPk d = nameAndType c d ++ (nullabilityClause c d ++ defaultClause c) := by
  unfold Column.StringNoPk Column.String nameAndType nullabilityClause defaultClause
  by_cases hn : d.ShowCreateNull = true <;> by_cases hnl : c.Nullable = true <;>
    by_cases hd : c.Default = "" <;>
    simp only [hpk, hai, hn, hnl, hd, if_true, if_false, ne_eq, not_true_eq_false,
      not_false_eq_true, Bool.false_eq_true, String.append_assoc,
      string_append_empty_right, string_empty_append_left, and_self]

theorem occurrences_in_rendering (c : Column) (d : Dialect)
    (hpk : c.IsPrimaryKey = true) (hai : c.IsAutoIncrement = true)
    (ch : Char) (hwords : ch ∉ "PRIMARY KEY NOT NULL DEFAULT ".data)
    (hq : ch ∉ d.QuoteStr.data) (hn : ch ∉ c.Name.data) (ht : ch ∉ (d.SqlType c).data)
    (hd : ch ∉ c.Default.data) (k1 k2 : List Char)
    (hkey : d.AutoIncrStr.data = k1 ++ ch :: k2) (hk1 : ch ∉ k1) (hk2 : ch ∉ k2) :
    occurrencesIn d.AutoIncrStr (c.String d) = 1 ∧
    occurrencesIn d.AutoIncrStr (c.StringNoPk d) = 0 := by
  have hsub : ∀ w : List Char, (∀ x ∈ w, x ∈ "PRIMARY KEY NOT NULL DEFAULT ".data) → ch ∉ w :=
    fun w hw hm => hwords (hw ch hm)
  have hsp : ch ≠ ' ' := fun h => hsub [' '] (by decide) (h ▸ List.mem_singleton_self _)
  have hpkc : ch ∉ "PRIMARY KEY ".data := hsub _ (by decide)
  have hnt := not_mem_nameAndType c d ch hsp hq hn ht
  have htr := not_mem_trailing c d ch hwords hd
  obtain ⟨hs, hsn⟩ := string_render_primary_key c d hpk hai
  refine ⟨?_, ?_⟩
  · have hdata : (c.String d).data =
        ((nameAndType c d).data ++ "PRIMARY KEY ".data) ++ (k1 ++ ch :: k2) ++
          (" ".data ++ (nullabilityClause c d ++ defaultClause c).data) := by
      rw [hs]
      simp only [String.data_append, hkey, List.append_assoc]
    unfold occurrencesIn
    rw [hdata, hkey]
    apply occurrences_once ch k1 k2 _ hk1 hk2
    · intro hm
      rcases List.mem_append.1 hm with h | h
      · exact hsp (List.mem_singleton.1 h)
      · exact htr h
    · intro hm
      rcases List.mem_append.1 hm with h | h
      · exact hnt h
      · exact hpkc h
  · unfold occurrencesIn
    apply occurrences_eq_zero _ ch
    · rw [hkey]
      exact List.mem_append_right _ (List.mem_cons_self _ _)
    · rw [hsn, String.data_append]
      intro hm
      rcases List.mem_append.1 hm with h | h
      · exact hnt h
      · exact htr h

theorem occurrences_of_primary_key (c : Column) (d : Dialect)
    (hpk : c.IsPrimaryKey = true) (hai : c.IsAutoIncrement = true)
    (hq : 'K' ∉ d.QuoteStr.data) (hn : 'K' ∉ c.Name.data) (ht : 'K' ∉ (d.SqlType c).data)
    (ha : 'K' ∉ d.AutoIncrStr.data) (hd : 'K' ∉ c.Default.data) :
    occurrencesIn "PRIMARY KEY " (c.String d) = 1 ∧
    occurrencesIn "PRIMARY KEY " (c.StringNoPk d) = 0 := by
  have hnt := not_mem_nameAndType c d 'K' (by decide) hq hn ht
  have hnull : 'K' ∉ (nullabilityClause c d).data := by
    unfold nullabilityClause
    split_ifs <;> decide
  have hdef : 'K' ∉ (defaultClause c).data := by
    unfold defaultClause
    split_ifs
    · simp only [String.data_append, List.mem_append, not_or]
      exact ⟨⟨by decide, hd⟩, by decide⟩
    · decide
  have htr : 'K' ∉ (nullabilityClause c d ++ defaultClause c).data := by
    rw [String.data_append]
    intro hm
    rcases List.mem_append.1 hm with h | h
    · exact hnull h
    · exact hdef h
  obtain ⟨hs, hsn⟩ := string_render_primary_key c d hpk hai
  refine ⟨?_, ?_⟩
  · have hdata : (c.String d).data =
        (nameAndType c d).data ++ ("PRIMARY ".data ++ 'K' :: "EY ".data) ++
          ((d.AutoIncrStr ++ " ").data ++ (nullabilityClause c d ++ defaultClause c).data) := by
      rw [hs]
      simp only [String.data_append, List.append_assoc]
      rfl
    unfold occurrencesIn
    rw [hdata]
    have hpat : "PRIMARY KEY ".data = "PRIMARY ".data ++ 'K' :: "EY ".data := rfl
    rw [hpat]
    apply occurrences_once 'K' "PRIMARY ".data "EY ".data _ (by decide) (by decide) _ _ hnt
    intro hm
    rcases List.mem_append.1 hm with h | h
    · rw [String.data_append] at h
      rcases List.mem_append.1 h with h | h
      · exact ha h
      · revert h
        decide
    · exact htr h
  · unfold occurrencesIn
    apply occurrences_eq_zero _ 'K' (by decide)
    rw [hsn, String.data_append]
    intro hm
    rcases List.mem_append.1 hm with h | h
    · exact hnt h
    · exact htr h

/-- C3, refuted as stated. The output contains what the column and the dialect supply,
so the two clauses need not occur once, nor be absent from `Column.StringNoPk`. With
the auto-increment keyword `PRIMARY KEY` the output of `Column.String` holds
`"PRIMARY KEY "` twice; for a column named `PRIMARY KEY ` the output of
`Column.StringNoPk` holds it; for a column whose default is `AUTOINCREMENT` the
keyword occurs twice in the output of `Column.String` and once in that of
`Column.StringNoPk`. All three columns are primary key and auto-increment. -/
theorem primary_key_clause_not_once :
    idColumn.IsPrimaryKey = true ∧ idColumn.IsAutoIncrement = true ∧
    idColumn.String { stubDialect with AutoIncrStr := "PRIMARY KEY" } =
      "`id` INT PRIMARY KEY PRIMARY KEY NOT NULL " ∧
    occurrencesIn "PRIMARY KEY "
      (idColumn.String { stubDialect with AutoIncrStr := "PRIMARY KEY" }) = 2 ∧
    ({ idColumn with Name := "PRIMARY KEY " } : Column).StringNoPk stubDialect =
      "`PRIMARY KEY ` INT NOT NULL " ∧
    occurrencesIn "PRIMARY KEY "
      (({ idColumn with Name := "PRIMARY KEY " } : Column).StringNoPk stubDialect) = 1 ∧
    occurrencesIn stubDialect.AutoIncrStr
      (({ idColumn with Default := "AUTOINCREMENT" } : Column).String stubDialect) = 2 ∧
    occurrencesIn stubDialect.AutoIncrStr
      (({ idColumn with Default := "AUTOINCREMENT" } : Column).StringNoPk stubDialect) = 1 := by
  refine ⟨rfl, rfl, rfl, ?_, rfl, ?_, ?_, ?_⟩ <;> decide

/-- C3, amended. For a primary-key, auto-increment column, the output of
`Column.String` is name and type, then `"PRIMARY KEY "`, then the dialect's
auto-increment keyword and a space, then the nullability and default clauses; the
output of `Column.StringNoPk` is name and type followed directly by the nullability and
default clauses. When the letter `K` occurs in none of the texts the column and the
dialect supply (quote string, name, type rendering, keyword, default), `"PRIMARY KEY "`
occurs exactly once in the output of `Column.String` and not at all in that of
`Column.StringNoPk`. When the keyword has a character that occurs once in it and
neither in the fixed words of the renderer nor in the other supplied texts, the
keyword occurs exactly once in the output of `Column.String` and not at all in that of
`Column.StringNoPk`. -/
theorem String_primary_key_clause_once (c : Column) (d : Dialect)
    (hpk : c.IsPrimaryKey = true) (hai : c.IsAutoIncrement = true) :
    c.String d =
        nameAndType c d ++ "PRIMARY KEY " ++ (d.AutoIncrStr ++ " ") ++
          (nullabilityClause c d ++ defaultClause c) ∧
    c.StringNoPk d = nameAndType c d ++ (nullabilityClause c d ++ defaultClause c) ∧
    ('K' ∉ d.QuoteStr.data → 'K' ∉ c.Name.data → 'K' ∉ (d.SqlType c).data →
      'K' ∉ d.AutoIncrStr.data → 'K' ∉ c.Default.data →
      occurrencesIn "PRIMARY KEY " (c.String d) = 1 ∧
      occurrencesIn "PRIMARY KEY " (c.StringNoPk d) = 0) ∧
    (∀ (ch : Char) (k1 k2 : List Char),
      d.AutoIncrStr.data = k1 ++ ch :: k2 → ch ∉ k1 → ch ∉ k2 →
      ch ∉ "PRIMARY KEY NOT NULL DEFAULT ".data →
      ch ∉ d.QuoteStr.data → ch ∉ c.Name.data → ch ∉ (d.SqlType c).data →
      ch ∉ c.Default.data →
      occurrencesIn d.AutoIncrStr (c.String d) = 1 ∧
      occurrencesIn d.AutoIncrStr (c.StringNoPk d) = 0) :=
  ⟨(string_render_primary_key c d hpk hai).1, (string_render_primary_key c d hpk hai).2,
    occurrences_of_primary_key c d hpk hai,
    fun ch k1 k2 hkey hk1 hk2 hwords hq hn ht hd =>
      occurrences_in_rendering c d hpk hai ch hwords hq hn ht hd k1 k2 hkey hk1 hk2⟩

/-- Witness of C3 on the scenario column and the stub dialect: `"PRIMARY KEY "` and
the keyword `AUTOINCREMENT`, told apart by its letter `C`, occur once each. -/
theorem String_primary_key_clause_once_witness :
    idColumn.IsPrimaryKey = true ∧ idColumn.IsAutoIncrement = true ∧
    (occurrencesIn "PRIMARY KEY " (idColumn.String stubDialect) = 1 ∧
      occurrencesIn "PRIMARY KEY " (idColumn.StringNoPk stubDialect) = 0) ∧
    (occurrencesIn "AUTOINCREMENT" (idColumn.String stubDialect) = 1 ∧
      occurrencesIn "AUTOINCREMENT" (idColumn.StringNoPk stubDialect) = 0) :=
  have h := String_primary_key_clause_once idColumn stubDialect rfl rfl
  ⟨rfl, rfl,
    h.2.2.1 (by decide) (by decide) (by decide) (by decide) (by decide),
    h.2.2.2 'C' "AUTOIN".data "REMENT".data rfl (by decide) (by decide) (by decide)
      (by decide) (by decide) (by decide) (by decide)⟩
theorem endsSpace_append (a : String) {b : String} (h : ∃ t, b = t ++ " ") :
    ∃ t, a ++ b = t ++ " " := by
  obtain ⟨t, rfl⟩ := h
  exact ⟨a ++ t, (String.append_assoc a t " ").symm⟩

theorem endsSpace_last {s : String} (h : ∃ t, s = t ++ " ") :
    s ≠ "" ∧ s.data.getLast? = some ' ' := by
  obtain ⟨t, rfl⟩ := h
  have hdata : (t ++ " ").data = t.data ++ [' '] := by
    rw [String.data_append]
  refine ⟨?_, ?_⟩
  · intro hempty
    have h2 := congrArg String.data hempty
    rw [hdata] at h2
    exact List.append_ne_nil_of_right_ne_nil _ (List.cons_ne_nil _ _) h2
  · rw [hdata, List.getLast?_append]
    rfl

theorem String_endsSpace (c : Column) (d : Dialect) : ∃ t, c.String d = t ++ " " := by
  unfold Column.String
  simp only []
  split_ifs
  all_goals
    first
    | exact endsSpace_append _ ⟨_, rfl⟩
    | exact endsSpace_append _ ⟨"NULL", rfl⟩
    | exact endsSpace_append _ ⟨"NOT NULL", rfl⟩
    | exact endsSpace_append _ ⟨"PRIMARY KEY", rfl⟩

theorem StringNoPk_endsSpace (c : Column) (d : Dialect) :
    ∃ t, c.StringNoPk d = t ++ " " := by
  unfold Column.StringNoPk
  simp only []
  split_ifs
  all_goals
    first
    | exact endsSpace_append _ ⟨_, rfl⟩
    | exact endsSpace_append _ ⟨"NULL", rfl⟩
    | exact endsSpace_append _ ⟨"NOT NULL", rfl⟩

/-- C4. The outputs of `Column.String` and `Column.StringNoPk` end in a space: each is
a non-empty string whose last character is a space, for every column and dialect. -/
theorem String_and_StringNoPk_end_with_space (c : Column) (d : Dialect) :
    (c.String d ≠ "" ∧ (c.String d).data.getLast? = some ' ') ∧
    (c.StringNoPk d ≠ "" ∧ (c.StringNoPk d).data.getLast? = some ' ') :=
  ⟨endsSpace_last (String_endsSpace c d), endsSpace_last (StringNoPk_endsSpace c d)⟩

/-- C5. A column named `id` that is primary key and auto-increment, not nullable and
without default renders, with the stub dialect, as
`id` INT PRIMARY KEY AUTOINCREMENT NOT NULL through `Column.String` and as
`id` INT NOT NULL through `Column.StringNoPk`, each ended by one space. -/
theorem id_column_rendering (c : Column) (hname : c.Name = "id")
    (hpk : c.IsPrimaryKey = true) (hai : c.IsAutoIncrement = true)
    (hnull : c.Nullable = false) (hdef : c.Default = "") :
    c.String stubDialect = "`id` INT PRIMARY KEY AUTOINCREMENT NOT NULL " ∧
    c.StringNoPk stubDialect = "`id` INT NOT NULL " := by
  unfold Column.String Column.StringNoPk stubDialect
  simp only [hname, hpk, hai, hnull, hdef, if_true, if_false, ne_eq, not_true_eq_false,
    Bool.false_eq_true]
  exact ⟨rfl, rfl⟩

/-- Witness of C5 on the scenario column, whose `FieldName` is `ID`. -/
theorem id_column_rendering_witness :
    idColumn.FieldName = "ID" ∧
    idColumn.String stubDialect = "`id` INT PRIMARY KEY AUTOINCREMENT NOT NULL " ∧
    idColumn.StringNoPk stubDialect = "`id` INT NOT NULL " :=
  ⟨rfl, id_column_rendering idColumn rfl rfl rfl rfl rfl⟩
/-! ## Paths, fields and the split of the field name -/

open reflect

theorem lookup_setField_same (n : String) (f : GoVal → GoVal) (fs : List (String × GoVal)) :
    (setField n f fs).lookup n = (fs.lookup n).map f := by
  induction fs with
  | nil => rfl
  | cons x xs ih =>
    obtain ⟨m, v⟩ := x
    by_cases h : m = n
    · subst h
      simp [setField, List.lookup]
    · have h2 : (n == m) = false := by
        simp only [beq_eq_false_iff_ne, ne_eq]
        exact fun e => h e.symm
      simp [setField, h, List.lookup, h2, ih]

theorem mapaccess_setEntry_same (k : String) (f : GoVal → GoVal)
    (es : List (GoVal × GoVal)) :
    mapaccess k (setEntry k f es) = (mapaccess k es).map f := by
  induction es with
  | nil => rfl
  | cons x xs ih =>
    obtain ⟨key, v⟩ := x
    by_cases h : isStringKey k key = true
    · simp [setEntry, mapaccess, h]
    · simp [setEntry, mapaccess, h, ih]

theorem lookup_zeroFields (n : String) (gs : List (String × GoType)) :
    (GoType.zeroFields gs).lookup n = (gs.lookup n).map GoType.zero := by
  induction gs with
  | nil => rfl
  | cons x xs ih =>
    obtain ⟨m, t⟩ := x
    by_cases h : (n == m) = true
    · simp [GoType.zeroFields, List.lookup, h]
    · simp [GoType.zeroFields, List.lookup, h, ih]

theorem getAt_nil (v : GoVal) : v.getAt [] = some v := by
  simp [GoVal.getAt]

theorem getAt_cons (v : GoVal) (s : Step) (p : List Step) :
    v.getAt (s :: p) = (v.step s).bind (fun x => x.getAt p) := by
  rw [GoVal.getAt]
  cases v.step s <;> rfl

theorem getAt_append (v : GoVal) (p q : List Step) :
    v.getAt (p ++ q) = (v.getAt p).bind (fun x => x.getAt q) := by
  induction p generalizing v with
  | nil => simp [getAt_nil]
  | cons s p ih =>
    rw [List.cons_append, getAt_cons, getAt_cons]
    cases v.step s with
    | none => rfl
    | some x => simp [ih]

theorem step_setAt_cons (v : GoVal) (s : Step) (p : List Step) (new x : GoVal)
    (h : v.step s = some x) :
    (v.setAt (s :: p) new).step s = some (x.setAt p new) := by
  cases v with
  | struct fs em =>
    cases s <;> simp [GoVal.step] at h
    simp [GoVal.setAt, GoVal.step, lookup_setField_same, h]
  | ptr e t =>
    cases t <;> cases s <;> simp [GoVal.step] at h
    subst h
    simp [GoVal.setAt, GoVal.step]
  | iface t =>
    cases t <;> cases s <;> simp [GoVal.step] at h
    subst h
    simp [GoVal.setAt, GoVal.step]
  | map k e es =>
    cases s <;> simp [GoVal.step] at h
    simp [GoVal.setAt, GoVal.step, mapaccess_setEntry_same, h]
  | str _ => cases s <;> simp [GoVal.step] at h
  | int _ => cases s <;> simp [GoVal.step] at h
  | bool _ => cases s <;> simp [GoVal.step] at h

theorem getAt_setAt_prefix (v : GoVal) (p q : List Step) (new x : GoVal)
    (h : v.getAt p = some x) :
    (v.setAt (p ++ q) new).getAt p = some (x.setAt q new) := by
  induction p generalizing v with
  | nil =>
    simp [getAt_nil] at h
    subst h
    simp [getAt_nil]
  | cons s p ih =>
    rw [getAt_cons] at h
    cases hs : v.step s with
    | none => simp [hs] at h
    | some y =>
      rw [hs] at h
      simp only [Option.some_bind] at h
      rw [List.cons_append, getAt_cons, step_setAt_cons v s (p ++ q) new y hs]
      simp only [Option.some_bind]
      exact ih y h

theorem splitChars_no_sep (sep : Char) (l : List Char) (h : sep ∉ l) :
    strings.splitChars sep l = [l] := by
  induction l with
  | nil => rfl
  | cons c cs ih =>
    have hc : c ≠ sep := fun e => h (by simp [e])
    have hcs : sep ∉ cs := fun e => h (by simp [e])
    simp [strings.splitChars, hc, ih hcs]

theorem splitChars_append_sep (sep : Char) (l r : List Char) (h : sep ∉ l) :
    strings.splitChars sep (l ++ sep :: r) = l :: strings.splitChars sep r := by
  induction l with
  | nil => simp [strings.splitChars]
  | cons c cs ih =>
    have hc : c ≠ sep := fun e => h (by simp [e])
    have hcs : sep ∉ cs := fun e => h (by simp [e])
    simp [strings.splitChars, hc, ih hcs]

theorem splitChars_ne_nil (sep : Char) (l : List Char) : strings.splitChars sep l ≠ [] := by
  induction l with
  | nil => simp [strings.splitChars]
  | cons c cs ih =>
    unfold strings.splitChars
    split_ifs
    · simp
    · split <;> simp

theorem Split_ne_nil (s : String) (sep : Char) : strings.Split s sep ≠ [] := by
  unfold strings.Split
  simpa using splitChars_ne_nil sep s.data

theorem Split_single (s : String) (sep : Char) (h : sep ∉ s.data) :
    strings.Split s sep = [s] := by
  unfold strings.Split
  rw [splitChars_no_sep sep s.data h]
  rfl

theorem Split_pair (a b : String) (ha : '.' ∉ a.data) (hb : '.' ∉ b.data) :
    strings.Split (a ++ "." ++ b) '.' = [a, b] := by
  unfold strings.Split
  have : (a ++ "." ++ b).data = a.data ++ '.' :: b.data := by
    simp [String.data_append]
  rw [this, splitChars_append_sep '.' _ _ ha, splitChars_no_sep '.' _ hb]
  rfl

theorem splitFieldPath_FieldName (c : Column) :
    c.splitFieldPath.FieldName = c.FieldName := by
  unfold Column.splitFieldPath
  split_ifs <;> rfl

theorem splitFieldPath_fieldPath (c : Column) (h : c.cacheCoherent) :
    c.splitFieldPath.fieldPath = some (strings.Split c.FieldName '.') := by
  unfold Column.splitFieldPath
  rcases h with h | h
  · simp [h]
  · simp [h]

theorem setField_congr (n : String) (f g : GoVal → GoVal) (fs : List (String × GoVal))
    (h : ∀ y, fs.lookup n = some y → f y = g y) : setField n f fs = setField n g fs := by
  induction fs with
  | nil => rfl
  | cons x xs ih =>
    obtain ⟨k, v⟩ := x
    by_cases hk : k = n
    · subst hk
      have := h v (by simp [List.lookup])
      simp [setField, this]
    · have hk2 : (n == k) = false := by
        simp only [beq_eq_false_iff_ne, ne_eq]
        exact fun e => hk e.symm
      simp only [setField, hk, if_false, List.cons.injEq, true_and]
      apply ih
      intro y hy
      apply h
      simp [List.lookup, hk2, hy]

theorem setField_self (n : String) (f : GoVal → GoVal) (fs : List (String × GoVal))
    (h : ∀ y, fs.lookup n = some y → f y = y) : setField n f fs = fs := by
  induction fs with
  | nil => rfl
  | cons x xs ih =>
    obtain ⟨k, v⟩ := x
    by_cases hk : k = n
    · subst hk
      have := h v (by simp [List.lookup])
      simp [setField, this]
    · have hk2 : (n == k) = false := by
        simp only [beq_eq_false_iff_ne, ne_eq]
        exact fun e => hk e.symm
      simp only [setField, hk, if_false, List.cons.injEq, true_and]
      apply ih
      intro y hy
      apply h
      simp [List.lookup, hk2, hy]

theorem setField_setField (n : String) (f g : GoVal → GoVal) (fs : List (String × GoVal)) :
    setField n g (setField n f fs) = setField n (fun y => g (f y)) fs := by
  induction fs with
  | nil => rfl
  | cons x xs ih =>
    obtain ⟨k, v⟩ := x
    by_cases hk : k = n
    · simp [setField, hk]
    · simp [setField, hk, ih]

theorem setEntry_self (k : String) (f : GoVal → GoVal) (es : List (GoVal × GoVal))
    (h : ∀ y, mapaccess k es = some y → f y = y) : setEntry k f es = es := by
  induction es with
  | nil => rfl
  | cons x xs ih =>
    obtain ⟨key, v⟩ := x
    by_cases hk : isStringKey k key = true
    · have := h v (by simp [mapaccess, hk])
      simp [setEntry, hk, this]
    · simp only [setEntry, hk, Bool.false_eq_true, if_false, List.cons.injEq, true_and]
      apply ih
      intro y hy
      apply h
      simp [mapaccess, hk, hy]

theorem setEntry_setEntry (k : String) (f g : GoVal → GoVal) (es : List (GoVal × GoVal)) :
    setEntry k g (setEntry k f es) = setEntry k (fun y => g (f y)) es := by
  induction es with
  | nil => rfl
  | cons x xs ih =>
    obtain ⟨key, v⟩ := x
    by_cases hk : isStringKey k key = true
    · simp [setEntry, hk]
    · simp [setEntry, hk, ih]

theorem setEntry_congr (k : String) (f g : GoVal → GoVal) (es : List (GoVal × GoVal))
    (h : ∀ y, mapaccess k es = some y → f y = g y) : setEntry k f es = setEntry k g es := by
  induction es with
  | nil => rfl
  | cons x xs ih =>
    obtain ⟨key, v⟩ := x
    by_cases hk : isStringKey k key = true
    · have := h v (by simp [mapaccess, hk])
      simp [setEntry, hk, this]
    · simp only [setEntry, hk, Bool.false_eq_true, if_false, List.cons.injEq, true_and]
      apply ih
      intro y hy
      apply h
      simp [mapaccess, hk, hy]

theorem setAt_cons_of_step (v : GoVal) (s : Step) (p : List Step) (new x : GoVal)
    (h : v.step s = some x) :
    v.setAt (s :: p) new = v.setAt [s] (x.setAt p new) := by
  cases v with
  | struct fs em =>
    cases s <;> simp [GoVal.step] at h
    simp only [GoVal.setAt]
    congr 1
    apply setField_congr
    intro y hy
    rw [h] at hy
    cases hy
    rfl
  | ptr e t =>
    cases t <;> cases s <;> simp [GoVal.step] at h
    subst h
    simp [GoVal.setAt]
  | iface t =>
    cases t <;> cases s <;> simp [GoVal.step] at h
    subst h
    simp [GoVal.setAt]
  | map k e es =>
    cases s <;> simp [GoVal.step] at h
    simp only [GoVal.setAt]
    congr 1
    apply setEntry_congr
    intro y hy
    rw [h] at hy
    cases hy
    rfl
  | str _ => cases s <;> simp [GoVal.step] at h
  | int _ => cases s <;> simp [GoVal.step] at h
  | bool _ => cases s <;> simp [GoVal.step] at h

theorem setAt_append (v : GoVal) (p q : List Step) (new x : GoVal)
    (h : v.getAt p = some x) :
    v.setAt (p ++ q) new = v.setAt p (x.setAt q new) := by
  induction p generalizing v with
  | nil =>
    simp [getAt_nil] at h
    subst h
    simp [GoVal.setAt]
  | cons s p ih =>
    rw [getAt_cons] at h
    cases hs : v.step s with
    | none => simp [hs] at h
    | some y =>
      rw [hs] at h
      simp only [Option.some_bind] at h
      rw [List.cons_append, setAt_cons_of_step v s (p ++ q) new y hs,
        setAt_cons_of_step v s p _ y hs, ih y h]

theorem setAt_setAt (v : GoVal) (p : List Step) (a b : GoVal) :
    (v.setAt p a).setAt p b = v.setAt p b := by
  induction p generalizing v with
  | nil => simp [GoVal.setAt]
  | cons s p ih =>
    cases v with
    | struct fs em =>
      cases s <;> simp only [GoVal.setAt]
      rw [setField_setField]
      congr 1
      apply setField_congr
      intro y _
      exact ih y
    | ptr e t =>
      cases t <;> cases s <;> simp only [GoVal.setAt]
      rw [ih]
    | iface t =>
      cases t <;> cases s <;> simp only [GoVal.setAt]
      rw [ih]
    | map k e es =>
      cases s <;> simp only [GoVal.setAt]
      rw [setEntry_setEntry]
      congr 1
      apply setEntry_congr
      intro y _
      exact ih y
    | str _ => cases s <;> simp only [GoVal.setAt]
    | int _ => cases s <;> simp only [GoVal.setAt]
    | bool _ => cases s <;> simp only [GoVal.setAt]

theorem setAt_getAt_self (v : GoVal) (p : List Step) (x : GoVal) (h : v.getAt p = some x) :
    v.setAt p x = v := by
  induction p generalizing v with
  | nil =>
    simp [getAt_nil] at h
    subst h
    simp [GoVal.setAt]
  | cons s p ih =>
    rw [getAt_cons] at h
    cases hs : v.step s with
    | none => simp [hs] at h
    | some y =>
      rw [hs] at h
      simp only [Option.some_bind] at h
      cases v with
      | struct fs em =>
        cases s <;> simp [GoVal.step] at hs
        simp only [GoVal.setAt]
        congr 1
        apply setField_self
        intro z hz
        rw [hs] at hz
        cases hz
        exact ih y h
      | ptr e t =>
        cases t <;> cases s <;> simp [GoVal.step] at hs
        subst hs
        simp [GoVal.setAt, ih _ h]
      | iface t =>
        cases t <;> cases s <;> simp [GoVal.step] at hs
        subst hs
        simp [GoVal.setAt, ih _ h]
      | map k e es =>
        cases s <;> simp [GoVal.step] at hs
        simp only [GoVal.setAt]
        congr 1
        apply setEntry_self
        intro z hz
        rw [hs] at hz
        cases hz
        exact ih y h
      | str _ => cases s <;> simp [GoVal.step] at hs
      | int _ => cases s <;> simp [GoVal.step] at hs
      | bool _ => cases s <;> simp [GoVal.step] at hs

theorem lookup_fieldTypes (n : String) (fs : List (String × GoVal)) :
    (GoVal.fieldTypes fs).lookup n = (fs.lookup n).map GoVal.Type := by
  induction fs with
  | nil => rfl
  | cons x xs ih =>
    obtain ⟨m, v⟩ := x
    by_cases h : (n == m) = true
    · simp [GoVal.fieldTypes, List.lookup, h]
    · simp [GoVal.fieldTypes, List.lookup, h, ih]

theorem fieldTypes_setField (n : String) (f : GoVal → GoVal) (fs : List (String × GoVal))
    (h : ∀ y, fs.lookup n = some y → (f y).Type = y.Type) :
    GoVal.fieldTypes (setField n f fs) = GoVal.fieldTypes fs := by
  induction fs with
  | nil => rfl
  | cons x xs ih =>
    obtain ⟨k, v⟩ := x
    by_cases hk : k = n
    · subst hk
      have := h v (by simp [List.lookup])
      simp [setField, GoVal.fieldTypes, this]
    · have hk2 : (n == k) = false := by
        simp only [beq_eq_false_iff_ne, ne_eq]
        exact fun e => hk e.symm
      simp only [setField, hk, if_false, GoVal.fieldTypes, List.cons.injEq, true_and]
      apply ih
      intro y hy
      apply h
      simp [List.lookup, hk2, hy]

/-- Overwriting a value by one of the same type leaves the type of every value above it
as it is. -/
theorem Type_setAt (v : GoVal) (p : List Step) (old new : GoVal)
    (h : v.getAt p = some old) (hT : new.Type = old.Type) :
    (v.setAt p new).Type = v.Type := by
  induction p generalizing v with
  | nil =>
    simp [getAt_nil] at h
    subst h
    simpa [GoVal.setAt] using hT
  | cons s p ih =>
    rw [getAt_cons] at h
    cases hs : v.step s with
    | none => simp [hs] at h
    | some y =>
      rw [hs] at h
      simp only [Option.some_bind] at h
      cases v with
      | struct fs em =>
        cases s <;> simp [GoVal.step] at hs
        simp only [GoVal.setAt, GoVal.Type]
        congr 1
        apply fieldTypes_setField
        intro z hz
        rw [hs] at hz
        cases hz
        exact ih y h
      | ptr e t =>
        cases t <;> cases s <;> simp [GoVal.step] at hs
        simp [GoVal.setAt, GoVal.Type]
      | iface t =>
        cases t <;> cases s <;> simp [GoVal.step] at hs
        simp [GoVal.setAt, GoVal.Type]
      | map k e es =>
        cases s <;> simp [GoVal.step] at hs
        simp [GoVal.setAt, GoVal.Type]
      | str _ => cases s <;> simp [GoVal.step] at hs
      | int _ => cases s <;> simp [GoVal.step] at hs
      | bool _ => cases s <;> simp [GoVal.step] at hs

mutual
theorem identical_refl : ∀ t : GoType, t.identical t = true
  | .string => rfl
  | .int => rfl
  | .bool => rfl
  | .struct fs em => by
    simp only [GoType.identical, identicalFields_refl fs, beq_self_eq_true, Bool.and_self]
  | .ptr e => by
    simp only [GoType.identical, identical_refl e]
  | .map k e => by
    simp only [GoType.identical, identical_refl k, identical_refl e, Bool.and_self]
  | .iface => rfl
theorem identicalFields_refl : ∀ fs : List (String × GoType), GoType.identicalFields fs fs = true
  | [] => rfl
  | (n, t) :: fs => by
    simp only [GoType.identicalFields, beq_self_eq_true, identical_refl t,
      identicalFields_refl fs, Bool.and_self]
end

mutual
theorem identical_eq : ∀ t u : GoType, t.identical u = true → t = u
  | .string, u => by cases u <;> simp [GoType.identical]
  | .int, u => by cases u <;> simp [GoType.identical]
  | .bool, u => by cases u <;> simp [GoType.identical]
  | .iface, u => by cases u <;> simp [GoType.identical]
  | .struct fs em, u => by
    cases u <;> simp only [GoType.identical, Bool.false_eq_true, false_implies]
    rename_i gs en
    intro h
    simp only [Bool.and_eq_true, beq_iff_eq] at h
    rw [identicalFields_eq fs gs h.1, h.2]
  | .ptr e, u => by
    cases u <;> simp only [GoType.identical, Bool.false_eq_true, false_implies]
    rename_i e2
    intro h
    rw [identical_eq e e2 h]
  | .map k e, u => by
    cases u <;> simp only [GoType.identical, Bool.false_eq_true, false_implies]
    rename_i k2 e2
    intro h
    simp only [Bool.and_eq_true] at h
    rw [identical_eq k k2 h.1, identical_eq e e2 h.2]
theorem identicalFields_eq :
    ∀ fs gs : List (String × GoType), GoType.identicalFields fs gs = true → fs = gs
  | [], gs => by cases gs <;> simp [GoType.identicalFields]
  | (n, t) :: fs, gs => by
    cases gs with
    | nil => simp [GoType.identicalFields]
    | cons g gs =>
      obtain ⟨m, u⟩ := g
      intro h
      simp only [GoType.identicalFields, Bool.and_eq_true, beq_iff_eq] at h
      rw [h.1.1, identical_eq t u h.1.2, identicalFields_eq fs gs h.2]
end

/-- What `Set` stores has the type of the location. -/
theorem assignTo_Type (x y : GoVal) (t : GoType) (h : x.assignTo t = some y) : y.Type = t := by
  unfold GoVal.assignTo at h
  split_ifs at h with hid
  · simp only [Option.some.injEq] at h
    subst h
    exact identical_eq _ _ hid
  · cases t <;> simp at h
    subst h
    rfl

theorem assignTo_self (x : GoVal) : x.assignTo x.Type = some x := by
  simp [GoVal.assignTo, identical_refl]

theorem assignTo_of_Type (x : GoVal) (t : GoType) (h : x.Type = t) : x.assignTo t = some x := by
  subst h
  exact assignTo_self x

theorem lookup_setField_other (n m : String) (f : GoVal → GoVal)
    (fs : List (String × GoVal)) (h : m ≠ n) :
    (setField n f fs).lookup m = fs.lookup m := by
  induction fs with
  | nil => rfl
  | cons x xs ih =>
    obtain ⟨k, v⟩ := x
    by_cases hk : k = n
    · subst hk
      have h2 : (m == k) = false := by simpa using h
      simp [setField, List.lookup, h2]
    · by_cases hm : (m == k) = true
      · simp [setField, hk, List.lookup, hm]
      · simp [setField, hk, List.lookup, hm, ih]

theorem getAt_field (heap : GoVal) (p : List Step) (gs : List (String × GoVal))
    (em : List String) (next : String) (h : heap.getAt p = some (.struct gs em)) :
    heap.getAt (p ++ [Step.field next]) = gs.lookup next := by
  rw [getAt_append, h]
  simp only [Option.some_bind, getAt_cons, GoVal.step]
  cases gs.lookup next <;> simp [getAt_nil]

theorem getAt_deref (heap : GoVal) (p : List Step) (e : GoType) (z : GoVal)
    (h : heap.getAt p = some (.ptr e (some z))) :
    heap.getAt (p ++ [Step.deref]) = some z := by
  rw [getAt_append, h]
  simp [getAt_cons, GoVal.step, getAt_nil]

theorem getAt_setAt_self (heap : GoVal) (p : List Step) (old new : GoVal)
    (h : heap.getAt p = some old) : (heap.setAt p new).getAt p = some new := by
  have := getAt_setAt_prefix heap p [] new old h
  simpa [GoVal.setAt] using this

theorem isStringKey_unique (k k2 : String) (key : GoVal) (h : k ≠ k2)
    (hk : isStringKey k key = true) : isStringKey k2 key = false := by
  cases key with
  | str s =>
    simp only [isStringKey, beq_iff_eq] at hk
    subst hk
    simpa [isStringKey] using h
  | iface t =>
    cases t with
    | none => simp [isStringKey] at hk
    | some x =>
      cases x <;> simp only [isStringKey, Bool.false_eq_true] at hk
      rename_i s
      simp only [beq_iff_eq] at hk
      subst hk
      simpa [isStringKey] using h
  | int _ => simp [isStringKey] at hk
  | bool _ => simp [isStringKey] at hk
  | struct _ _ => simp [isStringKey] at hk
  | ptr _ _ => simp [isStringKey] at hk
  | map _ _ _ => simp [isStringKey] at hk

theorem mapaccess_setEntry_other (k k2 : String) (f : GoVal → GoVal)
    (es : List (GoVal × GoVal)) (h : k ≠ k2) :
    mapaccess k2 (setEntry k f es) = mapaccess k2 es := by
  induction es with
  | nil => rfl
  | cons x xs ih =>
    obtain ⟨key, v⟩ := x
    by_cases hk : isStringKey k key = true
    · have h2 := isStringKey_unique k k2 key h hk
      simp [setEntry, mapaccess, hk, h2]
    · by_cases h2 : isStringKey k2 key = true
      · simp [setEntry, mapaccess, hk, h2]
      · simp [setEntry, mapaccess, hk, h2, ih]

theorem setAt_of_step_none (v : GoVal) (s : Step) (p : List Step) (new : GoVal)
    (h : v.step s = none) : v.setAt (s :: p) new = v := by
  cases v with
  | struct fs em =>
    cases s <;> simp only [GoVal.setAt]
    rename_i n
    simp only [GoVal.step] at h
    congr 1
    apply setField_self
    intro y hy
    rw [h] at hy
    cases hy
  | ptr e t => cases t <;> cases s <;> simp [GoVal.step] at h <;> simp only [GoVal.setAt]
  | iface t => cases t <;> cases s <;> simp [GoVal.step] at h <;> simp only [GoVal.setAt]
  | map k e es =>
    cases s <;> simp only [GoVal.setAt]
    rename_i n
    simp only [GoVal.step] at h
    congr 1
    apply setEntry_self
    intro y hy
    rw [h] at hy
    cases hy
  | str _ => cases s <;> simp only [GoVal.setAt]
  | int _ => cases s <;> simp only [GoVal.setAt]
  | bool _ => cases s <;> simp only [GoVal.setAt]

theorem step_setAt_other (x : GoVal) (s1 s2 : Step) (p : List Step) (new : GoVal)
    (h : s1 ≠ s2) : (x.setAt (s1 :: p) new).step s2 = x.step s2 := by
  cases x with
  | struct fs em =>
    cases s1 <;> simp only [GoVal.setAt]
    rename_i n1
    cases s2 <;> simp only [GoVal.step]
    rename_i n2
    apply lookup_setField_other
    intro e
    apply h
    rw [e]
  | ptr e t =>
    cases t <;> cases s1 <;> simp only [GoVal.setAt]
    cases s2 <;> simp only [GoVal.step]
    exact absurd rfl h
  | iface t =>
    cases t <;> cases s1 <;> simp only [GoVal.setAt]
    cases s2 <;> simp only [GoVal.step]
    exact absurd rfl h
  | map k e es =>
    cases s1 <;> simp only [GoVal.setAt]
    rename_i k1
    cases s2 <;> simp only [GoVal.step]
    rename_i k2
    apply mapaccess_setEntry_other
    intro e
    apply h
    rw [e]
  | str _ => cases s1 <;> simp only [GoVal.setAt]
  | int _ => cases s1 <;> simp only [GoVal.setAt]
  | bool _ => cases s1 <;> simp only [GoVal.setAt]

/-- Overwriting a value leaves every value as it is whose path parts from the path of
the value overwritten. -/
theorem getAt_setAt_diverge (v : GoVal) (p : List Step) (s1 s2 : Step) (q1 q2 : List Step)
    (new : GoVal) (h : s1 ≠ s2) :
    (v.setAt (p ++ s1 :: q1) new).getAt (p ++ s2 :: q2) = v.getAt (p ++ s2 :: q2) := by
  induction p generalizing v with
  | nil =>
    simp only [List.nil_append, getAt_cons, step_setAt_other v s1 s2 q1 new h]
  | cons s p ih =>
    simp only [List.cons_append]
    cases hs : v.step s with
    | none => rw [setAt_of_step_none v s _ new hs]
    | some y =>
      rw [getAt_cons, getAt_cons, step_setAt_cons v s _ new y hs, hs]
      simp only [Option.some_bind]
      exact ih y

/-! ## A value seen from the value that contains it

A `reflect.Value` that lies at or below the path `p` of the heap behaves as the
`reflect.Value` with the remaining path does in the heap that consists of the value
at `p` alone. -/

theorem under_valid (origin : List Step) (v : Value) : (v.under origin).valid = v.valid := by
  unfold Value.under
  split_ifs <;> simp_all

theorem under_zero (origin : List Step) : Value.zero.under origin = Value.zero := rfl

theorem under_of_valid (origin : List Step) (v : Value) (hv : v.valid = true) :
    v.under origin = ⟨true, origin ++ v.path, v.addr, v.ro, v.embedRO⟩ := by
  unfold Value.under
  simp [hv]

theorem under_of_invalid (origin : List Step) (v : Value) (hv : v.valid = false) :
    v.under origin = v := by
  unfold Value.under
  simp [hv]

theorem under_nil (v : Value) : v.under [] = v := by
  unfold Value.under
  split_ifs <;> rfl

theorem under_under (p q : List Step) (v : Value) :
    (v.under q).under p = v.under (p ++ q) := by
  unfold Value.under
  by_cases hv : v.valid = true <;> simp [hv, List.append_assoc]

theorem get_under (heap x : GoVal) (p : List Step) (hx : heap.getAt p = some x) (v : Value) :
    (v.under p).get heap = v.get x := by
  unfold Value.under Value.get
  by_cases h : v.valid = true
  · simp [h, getAt_append, hx]
  · simp [h]

theorem Type_under (heap x : GoVal) (p : List Step) (hx : heap.getAt p = some x) (v : Value) :
    (v.under p).Type heap = v.Type x := by
  simp only [Value.Type, get_under heap x p hx]

theorem Kind_under (heap x : GoVal) (p : List Step) (hx : heap.getAt p = some x) (v : Value) :
    (v.under p).Kind heap = v.Kind x := by
  simp only [Value.Kind, Type_under heap x p hx]

theorem IsNil_under (heap x : GoVal) (p : List Step) (hx : heap.getAt p = some x) (v : Value) :
    (v.under p).IsNil heap = v.IsNil x := by
  simp only [Value.IsNil, get_under heap x p hx]

theorem isPtrToStruct_under (heap x : GoVal) (p : List Step) (hx : heap.getAt p = some x)
    (v : Value) : (v.under p).isPtrToStruct heap = v.isPtrToStruct x := by
  simp only [Value.isPtrToStruct, get_under heap x p hx]

theorem get_of_invalid (heap : GoVal) (v : Value) (hv : v.valid = false) : v.get heap = none := by
  simp [Value.get, hv]

theorem Elem_under (heap x : GoVal) (p : List Step) (hx : heap.getAt p = some x) (v : Value) :
    (v.under p).Elem heap = (v.Elem x).map (Value.under p) := by
  unfold Value.Elem
  rw [get_under heap x p hx]
  by_cases hv : v.valid = true
  · cases v.get x with
    | none => rfl
    | some y =>
      cases y <;> try rfl
      · rename_i e t
        cases t <;> simp [Value.under, hv, Value.zero]
      · rename_i t
        cases t <;> simp [Value.under, hv, Value.zero]
  · rw [get_of_invalid x v (by simpa using hv)]
    rfl

theorem Field_under (heap x : GoVal) (p : List Step) (hx : heap.getAt p = some x) (v : Value)
    (name : String) : (v.under p).Field heap name = (v.Field x name).map (Value.under p) := by
  unfold Value.Field
  rw [get_under heap x p hx]
  by_cases hv : v.valid = true
  · cases v.get x with
    | none => rfl
    | some y =>
      cases y <;> try rfl
      rename_i fs em
      cases hl : fs.lookup name <;> simp [Value.under, hv, hl]
  · rw [get_of_invalid x v (by simpa using hv)]
    rfl

theorem FieldByIndex_loop_under (heap x : GoVal) (p : List Step)
    (hx : heap.getAt p = some x) (index : List String) :
    ∀ v : Value, Value.FieldByIndex.loop heap (v.under p) index =
      (Value.FieldByIndex.loop x v index).map (Value.under p) := by
  induction index with
  | nil => intro v; rfl
  | cons n index ih =>
    intro v
    simp only [Value.FieldByIndex.loop, isPtrToStruct_under heap x p hx,
      IsNil_under heap x p hx, Elem_under heap x p hx]
    have key : ∀ w : Option Value,
        (match w.map (Value.under p) with
          | some v =>
            match v.Field heap n with
            | some field => Value.FieldByIndex.loop heap field index
            | none => none
          | none => none) =
        (match w with
          | some v =>
            match v.Field x n with
            | some field => Value.FieldByIndex.loop x field index
            | none => none
          | none => none).map (Value.under p) := by
      intro w
      cases w with
      | none => rfl
      | some w =>
        simp only [Option.map_some', Field_under heap x p hx]
        cases w.Field x n with
        | none => rfl
        | some f => exact ih f
    by_cases h1 : v.isPtrToStruct x = true
    · by_cases h2 : v.IsNil x = true
      · simp only [h1, h2, if_true]
        rfl
      · simp only [h1, h2, if_true, if_false, Bool.false_eq_true]
        exact key (v.Elem x)
    · simp only [h1, if_false, Bool.false_eq_true]
      exact key (some v)

theorem FieldByIndex_under (heap x : GoVal) (p : List Step) (hx : heap.getAt p = some x)
    (v : Value) (index : List String) :
    (v.under p).FieldByIndex heap index = (v.FieldByIndex x index).map (Value.under p) := by
  cases index with
  | nil =>
    simp only [Value.FieldByIndex, Kind_under heap x p hx]
    split_ifs <;> rfl
  | cons n index =>
    simp only [Value.FieldByIndex, Field_under heap x p hx]
    cases v.Field x n with
    | none => rfl
    | some f => exact FieldByIndex_loop_under heap x p hx index f

theorem FieldByName_under (heap x : GoVal) (p : List Step) (hx : heap.getAt p = some x)
    (v : Value) (name : String) :
    (v.under p).FieldByName heap name = (v.FieldByName x name).map (Value.under p) := by
  unfold Value.FieldByName
  rw [get_under heap x p hx]
  cases v.get x with
  | none => rfl
  | some y =>
    cases y <;> try rfl
    rename_i fs em
    simp only []
    cases (GoVal.struct fs em).Type.FieldByName name with
    | none => rfl
    | some index => exact FieldByIndex_under heap x p hx v index

theorem Set_under (heap x : GoVal) (p : List Step) (hx : heap.getAt p = some x) (v : Value)
    (new : GoVal) :
    (v.under p).Set heap new = (v.Set x new).map (fun x' => heap.setAt p x') := by
  unfold Value.Set Value.CanSet
  rw [Type_under heap x p hx]
  by_cases hv : v.valid = true
  · by_cases h : (v.addr && !v.ro && !v.embedRO) = true
    · have h' : (v.valid && v.addr && !v.ro && !v.embedRO) = true := by
        simpa [hv] using h
      have h'' : ((v.under p).valid && (v.under p).addr && !(v.under p).ro &&
          !(v.under p).embedRO) = true := by
        simpa [Value.under, hv] using h
      rw [if_pos h', if_pos h'']
      cases v.Type x with
      | none => rfl
      | some t =>
        cases hy : new.assignTo t with
        | none => simp only [hy, Option.map_none']
        | some y =>
          simp only [hy, Option.map_some', Option.some.injEq]
          rw [under_of_valid p v hv]
          exact setAt_append heap p v.path y x hx
    · have h' : ¬ (v.valid && v.addr && !v.ro && !v.embedRO) = true := by
        simpa [hv] using h
      have h'' : ¬ ((v.under p).valid && (v.under p).addr && !(v.under p).ro &&
          !(v.under p).embedRO) = true := by
        simpa [Value.under, hv] using h
      rw [if_neg h', if_neg h'']
      rfl
  · have hv' : v.valid = false := by simpa using hv
    rw [under_of_invalid p v hv']
    simp [hv']

/-! ## The walk of the resolver -/

theorem loop_invalid (col : Column) (rest : List String) (fv : Value) (heap : GoVal)
    (h : fv.valid = false) :
    Column.ValueOfV.loop col rest fv heap = (heap, [], .ok fv) := by
  cases rest with
  | nil => rfl
  | cons next rest =>
    unfold Column.ValueOfV.loop
    simp [Value.IsValid, h]

theorem loop_cons (col : Column) (next : String) (rest : List String) (fv : Value)
    (heap : GoVal) (hv : fv.valid = true) :
    Column.ValueOfV.loop col (next :: rest) fv heap =
      if fv.Kind heap = Kind.Struct then
        match fv.FieldByName heap next with
        | some fv' => Column.ValueOfV.loop col rest fv' heap
        | none => (heap, [], .error .aborted)
      else if fv.Kind heap = Kind.Ptr then
        match (if fv.IsNil heap then
            match (fv.Type heap).bind GoType.Elem with
            | some t => fv.Set heap (reflect.New t)
            | none => none
          else some heap) with
        | none => (heap, (if fv.IsNil heap then [fv.path] else []), .error .aborted)
        | some heap1 =>
          match (fv.Elem heap1).bind (fun e => e.FieldByName heap1 next) with
          | some fv' =>
            Column.ValueOfV.after (if fv.IsNil heap then [fv.path] else [])
              (Column.ValueOfV.loop col rest fv' heap1)
          | none => (heap1, (if fv.IsNil heap then [fv.path] else []), .error .aborted)
      else (heap, [], .error (.error (fieldError col.FieldName))) := by
  rw [Column.ValueOfV.loop]
  simp only [Value.IsValid, hv, Bool.not_true, Bool.false_eq_true, if_false]
  try rfl

theorem after_nil (r : GoVal × List (List Step) × Except Outcome Value) :
    Column.ValueOfV.after [] r = r := rfl

theorem after_after (a b : List (List Step))
    (r : GoVal × List (List Step) × Except Outcome Value) :
    Column.ValueOfV.after a (Column.ValueOfV.after b r) = Column.ValueOfV.after (a ++ b) r := by
  simp [Column.ValueOfV.after, List.append_assoc]

theorem loop_append (col : Column) (a b : List String) :
    ∀ (fv : Value) (heap : GoVal),
      Column.ValueOfV.loop col (a ++ b) fv heap =
        match Column.ValueOfV.loop col a fv heap with
        | (heap', allocated, .ok fv') =>
          Column.ValueOfV.after allocated (Column.ValueOfV.loop col b fv' heap')
        | (heap', allocated, .error out) => (heap', allocated, .error out) := by
  induction a with
  | nil =>
    intro fv heap
    simp [Column.ValueOfV.loop, after_nil]
  | cons next rest ih =>
    intro fv heap
    by_cases hv : fv.valid = true
    · rw [List.cons_append, loop_cons col next (rest ++ b) fv heap hv,
        loop_cons col next rest fv heap hv]
      by_cases hs : fv.Kind heap = Kind.Struct
      · simp only [hs, if_true]
        cases fv.FieldByName heap next with
        | none => rfl
        | some fv' => exact ih fv' heap
      · by_cases hp : fv.Kind heap = Kind.Ptr
        · simp only [hp, if_true, if_false, reduceCtorEq]
          generalize (if fv.IsNil heap = true then
            match (fv.Type heap).bind GoType.Elem with
            | some t => fv.Set heap (reflect.New t)
            | none => none
            else some heap) = set
          generalize (if fv.IsNil heap = true then [fv.path] else []) = al
          cases set with
          | none => rfl
          | some heap1 =>
            simp only
            cases (fv.Elem heap1).bind (fun e => e.FieldByName heap1 next) with
            | none => rfl
            | some fv' =>
              simp only [ih fv' heap1]
              rcases Column.ValueOfV.loop col rest fv' heap1 with ⟨h', al', res⟩
              cases res with
              | error out => rfl
              | ok f => exact after_after al al' _
        · simp only [hs, hp, if_false]
    · have hv' : fv.valid = false := by simpa using hv
      rw [loop_invalid col _ fv heap hv', loop_invalid col _ fv heap hv']
      simp [loop_invalid col b fv heap hv', after_nil]

theorem loop_error_cases (col : Column) (rest : List String) :
    ∀ (fv : Value) (heap heap' : GoVal) (al : List (List Step)) (out : Outcome),
      Column.ValueOfV.loop col rest fv heap = (heap', al, .error out) →
      out = .aborted ∨ out = .error (fieldError col.FieldName) := by
  induction rest with
  | nil =>
    intro fv heap heap' al out h
    simp [Column.ValueOfV.loop] at h
  | cons next rest ih =>
    intro fv heap heap' al out h
    by_cases hv : fv.valid = true
    · rw [loop_cons col next rest fv heap hv] at h
      by_cases hs : fv.Kind heap = Kind.Struct
      · simp only [hs, if_true] at h
        cases hF : fv.FieldByName heap next with
        | none =>
          rw [hF] at h
          simp only [Prod.mk.injEq, Except.error.injEq] at h
          exact Or.inl h.2.2.symm
        | some fv' =>
          rw [hF] at h
          exact ih _ _ _ _ _ h
      · by_cases hp : fv.Kind heap = Kind.Ptr
        · simp only [hp, if_true, if_false, reduceCtorEq] at h
          revert h
          generalize (if fv.IsNil heap = true then
              match (fv.Type heap).bind GoType.Elem with
              | some t => fv.Set heap (reflect.New t)
              | none => none
              else some heap) = set
          generalize (if fv.IsNil heap = true then [fv.path] else []) = al0
          intro h
          cases set with
          | none =>
            simp only [Prod.mk.injEq, Except.error.injEq] at h
            exact Or.inl h.2.2.symm
          | some heap1 =>
            simp only at h
            cases hF : (fv.Elem heap1).bind (fun e => e.FieldByName heap1 next) with
            | none =>
              rw [hF] at h
              simp only [Prod.mk.injEq, Except.error.injEq] at h
              exact Or.inl h.2.2.symm
            | some fv' =>
              rw [hF] at h
              simp only [Column.ValueOfV.after, Prod.mk.injEq] at h
              exact ih fv' heap1 _ _ out (Prod.ext rfl (Prod.ext rfl h.2.2))
        · simp only [hs, hp, if_false, Prod.mk.injEq, Except.error.injEq] at h
          exact Or.inr h.2.2.symm
    · rw [loop_invalid col _ fv heap (by simpa using hv)] at h
      simp at h

theorem loop_error_msg (col : Column) (rest : List String) (fv : Value) (heap heap' : GoVal)
    (al : List (List Step)) (msg : String)
    (h : Column.ValueOfV.loop col rest fv heap = (heap', al, .error (.error msg))) :
    msg = fieldError col.FieldName := by
  rcases loop_error_cases col rest fv heap heap' al _ h with h1 | h1
  · cases h1
  · exact Outcome.error.inj h1

theorem loop_seenFrom (col : Column) (p : List Step) (rest : List String) :
    ∀ (fv : Value) (heap x : GoVal), heap.getAt p = some x →
      Column.ValueOfV.loop col rest (fv.under p) heap =
        Column.ValueOfV.seenFrom p heap (Column.ValueOfV.loop col rest fv x) := by
  induction rest with
  | nil =>
    intro fv heap x hx
    simp only [Column.ValueOfV.loop, Column.ValueOfV.seenFrom, List.map_nil,
      setAt_getAt_self heap p x hx]
  | cons next rest ih =>
    intro fv heap x hx
    have hself := setAt_getAt_self heap p x hx
    by_cases hv : fv.valid = true
    · rw [loop_cons col next rest _ _ ((under_valid _ fv).trans hv),
        loop_cons col next rest fv x hv, Kind_under heap x p hx, IsNil_under heap x p hx,
        Type_under heap x p hx, FieldByName_under heap x p hx]
      by_cases hs : fv.Kind x = Kind.Struct
      · simp only [hs, if_true]
        cases fv.FieldByName x next with
        | none => simp only [Option.map_none', Column.ValueOfV.seenFrom, List.map_nil, hself]
        | some fv' => exact ih fv' heap x hx
      · by_cases hp : fv.Kind x = Kind.Ptr
        · simp only [hp, if_true, if_false, reduceCtorEq]
          have hal : (if fv.IsNil x = true then [(fv.under p).path] else []) =
              (if fv.IsNil x = true then [fv.path] else []).map (fun path => p ++ path) := by
            split_ifs
            · simp [under_of_valid p fv hv]
            · rfl
          have hset : (if fv.IsNil x = true then
              match (fv.Type x).bind GoType.Elem with
              | some t => (fv.under p).Set heap (reflect.New t)
              | none => none
              else some heap) =
              (if fv.IsNil x = true then
                match (fv.Type x).bind GoType.Elem with
                | some t => fv.Set x (reflect.New t)
                | none => none
                else some x).map (fun x' => heap.setAt p x') := by
            split_ifs
            · cases (fv.Type x).bind GoType.Elem with
              | none => rfl
              | some t => exact Set_under heap x p hx fv _
            · simp only [Option.map_some', hself]
          rw [hset, hal]
          generalize (if fv.IsNil x = true then
            match (fv.Type x).bind GoType.Elem with
            | some t => fv.Set x (reflect.New t)
            | none => none
            else some x) = set
          generalize (if fv.IsNil x = true then [fv.path] else []) = al
          cases set with
          | none => simp only [Option.map_none', Column.ValueOfV.seenFrom, hself]
          | some x1 =>
            have hx1 : (heap.setAt p x1).getAt p = some x1 := by
              have := getAt_setAt_prefix heap p [] x1 x hx
              simpa [GoVal.setAt] using this
            simp only [Option.map_some']
            rw [Elem_under (heap.setAt p x1) x1 p hx1]
            cases hE : fv.Elem x1 with
            | none => simp only [Option.map_none', Option.none_bind, Column.ValueOfV.seenFrom]
            | some e =>
              simp only [Option.map_some', Option.some_bind]
              rw [FieldByName_under (heap.setAt p x1) x1 p hx1]
              cases e.FieldByName x1 next with
              | none => simp only [Option.map_none', Column.ValueOfV.seenFrom]
              | some fv' =>
                simp only [Option.map_some']
                rw [ih fv' (heap.setAt p x1) x1 hx1]
                simp only [Column.ValueOfV.seenFrom, Column.ValueOfV.after, setAt_setAt,
                  List.map_append]
        · simp only [hs, hp, if_false, Column.ValueOfV.seenFrom, List.map_nil, hself]
    · have hv' : fv.valid = false := by simpa using hv
      rw [under_of_invalid p fv hv', loop_invalid col _ fv _ hv', loop_invalid col _ fv _ hv']
      simp only [Column.ValueOfV.seenFrom, List.map_nil, hself, under_of_invalid p fv hv']

/-! ## Looking up a field -/

theorem get_eq_getAt (v : Value) (heap : GoVal) (hv : v.valid = true) :
    v.get heap = heap.getAt v.path := by
  simp [Value.get, hv]

theorem under_atRoot (v : Value) (hv : v.valid = true) : v.atRoot.under v.path = v := by
  cases v
  simp only at hv
  subst hv
  simp [Value.under, Value.atRoot]

theorem atRoot_valid (v : Value) : v.atRoot.valid = v.valid := rfl

theorem atRoot_path (v : Value) : v.atRoot.path = [] := rfl

theorem Field_spec (v f : Value) (heap : GoVal) (name : String)
    (h : v.Field heap name = some f) :
    f.valid = true ∧ f.path = v.path ++ [Step.field name] ∧
    ∃ fs em y, v.get heap = some (.struct fs em) ∧ fs.lookup name = some y ∧
      f.get heap = some y := by
  unfold Value.Field at h
  cases hg : v.get heap with
  | none => simp [hg] at h
  | some x =>
    have hv : v.valid = true := by
      cases hvv : v.valid with
      | true => rfl
      | false => simp [Value.get, hvv] at hg
    rw [hg] at h
    cases x <;> simp only [reduceCtorEq] at h
    rename_i fs em
    cases hl : fs.lookup name with
    | none => simp [hl] at h
    | some y =>
      simp only [hl, Option.some.injEq] at h
      subst h
      refine ⟨rfl, rfl, fs, em, y, rfl, hl, ?_⟩
      rw [get_eq_getAt v heap hv] at hg
      simp [Value.get, getAt_append, hg, getAt_cons, GoVal.step, hl, getAt_nil]

theorem Elem_ptr_spec (v : Value) (heap : GoVal) (e : GoType) (w : GoVal)
    (hv : v.valid = true) (hg : heap.getAt v.path = some (.ptr e (some w))) :
    v.Elem heap = some ⟨true, v.path ++ [Step.deref], true, v.ro, v.embedRO⟩ ∧
    heap.getAt (v.path ++ [Step.deref]) = some w := by
  refine ⟨?_, ?_⟩
  · simp [Value.Elem, Value.get, hv, hg]
  · simp [getAt_append, hg, getAt_cons, GoVal.step, getAt_nil]

/-- What the loop of `FieldByIndex` returns is valid, lies below the value it started
from, and refers to a value of the heap. -/
theorem FieldByIndex_loop_spec (heap : GoVal) (index : List String) :
    ∀ (v fv : Value), v.valid = true → (∃ x, heap.getAt v.path = some x) →
      Value.FieldByIndex.loop heap v index = some fv →
      fv.valid = true ∧ (∃ t, fv.path = v.path ++ t ∧ (index ≠ [] → t ≠ [])) ∧
      ∃ y, heap.getAt fv.path = some y := by
  induction index with
  | nil =>
    intro v fv hv hx h
    simp only [Value.FieldByIndex.loop, Option.some.injEq] at h
    subst h
    exact ⟨hv, ⟨[], by simp, fun h => absurd rfl h⟩, hx⟩
  | cons n index ih =>
    intro v fv hv hx h
    simp only [Value.FieldByIndex.loop] at h
    have key : ∀ w : Value, (∃ t, w.path = v.path ++ t) →
        (match w.Field heap n with
          | some field => Value.FieldByIndex.loop heap field index
          | none => none) = some fv →
        fv.valid = true ∧ (∃ t, fv.path = v.path ++ t ∧ (n :: index ≠ [] → t ≠ [])) ∧
          ∃ y, heap.getAt fv.path = some y := by
      intro w hw hm
      cases hF : w.Field heap n with
      | none => simp [hF] at hm
      | some f =>
        rw [hF] at hm
        obtain ⟨hfv, hfp, fs, em, y, _, _, hfy⟩ := Field_spec w f heap n hF
        rw [get_eq_getAt f heap hfv] at hfy
        obtain ⟨h1, ⟨t, ht, _⟩, h3⟩ := ih f fv hfv ⟨y, hfy⟩ hm
        obtain ⟨t0, ht0⟩ := hw
        refine ⟨h1, ⟨t0 ++ [Step.field n] ++ t, ?_, ?_⟩, h3⟩
        · rw [ht, hfp, ht0]
          simp only [List.append_assoc]
        · intro _
          simp
    by_cases h1 : v.isPtrToStruct heap = true
    · by_cases h2 : v.IsNil heap = true
      · simp [h1, h2] at h
      · simp only [h1, h2, if_true, if_false, Bool.false_eq_true] at h
        cases hE : v.Elem heap with
        | none => simp [hE] at h
        | some w =>
          rw [hE] at h
          obtain ⟨x, hx⟩ := hx
          have hg : v.get heap = some x := by rw [get_eq_getAt v heap hv, hx]
          have hw : ∃ t, w.path = v.path ++ t := by
            unfold Value.Elem at hE
            rw [hg] at hE
            cases x <;> try simp only [reduceCtorEq] at hE
            · rename_i e tgt
              cases tgt with
              | none => simp [Value.IsNil, hg] at h2
              | some z =>
                simp only [Option.some.injEq] at hE
                subst hE
                exact ⟨_, rfl⟩
            · simp [Value.isPtrToStruct, hg] at h1
          exact key w hw h
    · simp only [h1, if_false, Bool.false_eq_true] at h
      exact key v ⟨[], by simp⟩ h

theorem FieldByIndex_spec (heap : GoVal) (index : List String) (v fv : Value)
    (hv : v.valid = true) (hx : ∃ x, heap.getAt v.path = some x)
    (h : v.FieldByIndex heap index = some fv) :
    fv.valid = true ∧ (∃ t, fv.path = v.path ++ t ∧ (index ≠ [] → t ≠ [])) ∧
    ∃ y, heap.getAt fv.path = some y := by
  cases index with
  | nil =>
    simp only [Value.FieldByIndex] at h
    split_ifs at h
    simp only [Option.some.injEq] at h
    subst h
    exact ⟨hv, ⟨[], by simp, fun h => absurd rfl h⟩, hx⟩
  | cons n index =>
    simp only [Value.FieldByIndex] at h
    cases hF : v.Field heap n with
    | none => simp [hF] at h
    | some f =>
      rw [hF] at h
      obtain ⟨hfv, hfp, fs, em, y, _, _, hfy⟩ := Field_spec v f heap n hF
      rw [get_eq_getAt f heap hfv] at hfy
      obtain ⟨h1, ⟨t, ht, _⟩, h3⟩ := FieldByIndex_loop_spec heap index f fv hfv ⟨y, hfy⟩ h
      refine ⟨h1, ⟨[Step.field n] ++ t, ?_, ?_⟩, h3⟩
      · rw [ht, hfp]
        simp only [List.append_assoc]
      · intro _
        simp

/-- What `FieldByName` returns is the zero `Value`, or a valid value that lies below the
struct and refers to a value of the heap. -/
theorem FieldByName_spec (heap : GoVal) (name : String) (v fv : Value)
    (h : v.FieldByName heap name = some fv) (hfv : fv.valid = true) :
    v.valid = true ∧ (∃ t, fv.path = v.path ++ t) ∧ ∃ y, heap.getAt fv.path = some y := by
  unfold Value.FieldByName at h
  cases hg : v.get heap with
  | none => simp [hg] at h
  | some x =>
    have hv : v.valid = true := by
      cases hvv : v.valid with
      | true => rfl
      | false => simp [Value.get, hvv] at hg
    rw [hg] at h
    cases x <;> simp only [reduceCtorEq] at h
    rename_i fs em
    cases hi : (GoVal.struct fs em).Type.FieldByName name with
    | none =>
      simp only [hi, Option.some.injEq] at h
      subst h
      simp [Value.zero] at hfv
    | some index =>
      simp only [hi] at h
      rw [get_eq_getAt v heap hv] at hg
      obtain ⟨_, ⟨t, ht, _⟩, h3⟩ := FieldByIndex_spec heap index v fv hv ⟨_, hg⟩ h
      exact ⟨hv, ⟨t, ht⟩, h3⟩

theorem FieldByName_valid_or_zero (heap : GoVal) (name : String) (v fv : Value)
    (hv : v.valid = true)
    (h : v.FieldByName heap name = some fv) : fv.valid = true ∨ fv = Value.zero := by
  unfold Value.FieldByName at h
  cases hg : v.get heap with
  | none => simp [hg] at h
  | some x =>
    rw [hg] at h
    cases x <;> simp only [reduceCtorEq] at h
    rename_i fs em
    cases hi : (GoVal.struct fs em).Type.FieldByName name with
    | none =>
      simp only [hi, Option.some.injEq] at h
      exact Or.inr h.symm
    | some index =>
      simp only [hi] at h
      rw [get_eq_getAt v heap hv] at hg
      exact Or.inl (FieldByIndex_spec heap index v fv hv ⟨_, hg⟩ h).1

theorem lookup_setField_isSome (n x : String) (g : GoVal → GoVal)
    (fs : List (String × GoVal)) :
    ((setField n g fs).lookup x).isSome = (fs.lookup x).isSome := by
  by_cases h : n = x
  · subst h
    rw [lookup_setField_same]
    cases fs.lookup n <;> rfl
  · rw [lookup_setField_other n x g fs (fun e => h e.symm)]

/-- Overwriting a value that lies strictly below a value leaves what `reflect` sees of
the latter itself as it is: whether it is a pointer to a struct, whether it is nil, its
pointee, and its declared fields. -/
theorem observe_setAt_below (heap : GoVal) (w : Value) (t : List Step) (c z : GoVal)
    (hw : w.valid = true) (ht : t ≠ []) (hz : heap.getAt (w.path ++ t) = some z) :
    w.isPtrToStruct (heap.setAt (w.path ++ t) c) = w.isPtrToStruct heap ∧
    w.IsNil (heap.setAt (w.path ++ t) c) = w.IsNil heap ∧
    w.Elem (heap.setAt (w.path ++ t) c) = w.Elem heap ∧
    ∀ n, w.Field (heap.setAt (w.path ++ t) c) n = w.Field heap n := by
  cases t with
  | nil => exact absurd rfl ht
  | cons s t =>
    rw [getAt_append] at hz
    cases hold : heap.getAt w.path with
    | none => simp [hold] at hz
    | some old =>
      rw [hold] at hz
      simp only [Option.some_bind] at hz
      have hg : w.get heap = some old := by rw [get_eq_getAt w heap hw, hold]
      have hg' : w.get (heap.setAt (w.path ++ s :: t) c) = some (old.setAt (s :: t) c) := by
        rw [get_eq_getAt w _ hw]
        exact getAt_setAt_prefix heap w.path (s :: t) c old hold
      simp only [Value.isPtrToStruct, Value.IsNil, Value.Elem, Value.Field, hg, hg']
      rw [getAt_cons] at hz
      cases old with
      | struct fs em =>
        cases s <;> simp [GoVal.step] at hz
        rename_i n
        simp only [GoVal.setAt, true_and]
        intro x
        have := lookup_setField_isSome n x (fun y => y.setAt t c) fs
        cases h1 : fs.lookup x <;>
          cases h2 : (setField n (fun y => y.setAt t c) fs).lookup x <;>
          simp [h1, h2] at this ⊢
      | ptr e tgt =>
        cases tgt <;> cases s <;> simp [GoVal.step] at hz
        simp [GoVal.setAt]
      | iface tgt =>
        cases tgt <;> cases s <;> simp [GoVal.step] at hz
        simp [GoVal.setAt]
      | map k e es =>
        cases s <;> simp [GoVal.step] at hz
        simp [GoVal.setAt]
      | str _ => cases s <;> simp [GoVal.step] at hz
      | int _ => cases s <;> simp [GoVal.step] at hz
      | bool _ => cases s <;> simp [GoVal.step] at hz

/-- The loop of `FieldByIndex` finds the same field again after the value of the field
it found has been overwritten. -/
theorem FieldByIndex_loop_stable (heap : GoVal) (index : List String) :
    ∀ (v fv : Value), v.valid = true → (∃ x, heap.getAt v.path = some x) →
      Value.FieldByIndex.loop heap v index = some fv →
      ∀ c : GoVal, Value.FieldByIndex.loop (heap.setAt fv.path c) v index = some fv := by
  induction index with
  | nil =>
    intro v fv _ _ h c
    simpa [Value.FieldByIndex.loop] using h
  | cons n index ih =>
    intro v fv hv hx h c
    obtain ⟨_, ⟨t, ht, htne⟩, z, hz⟩ := FieldByIndex_loop_spec heap (n :: index) v fv hv hx h
    rw [ht] at hz
    obtain ⟨o1, o2, o3, _⟩ :=
      observe_setAt_below heap v t c z hv (htne (List.cons_ne_nil _ _)) hz
    rw [← ht] at o1 o2 o3 hz
    simp only [Value.FieldByIndex.loop, o1, o2, o3] at h ⊢
    have key : ∀ w : Value, w.valid = true → (∃ x, heap.getAt w.path = some x) →
        (match w.Field heap n with
          | some field => Value.FieldByIndex.loop heap field index
          | none => none) = some fv →
        (match w.Field (heap.setAt fv.path c) n with
          | some field => Value.FieldByIndex.loop (heap.setAt fv.path c) field index
          | none => none) = some fv := by
      intro w hw hwx hm
      cases hF : w.Field heap n with
      | none => simp [hF] at hm
      | some f =>
        rw [hF] at hm
        obtain ⟨hfv, hfp, fs, em, y, _, _, hfy⟩ := Field_spec w f heap n hF
        rw [get_eq_getAt f heap hfv] at hfy
        obtain ⟨_, ⟨t2, ht2, _⟩, _⟩ := FieldByIndex_loop_spec heap index f fv hfv ⟨y, hfy⟩ hm
        have hP : fv.path = w.path ++ ([Step.field n] ++ t2) := by
          rw [ht2, hfp, List.append_assoc]
        have hz' : heap.getAt (w.path ++ ([Step.field n] ++ t2)) = some z := by
          rw [← hP]
          exact hz
        obtain ⟨_, _, _, o4⟩ :=
          observe_setAt_below heap w ([Step.field n] ++ t2) c z hw (by simp) hz'
        rw [← hP] at o4
        rw [o4 n, hF]
        exact ih f fv hfv ⟨y, hfy⟩ hm c
    by_cases h1 : v.isPtrToStruct heap = true
    · by_cases h2 : v.IsNil heap = true
      · simp [h1, h2] at h
      · simp only [h1, h2, if_true, if_false, Bool.false_eq_true] at h ⊢
        cases hE : v.Elem heap with
        | none => simp [hE] at h
        | some w =>
          rw [hE] at h
          simp only
          obtain ⟨x, hx⟩ := hx
          have hg : v.get heap = some x := by rw [get_eq_getAt v heap hv, hx]
          have hw : w.valid = true ∧ ∃ x', heap.getAt w.path = some x' := by
            unfold Value.Elem at hE
            rw [hg] at hE
            cases x <;> try simp only [reduceCtorEq] at hE
            · rename_i e tgt
              cases tgt with
              | none => simp [Value.IsNil, hg] at h2
              | some z' =>
                simp only [Option.some.injEq] at hE
                subst hE
                exact ⟨rfl, z', (Elem_ptr_spec v heap e z' hv hx).2⟩
            · simp [Value.isPtrToStruct, hg] at h1
          exact key w hw.1 hw.2 h
    · simp only [h1, if_false, Bool.false_eq_true] at h ⊢
      exact key v hv hx h

theorem FieldByIndex_stable (heap : GoVal) (index : List String) (hne : index ≠ [])
    (v fv : Value) (hv : v.valid = true)
    (h : v.FieldByIndex heap index = some fv) (c : GoVal) :
    v.FieldByIndex (heap.setAt fv.path c) index = some fv := by
  cases index with
  | nil => exact absurd rfl hne
  | cons n index =>
    simp only [Value.FieldByIndex] at h ⊢
    cases hF : v.Field heap n with
    | none => simp [hF] at h
    | some f =>
      rw [hF] at h
      obtain ⟨hfv, hfp, fs, em, y, _, _, hfy⟩ := Field_spec v f heap n hF
      rw [get_eq_getAt f heap hfv] at hfy
      obtain ⟨_, ⟨t2, ht2, _⟩, z, hz⟩ :=
        FieldByIndex_loop_spec heap index f fv hfv ⟨y, hfy⟩ h
      have hP : fv.path = v.path ++ ([Step.field n] ++ t2) := by
        rw [ht2, hfp, List.append_assoc]
      have hz' : heap.getAt (v.path ++ ([Step.field n] ++ t2)) = some z := by
        rw [← hP]
        exact hz
      obtain ⟨_, _, _, o4⟩ :=
        observe_setAt_below heap v ([Step.field n] ++ t2) c z hv (by simp) hz'
      rw [← hP] at o4
      rw [o4 n, hF]
      exact FieldByIndex_loop_stable heap index f fv hfv ⟨y, hfy⟩ h c

theorem promotedIn_ne_nil (name : String) (em : List String) (fs : List (String × GoType)) :
    ∀ index ∈ GoType.promotedIn name em fs, index ≠ [] := by
  induction fs with
  | nil =>
    intro index h
    simp [GoType.promotedIn] at h
  | cons f fs ih =>
    obtain ⟨n, t⟩ := f
    intro index h
    rw [GoType.promotedIn] at h
    rcases List.mem_append.1 h with h | h
    · split_ifs at h
      · rw [List.mem_singleton.1 h]
        exact List.cons_ne_nil _ _
      · obtain ⟨a, _, rfl⟩ := List.mem_map.1 h
        exact List.cons_ne_nil _ _
      · cases h
    · exact ih index h

theorem shallowest_subset (found : List (List String)) :
    ∀ index ∈ shallowest found, index ∈ found := by
  intro index h
  unfold shallowest at h
  cases hm : (found.map List.length).min? with
  | none => simp [hm] at h
  | some depth =>
    simp only [hm] at h
    exact (List.mem_filter.1 h).1

/-- The index sequence of `Type.FieldByName` is never empty. -/
theorem typeFieldByName_ne_nil (t : GoType) (name : String) (index : List String)
    (h : t.FieldByName name = some index) : index ≠ [] := by
  unfold GoType.FieldByName at h
  cases t <;> simp only [reduceCtorEq] at h
  rename_i fs em
  split_ifs at h
  · simp only [Option.some.injEq] at h
    rw [← h]
    exact List.cons_ne_nil _ _
  · split at h
    · rename_i i hs
      simp only [Option.some.injEq] at h
      subst h
      apply promotedIn_ne_nil name em fs
      apply shallowest_subset
      rw [hs]
      exact List.mem_singleton_self _
    · cases h

theorem struct_of_Type (x : GoVal) (gs : List (String × GoType)) (em : List String)
    (h : x.Type = .struct gs em) : ∃ fs, x = .struct fs em := by
  cases x <;> simp [GoVal.Type] at h
  rename_i fs em'
  exact ⟨fs, by rw [h.2]⟩

/-- The method `FieldByName` finds the same field again after the value of the field
it found has been overwritten by a value of the same type. -/
theorem FieldByName_stable (heap : GoVal) (name : String) (v fv : Value)
    (h : v.FieldByName heap name = some fv) (hfv : fv.valid = true)
    (z c : GoVal) (hz : heap.getAt fv.path = some z) (hT : c.Type = z.Type) :
    v.FieldByName (heap.setAt fv.path c) name = some fv := by
  obtain ⟨hv, ⟨t, ht⟩, _⟩ := FieldByName_spec heap name v fv h hfv
  unfold Value.FieldByName at h ⊢
  rw [get_eq_getAt v heap hv] at h
  rw [get_eq_getAt v _ hv]
  cases hold : heap.getAt v.path with
  | none => simp [hold] at h
  | some old =>
    rw [hold] at h
    cases old <;> simp only [reduceCtorEq] at h
    rename_i fs em
    have hzt : (GoVal.struct fs em).getAt t = some z := by
      rw [ht, getAt_append, hold] at hz
      simpa using hz
    have hnew : (heap.setAt fv.path c).getAt v.path = some ((GoVal.struct fs em).setAt t c) := by
      rw [ht]
      exact getAt_setAt_prefix heap v.path t c _ hold
    have hType := Type_setAt (GoVal.struct fs em) t z c hzt hT
    obtain ⟨fs', hfs'⟩ := struct_of_Type _ _ em hType
    rw [hnew, hfs']
    simp only
    rw [← hfs', hType]
    cases hi : (GoVal.struct fs em).Type.FieldByName name with
    | none =>
      simp only [hi, Option.some.injEq] at h
      subst h
      simp [Value.zero] at hfv
    | some index =>
      simp only [hi] at h ⊢
      exact FieldByIndex_stable heap index (typeFieldByName_ne_nil _ _ _ hi) v fv hv h c

theorem get_congr_place (heap : GoVal) (v w : Value) (hvalid : v.valid = w.valid)
    (hpath : v.path = w.path) : v.get heap = w.get heap := by
  simp [Value.get, hvalid, hpath]

theorem Field_place (heap : GoVal) (v w : Value) (hvalid : v.valid = w.valid)
    (hpath : v.path = w.path) (n : String) :
    (v.Field heap n).map (fun f => (f.valid, f.path)) =
      (w.Field heap n).map (fun f => (f.valid, f.path)) := by
  unfold Value.Field
  rw [get_congr_place heap v w hvalid hpath]
  cases w.get heap with
  | none => rfl
  | some x =>
    cases x <;> try rfl
    rename_i fs em
    cases hl : fs.lookup n <;> simp [hl, hpath]

theorem Elem_place (heap : GoVal) (v w : Value) (hvalid : v.valid = w.valid)
    (hpath : v.path = w.path) :
    (v.Elem heap).map (fun f => (f.valid, f.path)) =
      (w.Elem heap).map (fun f => (f.valid, f.path)) := by
  unfold Value.Elem
  rw [get_congr_place heap v w hvalid hpath]
  cases w.get heap with
  | none => rfl
  | some x =>
    cases x <;> try rfl
    · rename_i e tgt
      cases tgt <;> simp [hpath]
    · rename_i tgt
      cases tgt <;> simp [hpath]

/-- Where the loop of `FieldByIndex` ends does not depend on the flags of the value it
starts from. -/
theorem FieldByIndex_loop_place (heap : GoVal) (index : List String) :
    ∀ (v w : Value), v.valid = w.valid → v.path = w.path →
      (Value.FieldByIndex.loop heap v index).map (fun f => (f.valid, f.path)) =
        (Value.FieldByIndex.loop heap w index).map (fun f => (f.valid, f.path)) := by
  induction index with
  | nil =>
    intro v w hvalid hpath
    simp [Value.FieldByIndex.loop, hvalid, hpath]
  | cons n index ih =>
    intro v w hvalid hpath
    have key : ∀ ov ow : Option Value,
        ov.map (fun f => (f.valid, f.path)) = ow.map (fun f => (f.valid, f.path)) →
        (match ov with
          | some v =>
            match v.Field heap n with
            | some field => Value.FieldByIndex.loop heap field index
            | none => none
          | none => none).map (fun f : Value => (f.valid, f.path)) =
        (match ow with
          | some v =>
            match v.Field heap n with
            | some field => Value.FieldByIndex.loop heap field index
            | none => none
          | none => none).map (fun f : Value => (f.valid, f.path)) := by
      intro ov ow h
      cases ov with
      | none =>
        cases ow with
        | none => rfl
        | some b => simp at h
      | some a =>
        cases ow with
        | none => simp at h
        | some b =>
          simp only [Option.map_some', Option.some.injEq, Prod.mk.injEq] at h
          have hF := Field_place heap a b h.1 h.2 n
          cases ha : a.Field heap n with
          | none =>
            cases hb : b.Field heap n with
            | none => simp only [ha, hb]
            | some g => simp [ha, hb] at hF
          | some f =>
            cases hb : b.Field heap n with
            | none => simp [ha, hb] at hF
            | some g =>
              simp only [ha, hb, Option.map_some', Option.some.injEq, Prod.mk.injEq] at hF ⊢
              exact ih f g hF.1 hF.2
    have hP : v.isPtrToStruct heap = w.isPtrToStruct heap := by
      simp only [Value.isPtrToStruct, get_congr_place heap v w hvalid hpath]
    have hN : v.IsNil heap = w.IsNil heap := by
      simp only [Value.IsNil, get_congr_place heap v w hvalid hpath]
    simp only [Value.FieldByIndex.loop, hP, hN]
    apply key
    by_cases h1 : w.isPtrToStruct heap = true
    · by_cases h2 : w.IsNil heap = true
      · simp [h1, h2]
      · simp only [h1, h2, if_true, if_false, Bool.false_eq_true]
        exact Elem_place heap v w hvalid hpath
    · simp only [h1, if_false, Bool.false_eq_true, Option.map_some', hvalid, hpath]

/-- Where `FieldByName` ends does not depend on the flags of the struct. -/
theorem FieldByName_place (heap : GoVal) (name : String) (v w : Value)
    (hvalid : v.valid = w.valid) (hpath : v.path = w.path) :
    (v.FieldByName heap name).map (fun f => (f.valid, f.path)) =
      (w.FieldByName heap name).map (fun f => (f.valid, f.path)) := by
  unfold Value.FieldByName
  rw [get_congr_place heap v w hvalid hpath]
  cases hg : w.get heap with
  | none => rfl
  | some x =>
    cases x <;> try rfl
    rename_i fs em
    simp only
    cases (GoVal.struct fs em).Type.FieldByName name with
    | none => rfl
    | some index =>
      simp only
      cases index with
      | nil =>
        have hK : v.Kind heap = w.Kind heap := by
          simp only [Value.Kind, Value.Type, get_congr_place heap v w hvalid hpath]
        simp only [Value.FieldByIndex, hK]
        split_ifs <;> simp [hvalid, hpath]
      | cons n index =>
        simp only [Value.FieldByIndex]
        have hF := Field_place heap v w hvalid hpath n
        cases ha : v.Field heap n with
        | none =>
          cases hb : w.Field heap n with
          | none => rfl
          | some g => simp [ha, hb] at hF
        | some f =>
          cases hb : w.Field heap n with
          | none => simp [ha, hb] at hF
          | some g =>
            simp only [ha, hb, Option.map_some', Option.some.injEq, Prod.mk.injEq] at hF
            exact FieldByIndex_loop_place heap index f g hF.1 hF.2

/-- A declared field is found by `FieldByName` at one field step from the struct. -/
theorem FieldByName_declared (heap : GoVal) (v : Value) (fs : List (String × GoVal))
    (em : List String) (name : String) (y : GoVal) (hv : v.valid = true)
    (hg : heap.getAt v.path = some (.struct fs em)) (hne : name ≠ "")
    (hl : fs.lookup name = some y) :
    v.FieldByName heap name =
      some ⟨true, v.path ++ [Step.field name], v.addr,
        v.ro || (!isExported name && !em.contains name),
        !isExported name && em.contains name⟩ := by
  simp [Value.FieldByName, Value.get, hv, hg, GoVal.Type, GoType.FieldByName, hne,
    lookup_fieldTypes, hl, Value.FieldByIndex, Value.Field, Value.FieldByIndex.loop]

/-- A name that the struct type has no field for, declared or promoted, yields the zero
`Value`. -/
theorem FieldByName_absent (heap : GoVal) (v : Value) (fs : List (String × GoVal))
    (em : List String) (name : String) (hv : v.valid = true)
    (hg : heap.getAt v.path = some (.struct fs em))
    (hnone : (GoVal.struct fs em).Type.FieldByName name = none) :
    v.FieldByName heap name = some Value.zero := by
  simp [Value.FieldByName, Value.get, hv, hg, hnone]

theorem fieldPlace_of_FieldByName (x : GoVal) (name : String) (v fv : Value)
    (hv : v.valid = true) (hp : v.path = [])
    (h : v.FieldByName x name = some fv) (hfv : fv.valid = true) :
    fieldPlace name x = some fv.path := by
  have := FieldByName_place x name (reflect.record false false) v
    (by rw [hv]; rfl) (by rw [hp]; rfl)
  rw [h] at this
  unfold fieldPlace
  cases hr : (reflect.record false false).FieldByName x name with
  | none => simp [hr] at this
  | some f =>
    simp only [hr, Option.map_some', Option.some.injEq, Prod.mk.injEq] at this
    simp [this.1, this.2, hfv]

theorem fieldPlace_spec (x : GoVal) (name : String) (q : List Step)
    (h : fieldPlace name x = some q) :
    (∃ entry q', q = Step.field entry :: q') ∧ ∃ z, x.getAt q = some z := by
  unfold fieldPlace at h
  cases hr : (reflect.record false false).FieldByName x name with
  | none => simp [hr] at h
  | some f =>
    simp only [hr] at h
    split_ifs at h with hf
    simp only [Option.some.injEq] at h
    subst h
    refine ⟨?_, (FieldByName_spec x name _ f hr hf).2.2⟩
    unfold Value.FieldByName at hr
    cases hg : (reflect.record false false).get x with
    | none => simp [hg] at hr
    | some y =>
      rw [hg] at hr
      cases y <;> simp only [reduceCtorEq] at hr
      rename_i fs em
      cases hi : (GoVal.struct fs em).Type.FieldByName name with
      | none =>
        simp only [hi, Option.some.injEq] at hr
        subst hr
        simp [Value.zero] at hf
      | some index =>
        simp only [hi] at hr
        have hne := typeFieldByName_ne_nil _ _ _ hi
        cases index with
        | nil => exact absurd rfl hne
        | cons n index =>
          simp only [Value.FieldByIndex] at hr
          cases hF : (reflect.record false false).Field x n with
          | none => simp [hF] at hr
          | some g =>
            rw [hF] at hr
            obtain ⟨hgv, hgp, fs', em', y', _, _, hgy⟩ := Field_spec _ g x n hF
            rw [get_eq_getAt g x hgv] at hgy
            obtain ⟨_, ⟨t, ht, _⟩, _⟩ :=
              FieldByIndex_loop_spec x index g f hgv ⟨y', hgy⟩ hr
            refine ⟨n, t, ?_⟩
            rw [ht, hgp]
            rfl

theorem descend_of_place (f : GoVal → GoVal) (next : String) (x z : GoVal) (q : List Step)
    (hq : fieldPlace next x = some q) (hz : x.getAt q = some z) :
    descend f next x = x.setAt q (f z) := by
  simp [descend, hq, hz]

theorem descend_id (f : GoVal → GoVal) (next : String) (x : GoVal) (hf : ∀ z, f z = z) :
    descend f next x = x := by
  unfold descend
  cases fieldPlace next x with
  | none => rfl
  | some q =>
    simp only
    cases hz : x.getAt q with
    | none => rfl
    | some z =>
      simp only [hf]
      exact setAt_getAt_self x q z hz

theorem descend_Type (f : GoVal → GoVal) (next : String) (x : GoVal)
    (hf : ∀ z, (f z).Type = z.Type) : (descend f next x).Type = x.Type := by
  unfold descend
  cases fieldPlace next x with
  | none => rfl
  | some q =>
    simp only
    cases hz : x.getAt q with
    | none => rfl
    | some z => exact Type_setAt x q z (f z) hz (hf z)

theorem materializeField_nil (y : GoVal) : materializeField [] y = y := by
  cases y <;> rfl

theorem materializeField_Type (segments : List String) :
    ∀ y : GoVal, (materializeField segments y).Type = y.Type := by
  induction segments with
  | nil =>
    intro y
    rw [materializeField_nil]
  | cons next rest ih =>
    intro y
    cases y with
    | struct gs em =>
      simp only [materializeField]
      exact descend_Type _ _ _ ih
    | ptr e tgt => cases tgt <;> rfl
    | str _ => rfl
    | int _ => rfl
    | bool _ => rfl
    | map _ _ _ => rfl
    | iface _ => rfl

/-! ## The turns of the loop -/

theorem Kind_of_getAt (fv : Value) (heap y : GoVal) (hv : fv.valid = true)
    (hy : heap.getAt fv.path = some y) : fv.Kind heap = y.Type.Kind := by
  simp [Value.Kind, Value.Type, Value.get, hv, hy]

theorem loop_of_struct (col : Column) (next : String) (rest : List String) (v : Value)
    (heap : GoVal) (hv : v.valid = true) (hk : v.Kind heap = Kind.Struct) :
    Column.ValueOfV.loop col (next :: rest) v heap =
      Column.ValueOfV.turn col next rest v heap := by
  rw [loop_cons col next rest v heap hv]
  simp only [hk, if_true, Column.ValueOfV.turn]
  try rfl

theorem loop_of_ptr (col : Column) (next : String) (rest : List String) (v : Value)
    (heap : GoVal) (e : GoType) (w : GoVal) (hv : v.valid = true)
    (hg : heap.getAt v.path = some (.ptr e (some w))) :
    Column.ValueOfV.loop col (next :: rest) v heap =
      Column.ValueOfV.turn col next rest
        ⟨true, v.path ++ [Step.deref], true, v.ro, v.embedRO⟩ heap := by
  rw [loop_cons col next rest v heap hv]
  have hk : v.Kind heap = Kind.Ptr := by
    rw [Kind_of_getAt v heap _ hv hg]
    rfl
  have hnil : v.IsNil heap = false := by
    simp [Value.IsNil, Value.get, hv, hg]
  simp only [hk, hnil, if_true, if_false, reduceCtorEq, Bool.false_eq_true,
    (Elem_ptr_spec v heap e w hv hg).1, Option.some_bind, Column.ValueOfV.turn]
  cases v.FieldByName heap next <;>
    cases (Value.mk true (v.path ++ [Step.deref]) true v.ro v.embedRO).FieldByName heap next <;>
    rfl

theorem loop_of_nil (col : Column) (next : String) (rest : List String) (v : Value)
    (heap : GoVal) (e : GoType) (hv : v.valid = true)
    (hg : heap.getAt v.path = some (.ptr e none)) :
    Column.ValueOfV.loop col (next :: rest) v heap =
      if v.addr && !v.ro && !v.embedRO then
        Column.ValueOfV.after [v.path]
          (Column.ValueOfV.turn col next rest
            ⟨true, v.path ++ [Step.deref], true, v.ro, v.embedRO⟩
            (heap.setAt v.path (reflect.New e)))
      else (heap, [v.path], .error .aborted) := by
  rw [loop_cons col next rest v heap hv]
  have hk : v.Kind heap = Kind.Ptr := by
    rw [Kind_of_getAt v heap _ hv hg]
    rfl
  have hnil : v.IsNil heap = true := by
    simp [Value.IsNil, Value.get, hv, hg]
  have hT : v.Type heap = some (.ptr e) := by
    simp [Value.Type, Value.get, hv, hg, GoVal.Type]
  simp only [hk, hnil, if_true, if_false, reduceCtorEq, hT, Option.some_bind, GoType.Elem]
  by_cases hs : (v.addr && !v.ro && !v.embedRO) = true
  · have hset : v.Set heap (reflect.New e) = some (heap.setAt v.path (reflect.New e)) := by
      have ha : (reflect.New e).assignTo (.ptr e) = some (reflect.New e) :=
        assignTo_of_Type _ _ rfl
      have hs' : (v.valid && v.addr && !v.ro && !v.embedRO) = true := by
        simpa [hv] using hs
      simp only [Value.Set, Value.CanSet, hs', if_true, hT, ha]
    have hg1 : (heap.setAt v.path (reflect.New e)).getAt v.path =
        some (.ptr e (some e.zero)) := by
      have := getAt_setAt_prefix heap v.path [] (reflect.New e) _ hg
      simpa [GoVal.setAt, reflect.New] using this
    simp only [hs, if_true, hset, (Elem_ptr_spec v _ e e.zero hv hg1).1, Option.some_bind,
      Column.ValueOfV.turn]
    cases (Value.mk true (v.path ++ [Step.deref]) true v.ro v.embedRO).FieldByName
      (heap.setAt v.path (reflect.New e)) next <;> rfl
  · have hset : v.Set heap (reflect.New e) = none := by
      have hs' : (v.valid && v.addr && !v.ro && !v.embedRO) = false := by
        simpa [hv] using hs
      simp only [Value.Set, Value.CanSet, hs', Bool.false_eq_true, if_false]
    simp only [hs, if_false, hset, Bool.false_eq_true]

theorem turn_seenFrom (col : Column) (next : String) (rest : List String) (p : List Step)
    (v : Value) (heap x : GoVal) (hx : heap.getAt p = some x) :
    Column.ValueOfV.turn col next rest (v.under p) heap =
      Column.ValueOfV.seenFrom p heap (Column.ValueOfV.turn col next rest v x) := by
  unfold Column.ValueOfV.turn
  rw [FieldByName_under heap x p hx]
  cases v.FieldByName x next with
  | none =>
    simp only [Option.map_none', Column.ValueOfV.seenFrom, List.map_nil,
      setAt_getAt_self heap p x hx]
  | some fv => exact loop_seenFrom col p rest fv heap x hx

theorem loop_at_root (col : Column) (rest : List String) (v : Value) (heap x : GoVal)
    (hv : v.valid = true) (hx : heap.getAt v.path = some x) :
    Column.ValueOfV.loop col rest v heap =
      Column.ValueOfV.seenFrom v.path heap (Column.ValueOfV.loop col rest v.atRoot x) := by
  rw [← loop_seenFrom col v.path rest v.atRoot heap x hx, under_atRoot v hv]

theorem turn_at_root (col : Column) (next : String) (rest : List String) (v : Value)
    (heap x : GoVal) (hv : v.valid = true) (hx : heap.getAt v.path = some x) :
    Column.ValueOfV.turn col next rest v heap =
      Column.ValueOfV.seenFrom v.path heap (Column.ValueOfV.turn col next rest v.atRoot x) := by
  rw [← turn_seenFrom col next rest v.path v.atRoot heap x hx, under_atRoot v hv]

/-! ## The heap after the walk -/

theorem turn_heap (col : Column) (next : String) (rest : List String)
    (hrest : ∀ (v : Value) (y : GoVal), v.valid = true → v.path = [] →
      ∃ n, (Column.ValueOfV.loop col rest v y).1 = materializeField (rest.take n) y)
    (v : Value) (y : GoVal) (hv : v.valid = true) (hp : v.path = []) :
    ∃ m, (Column.ValueOfV.turn col next rest v y).1 =
      descend (materializeField (rest.take m)) next y := by
  unfold Column.ValueOfV.turn
  cases hF : v.FieldByName y next with
  | none =>
    refine ⟨0, ?_⟩
    simp only [List.take_zero]
    exact (descend_id _ next y materializeField_nil).symm
  | some fv =>
    simp only
    by_cases hfv : fv.valid = true
    · obtain ⟨_, _, z, hz⟩ := FieldByName_spec y next v fv hF hfv
      obtain ⟨n, hn⟩ := hrest fv.atRoot z hfv rfl
      refine ⟨n, ?_⟩
      rw [loop_at_root col rest fv y z hfv hz,
        descend_of_place _ next y z fv.path (fieldPlace_of_FieldByName y next v fv hv hp hF hfv)
          hz, ← hn]
      rfl
    · refine ⟨0, ?_⟩
      rw [loop_invalid col rest fv y (by simpa using hfv)]
      simp only [List.take_zero]
      exact (descend_id _ next y materializeField_nil).symm

/-- The heap the loop leaves, for a value that is the whole heap: the value with the
nil pointers on a first part of the remaining segments replaced. -/
theorem loop_heap_root (col : Column) (rest : List String) :
    ∀ (v : Value) (y : GoVal), v.valid = true → v.path = [] →
      ∃ n, (Column.ValueOfV.loop col rest v y).1 = materializeField (rest.take n) y := by
  induction rest with
  | nil =>
    intro v y _ _
    exact ⟨0, (materializeField_nil y).symm⟩
  | cons next rest ih =>
    intro v y hv hp
    have hy : y.getAt v.path = some y := by rw [hp]; exact getAt_nil y
    have hother : v.Kind y ≠ Kind.Struct → v.Kind y ≠ Kind.Ptr →
        ∃ n, (Column.ValueOfV.loop col (next :: rest) v y).1 =
          materializeField ((next :: rest).take n) y := by
      intro h1 h2
      refine ⟨0, ?_⟩
      rw [loop_cons col next rest v y hv]
      simp only [h1, h2, if_false, List.take_zero]
      exact (materializeField_nil y).symm
    have hk := Kind_of_getAt v y y hv hy
    cases y with
    | struct gs em =>
      obtain ⟨m, hm⟩ := turn_heap col next rest ih v _ hv hp
      refine ⟨m + 1, ?_⟩
      rw [loop_of_struct col next rest v _ hv (by rw [hk]; rfl), hm]
      rfl
    | ptr e tgt =>
      have hve : (Value.mk true (v.path ++ [Step.deref]) true v.ro v.embedRO) =
          (Value.mk true [] true v.ro v.embedRO).under [Step.deref] := by
        simp [Value.under, hp]
      cases tgt with
      | some w =>
        obtain ⟨m, hm⟩ := turn_heap col next rest ih ⟨true, [], true, v.ro, v.embedRO⟩ w rfl rfl
        refine ⟨m + 1, ?_⟩
        rw [loop_of_ptr col next rest v _ e w hv hy, hve,
          turn_seenFrom col next rest [Step.deref] _ (GoVal.ptr e (some w)) w rfl]
        simp only [Column.ValueOfV.seenFrom, hm, GoVal.setAt, List.take_succ_cons,
          materializeField]
      | none =>
        rw [loop_of_nil col next rest v _ e hv hy]
        by_cases hs : (v.addr && !v.ro && !v.embedRO) = true
        · obtain ⟨m, hm⟩ :=
            turn_heap col next rest ih ⟨true, [], true, v.ro, v.embedRO⟩ e.zero rfl rfl
          refine ⟨m + 1, ?_⟩
          rw [if_pos hs, hve, hp]
          simp only [GoVal.setAt, reflect.New, Column.ValueOfV.after]
          rw [turn_seenFrom col next rest [Step.deref] _ (GoVal.ptr e (some e.zero)) e.zero rfl]
          simp only [Column.ValueOfV.seenFrom, hm, GoVal.setAt, List.take_succ_cons,
            materializeField]
        · refine ⟨0, ?_⟩
          rw [if_neg hs]
          rfl
    | str _ => apply hother <;> rw [hk] <;> simp [GoVal.Type, GoType.Kind]
    | int _ => apply hother <;> rw [hk] <;> simp [GoVal.Type, GoType.Kind]
    | bool _ => apply hother <;> rw [hk] <;> simp [GoVal.Type, GoType.Kind]
    | map _ _ _ => apply hother <;> rw [hk] <;> simp [GoVal.Type, GoType.Kind]
    | iface _ => apply hother <;> rw [hk] <;> simp [GoVal.Type, GoType.Kind]

/-- The loop leaves every type as it is. -/
theorem loop_Type_root (col : Column) (rest : List String) (v : Value) (y : GoVal)
    (hv : v.valid = true) (hp : v.path = []) :
    (Column.ValueOfV.loop col rest v y).1.Type = y.Type := by
  obtain ⟨n, hn⟩ := loop_heap_root col rest v y hv hp
  rw [hn]
  exact materializeField_Type _ y

/-! ## Walking twice -/

theorem seenFrom_ok (p : List Step) (heap : GoVal)
    (r : GoVal × List (List Step) × Except Outcome Value)
    (heap' : GoVal) (al : List (List Step)) (h : Value)
    (hr : Column.ValueOfV.seenFrom p heap r = (heap', al, .ok h)) :
    ∃ h0, r = (r.1, r.2.1, .ok h0) ∧ h = h0.under p ∧ heap' = heap.setAt p r.1 ∧
      al = r.2.1.map (fun path => p ++ path) := by
  obtain ⟨x, al0, res⟩ := r
  cases res with
  | error out => simp [Column.ValueOfV.seenFrom] at hr
  | ok h0 =>
    simp only [Column.ValueOfV.seenFrom, Prod.mk.injEq, Except.ok.injEq] at hr
    exact ⟨h0, rfl, hr.2.2.symm, hr.1.symm, hr.2.1.symm⟩

theorem turn_again (col : Column) (next : String) (rest : List String)
    (hrest : ∀ (v : Value) (y y' : GoVal) (al : List (List Step)) (h : Value),
      v.valid = true → v.path = [] →
      Column.ValueOfV.loop col rest v y = (y', al, .ok h) → h.valid = true →
      Column.ValueOfV.loop col rest v y' = (y', [], .ok h))
    (v : Value) (y y' : GoVal) (al : List (List Step)) (h : Value)
    (hrun : Column.ValueOfV.turn col next rest v y = (y', al, .ok h))
    (hh : h.valid = true) :
    Column.ValueOfV.turn col next rest v y' = (y', [], .ok h) := by
  unfold Column.ValueOfV.turn at hrun
  cases hF : v.FieldByName y next with
  | none => simp [hF] at hrun
  | some fv =>
    simp only [hF] at hrun
    by_cases hfv : fv.valid = true
    · obtain ⟨_, _, z, hz⟩ := FieldByName_spec y next v fv hF hfv
      rw [loop_at_root col rest fv y z hfv hz] at hrun
      obtain ⟨h0, hr, hh0, hy', _⟩ := seenFrom_ok _ _ _ _ _ _ hrun
      have hh0v : h0.valid = true := by
        rw [hh0, under_valid] at hh
        exact hh
      have hsecond := hrest fv.atRoot z _ _ h0 hfv rfl hr hh0v
      have hT := loop_Type_root col rest fv.atRoot z hfv rfl
      have hstable := FieldByName_stable y next v fv hF hfv z _ hz hT
      rw [← hy'] at hstable
      have hz' : y'.getAt fv.path = some (Column.ValueOfV.loop col rest fv.atRoot z).1 := by
        rw [hy']
        have := getAt_setAt_prefix y fv.path [] (Column.ValueOfV.loop col rest fv.atRoot z).1
          z hz
        simpa [GoVal.setAt] using this
      unfold Column.ValueOfV.turn
      simp only [hstable]
      rw [loop_at_root col rest fv y' _ hfv hz', hsecond]
      simp only [Column.ValueOfV.seenFrom, List.map_nil, ← hh0,
        setAt_getAt_self y' fv.path _ hz']
    · rw [loop_invalid col rest fv y (by simpa using hfv)] at hrun
      simp only [Prod.mk.injEq, Except.ok.injEq] at hrun
      rw [hrun.2.2] at hfv
      exact absurd hh hfv

/-- The loop, run again on the heap it left after having found a field, finds the same
field, creates no value and leaves the heap as it is. -/
theorem loop_again_root (col : Column) (rest : List String) :
    ∀ (v : Value) (y y' : GoVal) (al : List (List Step)) (h : Value),
      v.valid = true → v.path = [] →
      Column.ValueOfV.loop col rest v y = (y', al, .ok h) → h.valid = true →
      Column.ValueOfV.loop col rest v y' = (y', [], .ok h) := by
  induction rest with
  | nil =>
    intro v y y' al h _ _ hrun _
    simp only [Column.ValueOfV.loop, Prod.mk.injEq, Except.ok.injEq] at hrun ⊢
    exact ⟨trivial, trivial, hrun.2.2⟩
  | cons next rest ih =>
    intro v y y' al h hv hp hrun hh
    have hy : y.getAt v.path = some y := by rw [hp]; exact getAt_nil y
    have hk := Kind_of_getAt v y y hv hy
    have hother : v.Kind y ≠ Kind.Struct → v.Kind y ≠ Kind.Ptr → False := by
      intro h1 h2
      rw [loop_cons col next rest v y hv] at hrun
      simp [h1, h2] at hrun
    have hve : (Value.mk true (v.path ++ [Step.deref]) true v.ro v.embedRO) =
        (Value.mk true [] true v.ro v.embedRO).under [Step.deref] := by
      simp [Value.under, hp]
    have hptr : ∀ (e : GoType) (w : GoVal) (al' : List (List Step)),
        Column.ValueOfV.turn col next rest
            ((Value.mk true [] true v.ro v.embedRO).under [Step.deref])
            (GoVal.ptr e (some w)) = (y', al', .ok h) →
        Column.ValueOfV.loop col (next :: rest) v y' = (y', [], .ok h) := by
      intro e w al' hturn
      rw [turn_seenFrom col next rest [Step.deref] _ (GoVal.ptr e (some w)) w rfl] at hturn
      obtain ⟨h0, hr, hh0, hy', _⟩ := seenFrom_ok _ _ _ _ _ _ hturn
      have hh0v : h0.valid = true := by
        rw [hh0, under_valid] at hh
        exact hh
      have hsecond := turn_again col next rest ih _ w _ _ h0 hr hh0v
      simp only [GoVal.setAt] at hy'
      have hy'' : y'.getAt v.path = some (GoVal.ptr e (some
          (Column.ValueOfV.turn col next rest ⟨true, [], true, v.ro, v.embedRO⟩ w).1)) := by
        rw [hp, hy']
        exact getAt_nil _
      rw [loop_of_ptr col next rest v y' e _ hv hy'', hve,
        turn_seenFrom col next rest [Step.deref] _ y' _ (by rw [hy']; rfl), hsecond]
      simp only [Column.ValueOfV.seenFrom, List.map_nil, ← hh0]
      rw [hy']
      simp only [GoVal.setAt]
    cases y with
    | struct gs em =>
      rw [loop_of_struct col next rest v _ hv (by rw [hk]; rfl)] at hrun
      have hT := loop_Type_root col (next :: rest) v (GoVal.struct gs em) hv hp
      rw [loop_of_struct col next rest v _ hv (by rw [hk]; rfl), hrun] at hT
      have hk' : v.Kind y' = Kind.Struct := by
        have hy' : y'.getAt v.path = some y' := by rw [hp]; exact getAt_nil y'
        rw [Kind_of_getAt v y' y' hv hy']
        simp only at hT
        rw [hT]
        rfl
      rw [loop_of_struct col next rest v y' hv hk']
      exact turn_again col next rest ih v _ y' al h hrun hh
    | ptr e tgt =>
      cases tgt with
      | some w =>
        rw [loop_of_ptr col next rest v _ e w hv hy, hve] at hrun
        exact hptr e w al hrun
      | none =>
        rw [loop_of_nil col next rest v _ e hv hy] at hrun
        by_cases hs : (v.addr && !v.ro && !v.embedRO) = true
        · rw [if_pos hs, hve, hp] at hrun
          simp only [GoVal.setAt, reflect.New, Column.ValueOfV.after] at hrun
          generalize hturn : Column.ValueOfV.turn col next rest
            ((Value.mk true [] true v.ro v.embedRO).under [Step.deref])
            (GoVal.ptr e (some e.zero)) = r at hrun
          obtain ⟨y1, al1, res⟩ := r
          simp only [Prod.mk.injEq] at hrun
          obtain ⟨rfl, _, rfl⟩ := hrun
          exact hptr e e.zero al1 hturn
        · rw [if_neg hs] at hrun
          simp at hrun
    | str _ => exact (hother (by rw [hk]; simp [GoVal.Type, GoType.Kind])
        (by rw [hk]; simp [GoVal.Type, GoType.Kind])).elim
    | int _ => exact (hother (by rw [hk]; simp [GoVal.Type, GoType.Kind])
        (by rw [hk]; simp [GoVal.Type, GoType.Kind])).elim
    | bool _ => exact (hother (by rw [hk]; simp [GoVal.Type, GoType.Kind])
        (by rw [hk]; simp [GoVal.Type, GoType.Kind])).elim
    | map _ _ _ => exact (hother (by rw [hk]; simp [GoVal.Type, GoType.Kind])
        (by rw [hk]; simp [GoVal.Type, GoType.Kind])).elim
    | iface _ => exact (hother (by rw [hk]; simp [GoVal.Type, GoType.Kind])
        (by rw [hk]; simp [GoVal.Type, GoType.Kind])).elim

/-! ## Walking again after a write through the handle -/

theorem seenFrom_fixed (p : List Step) (heap x : GoVal)
    (r : GoVal × List (List Step) × Except Outcome Value) (h : Value)
    (hx : heap.getAt p = some x)
    (hr : Column.ValueOfV.seenFrom p heap r = (heap, [], .ok h)) :
    ∃ h0, r = (x, [], .ok h0) ∧ h = h0.under p := by
  obtain ⟨h0, hr0, hh0, hheap, hal⟩ := seenFrom_ok _ _ _ _ _ _ hr
  refine ⟨h0, ?_, hh0⟩
  have h1 : r.1 = x := by
    have := getAt_setAt_self heap p x r.1 hx
    rw [← hheap, hx] at this
    exact (Option.some.inj this).symm
  have h2 : r.2.1 = [] := by
    cases hl : r.2.1 with
    | nil => rfl
    | cons a b => rw [hl] at hal; simp at hal
  rw [hr0, h1, h2]

theorem turn_settled (col : Column) (next : String) (rest : List String)
    (hrest : ∀ (v : Value) (y : GoVal) (h : Value) (z c : GoVal),
      v.valid = true → v.path = [] →
      Column.ValueOfV.loop col rest v y = (y, [], .ok h) → h.valid = true →
      y.getAt h.path = some z → c.Type = z.Type →
      Column.ValueOfV.loop col rest v (y.setAt h.path c) = (y.setAt h.path c, [], .ok h))
    (v : Value) (y : GoVal) (h : Value) (z c : GoVal)
    (hrun : Column.ValueOfV.turn col next rest v y = (y, [], .ok h))
    (hh : h.valid = true) (hz : y.getAt h.path = some z) (hT : c.Type = z.Type) :
    Column.ValueOfV.turn col next rest v (y.setAt h.path c) =
      (y.setAt h.path c, [], .ok h) := by
  unfold Column.ValueOfV.turn at hrun
  cases hF : v.FieldByName y next with
  | none => simp [hF] at hrun
  | some fv =>
    simp only [hF] at hrun
    by_cases hfv : fv.valid = true
    · obtain ⟨_, _, w, hw⟩ := FieldByName_spec y next v fv hF hfv
      rw [loop_at_root col rest fv y w hfv hw] at hrun
      obtain ⟨h0, hr, hh0⟩ := seenFrom_fixed _ _ _ _ _ hw hrun
      have hh0v : h0.valid = true := by
        rw [hh0, under_valid] at hh
        exact hh
      have hpath : h.path = fv.path ++ h0.path := by
        rw [hh0, under_of_valid _ h0 hh0v]
      have hz0 : w.getAt h0.path = some z := by
        rw [hpath, getAt_append, hw] at hz
        simpa using hz
      have hsecond := hrest fv.atRoot w h0 z c hfv rfl hr hh0v hz0 hT
      have hset : y.setAt h.path c = y.setAt fv.path (w.setAt h0.path c) := by
        rw [hpath]
        exact setAt_append y fv.path h0.path c w hw
      have hstable := FieldByName_stable y next v fv hF hfv w (w.setAt h0.path c) hw
        (Type_setAt w h0.path z c hz0 hT)
      have hw2 : (y.setAt fv.path (w.setAt h0.path c)).getAt fv.path =
          some (w.setAt h0.path c) := getAt_setAt_self y fv.path w _ hw
      unfold Column.ValueOfV.turn
      rw [hset]
      simp only [hstable]
      rw [loop_at_root col rest fv _ _ hfv hw2, hsecond]
      simp only [Column.ValueOfV.seenFrom, List.map_nil, ← hh0,
        setAt_getAt_self _ fv.path _ hw2]
    · rw [loop_invalid col rest fv y (by simpa using hfv)] at hrun
      simp only [Prod.mk.injEq, Except.ok.injEq] at hrun
      rw [hrun.2.2] at hfv
      exact absurd hh hfv

/-- A walk that found a field without creating a value or changing the heap does the
same after the field it found has been overwritten by a value of its type. -/
theorem loop_settled_root (col : Column) (rest : List String) :
    ∀ (v : Value) (y : GoVal) (h : Value) (z c : GoVal),
      v.valid = true → v.path = [] →
      Column.ValueOfV.loop col rest v y = (y, [], .ok h) → h.valid = true →
      y.getAt h.path = some z → c.Type = z.Type →
      Column.ValueOfV.loop col rest v (y.setAt h.path c) = (y.setAt h.path c, [], .ok h) := by
  induction rest with
  | nil =>
    intro v y h z c _ _ hrun _ _ _
    simp only [Column.ValueOfV.loop, Prod.mk.injEq, Except.ok.injEq] at hrun ⊢
    exact ⟨trivial, trivial, hrun.2.2⟩
  | cons next rest ih =>
    intro v y h z c hv hp hrun hh hz hT
    have hy : y.getAt v.path = some y := by rw [hp]; exact getAt_nil y
    have hk := Kind_of_getAt v y y hv hy
    have hother : v.Kind y ≠ Kind.Struct → v.Kind y ≠ Kind.Ptr → False := by
      intro h1 h2
      rw [loop_cons col next rest v y hv] at hrun
      simp [h1, h2] at hrun
    have hve : (Value.mk true (v.path ++ [Step.deref]) true v.ro v.embedRO) =
        (Value.mk true [] true v.ro v.embedRO).under [Step.deref] := by
      simp [Value.under, hp]
    cases y with
    | struct gs em =>
      rw [loop_of_struct col next rest v _ hv (by rw [hk]; rfl)] at hrun
      have hType := Type_setAt (GoVal.struct gs em) h.path z c hz hT
      have hk' : v.Kind ((GoVal.struct gs em).setAt h.path c) = Kind.Struct := by
        have hy' : ((GoVal.struct gs em).setAt h.path c).getAt v.path =
            some ((GoVal.struct gs em).setAt h.path c) := by rw [hp]; exact getAt_nil _
        rw [Kind_of_getAt v _ _ hv hy', hType]
        rfl
      rw [loop_of_struct col next rest v _ hv hk']
      exact turn_settled col next rest ih v _ h z c hrun hh hz hT
    | ptr e tgt =>
      cases tgt with
      | some w =>
        rw [loop_of_ptr col next rest v _ e w hv hy, hve,
          turn_seenFrom col next rest [Step.deref] _ (GoVal.ptr e (some w)) w rfl] at hrun
        obtain ⟨h0, hr, hh0⟩ :=
          seenFrom_fixed [Step.deref] (GoVal.ptr e (some w)) w _ _ rfl hrun
        have hh0v : h0.valid = true := by
          rw [hh0, under_valid] at hh
          exact hh
        have hpath : h.path = [Step.deref] ++ h0.path := by
          rw [hh0, under_of_valid _ h0 hh0v]
        have hz0 : w.getAt h0.path = some z := by
          rw [hpath] at hz
          simpa [getAt_cons, GoVal.step] using hz
        have hsecond := turn_settled col next rest ih _ w h0 z c hr hh0v hz0 hT
        have hset : (GoVal.ptr e (some w)).setAt h.path c =
            GoVal.ptr e (some (w.setAt h0.path c)) := by
          rw [hpath]
          rfl
        rw [hset]
        have hy2 : (GoVal.ptr e (some (w.setAt h0.path c))).getAt v.path =
            some (GoVal.ptr e (some (w.setAt h0.path c))) := by
          rw [hp]
          exact getAt_nil _
        rw [loop_of_ptr col next rest v _ e _ hv hy2, hve,
          turn_seenFrom col next rest [Step.deref] _ (GoVal.ptr e (some (w.setAt h0.path c)))
            _ rfl, hsecond]
        simp only [Column.ValueOfV.seenFrom, List.map_nil, ← hh0, GoVal.setAt]
      | none =>
        rw [loop_of_nil col next rest v _ e hv hy] at hrun
        by_cases hs : (v.addr && !v.ro && !v.embedRO) = true
        · rw [if_pos hs] at hrun
          simp [Column.ValueOfV.after] at hrun
        · rw [if_neg hs] at hrun
          simp at hrun
    | str _ => exact (hother (by rw [hk]; simp [GoVal.Type, GoType.Kind])
        (by rw [hk]; simp [GoVal.Type, GoType.Kind])).elim
    | int _ => exact (hother (by rw [hk]; simp [GoVal.Type, GoType.Kind])
        (by rw [hk]; simp [GoVal.Type, GoType.Kind])).elim
    | bool _ => exact (hother (by rw [hk]; simp [GoVal.Type, GoType.Kind])
        (by rw [hk]; simp [GoVal.Type, GoType.Kind])).elim
    | map _ _ _ => exact (hother (by rw [hk]; simp [GoVal.Type, GoType.Kind])
        (by rw [hk]; simp [GoVal.Type, GoType.Kind])).elim
    | iface _ => exact (hother (by rw [hk]; simp [GoVal.Type, GoType.Kind])
        (by rw [hk]; simp [GoVal.Type, GoType.Kind])).elim

/-! ## Field resolution -/

theorem ValueOf_struct_bean (c : Column) (fs : List (String × GoVal)) (em : List String) :
    c.ValueOf (some (.struct fs em)) =
      c.ValueOfV ⟨true, [reflect.Step.dyn], false, false, false⟩
        (.iface (some (.struct fs em))) := by
  simp [Column.ValueOf, reflect.Indirect, reflect.ValueOf, reflect.Value.Kind,
    reflect.Value.Type, reflect.Value.get, GoVal.getAt, GoVal.step, GoVal.Type, GoType.Kind]

theorem ValueOf_pointer_bean (c : Column) (t : GoType) (x : GoVal) :
    c.ValueOf (some (.ptr t (some x))) =
      c.ValueOfV ⟨true, [reflect.Step.dyn, reflect.Step.deref], true, false, false⟩
        (.iface (some (.ptr t (some x)))) := by
  simp [Column.ValueOf, reflect.Indirect, reflect.ValueOf, reflect.Value.Kind,
    reflect.Value.Type, reflect.Value.get, GoVal.getAt, GoVal.step, GoVal.Type, GoType.Kind,
    reflect.Value.Elem]

/-- On a struct, `ValueOfV` is the lookup of the first segment, the loop over the other
segments, and the check of the value reached. -/
theorem ValueOfV_struct_eq (c : Column) (dataStruct : Value) (heap : GoVal)
    (fs : List (String × GoVal)) (em : List String) (first : String) (rest : List String)
    (hvalid : dataStruct.valid = true)
    (hrec : heap.getAt dataStruct.path = some (.struct fs em))
    (hpath : c.splitFieldPath.fieldPath = some (first :: rest)) :
    c.ValueOfV dataStruct heap =
      match Column.ValueOfV.turn c.splitFieldPath first rest dataStruct heap with
      | (heap', allocated, .error out) => ⟨c.splitFieldPath, heap', allocated, out⟩
      | (heap', allocated, .ok fieldValue) =>
        if !fieldValue.IsValid then
          ⟨c.splitFieldPath, heap', allocated, .error (fieldError c.FieldName)⟩
        else ⟨c.splitFieldPath, heap', allocated, .ok fieldValue⟩ := by
  unfold Column.ValueOfV Column.ValueOfV.turn
  simp only [hpath, Value.Type, Value.get, hvalid, hrec, if_true, Option.map_some',
    GoVal.Type, GoType.Kind, reduceCtorEq, if_false, Option.getD_some,
    splitFieldPath_FieldName]
  cases dataStruct.FieldByName heap first <;> rfl

theorem isExported_ne_empty (A : String) (h : isExported A = true) : A ≠ "" := by
  intro hA
  subst hA
  simp [isExported] at h

theorem CanSet_spec (v : Value) (h : v.CanSet = true) :
    v.valid = true ∧ v.addr = true ∧ v.ro = false ∧ v.embedRO = false := by
  unfold Value.CanSet at h
  simp only [Bool.and_eq_true, Bool.not_eq_true'] at h
  exact ⟨h.1.1.1, h.1.1.2, h.1.2, h.2⟩

theorem FieldByName_empty_name (heap : GoVal) (v fv : Value)
    (h : v.FieldByName heap "" = some fv) : fv = Value.zero := by
  unfold Value.FieldByName at h
  cases hg : v.get heap with
  | none => simp [hg] at h
  | some x =>
    rw [hg] at h
    cases x <;> simp only [reduceCtorEq] at h
    rename_i fs em
    simp only [GoVal.Type, GoType.FieldByName, if_true, Option.some.injEq] at h
    exact h.symm

/-- A declared field that `FieldByName` returns as a valid value lies one field step
below the struct. -/
theorem FieldByName_declared_path (heap : GoVal) (v fv : Value) (fs : List (String × GoVal))
    (em : List String) (name : String) (y : GoVal) (hv : v.valid = true)
    (hg : heap.getAt v.path = some (.struct fs em)) (hl : fs.lookup name = some y)
    (h : v.FieldByName heap name = some fv) (hfv : fv.valid = true) :
    fv = ⟨true, v.path ++ [Step.field name], v.addr,
      v.ro || (!isExported name && !em.contains name),
      !isExported name && em.contains name⟩ := by
  have hne : name ≠ "" := by
    intro hn
    subst hn
    rw [FieldByName_empty_name heap v fv h] at hfv
    simp [Value.zero] at hfv
  rw [FieldByName_declared heap v fs em name y hv hg hne hl] at h
  exact (Option.some.inj h).symm

theorem ValueOfV_materializes (c : Column) (A B : String) (dataStruct : Value)
    (heap : GoVal) (fs : List (String × GoVal)) (em : List String)
    (gs : List (String × GoType)) (emT : List String) (fA fB : Value)
    (hname : c.FieldName = A ++ "." ++ B) (hA : '.' ∉ A.data) (hB : '.' ∉ B.data)
    (hcache : c.cacheCoherent) (hvalid : dataStruct.valid = true)
    (hrec : heap.getAt dataStruct.path = some (.struct fs em))
    (hfieldA : dataStruct.FieldByName heap A = some fA) (hcan : fA.CanSet = true)
    (hnil : fA.get heap = some (.ptr (.struct gs emT) none))
    (hfieldB : (Value.mk true [] true false false).FieldByName
      (GoType.zero (.struct gs emT)) B = some fB)
    (hfB : fB.valid = true) :
    c.ValueOfV dataStruct heap =
      ⟨c.splitFieldPath, heap.setAt fA.path (reflect.New (.struct gs emT)), [fA.path],
        .ok (fB.under (fA.path ++ [Step.deref]))⟩ := by
  obtain ⟨hfAv, hfAa, hfAr, hfAe⟩ := CanSet_spec fA hcan
  have hp := splitFieldPath_fieldPath c hcache
  rw [hname, Split_pair A B hA hB] at hp
  rw [get_eq_getAt fA heap hfAv] at hnil
  have hgetA' := getAt_setAt_self heap _ _ (reflect.New (.struct gs emT)) hnil
  have hgetD := getAt_deref _ _ _ _ hgetA'
  have hve : (Value.mk true (fA.path ++ [Step.deref]) true false false) =
      (Value.mk true [] true false false).under (fA.path ++ [Step.deref]) := by
    simp [Value.under]
  rw [ValueOfV_struct_eq c dataStruct heap fs em A [B] hvalid hrec hp]
  unfold Column.ValueOfV.turn
  rw [hfieldA]
  simp only []
  rw [loop_of_nil _ B [] fA heap (.struct gs emT) hfAv hnil]
  simp only [hfAa, hfAr, hfAe, Bool.not_false, Bool.and_self, if_true, Column.ValueOfV.turn]
  rw [hve, FieldByName_under _ _ _ hgetD, hfieldB]
  simp only [Option.map_some', Column.ValueOfV.loop, Column.ValueOfV.after, List.append_nil,
    Value.IsValid, under_valid, hfB, Bool.not_true, Bool.false_eq_true, if_false]

/-- The model against three probes of `reflect`: a field promoted by an embedded struct
is found, below the embedded field; a field promoted by a nil embedded pointer makes
`FieldByName` panic; a field whose name starts with an upper-case letter outside ASCII
is exported. -/
theorem promoted_fields_resolve :
    (reflect.record true false).FieldByName
        (GoVal.struct [("Addr", GoVal.struct [("City", GoVal.str "Paris")]), ("N", GoVal.int 1)]
          ["Addr"]) "City" =
      some ⟨true, [Step.field "Addr", Step.field "City"], true, false, false⟩ ∧
    (reflect.record true false).FieldByName
        (GoVal.struct [("Addr", GoVal.ptr addrType none), ("N", GoVal.int 1)] ["Addr"])
        "City" = none ∧
    isExported "Été" = true ∧ isExported "été" = false ∧ isExported "_x" = false ∧
    (reflect.record true false).FieldByName
        (GoVal.struct [("addr", GoVal.struct [("City", GoVal.str "Paris")])] ["addr"]) "City" =
      some ⟨true, [Step.field "addr", Step.field "City"], true, false, false⟩ ∧
    (reflect.record true false).FieldByName
        (GoVal.struct [("addr", GoVal.struct [("City", GoVal.str "Paris")])] ["addr"]) "addr" =
      some ⟨true, [Step.field "addr"], true, false, true⟩ :=
  ⟨rfl, rfl, by decide, by decide, by decide, rfl, rfl⟩

/-- C6, refuted as stated. The scenario record `{Addr: nil}` handed over by value is
not addressable: `reflect.ValueOf` of it, which is also what `ValueOf` resolves
against, makes `ValueOfV` panic in `Set`, and `Addr` stays nil. The same happens for
an addressable record whose nil pointer sits in an unexported field. And when the
pointed-to struct type contains the field only through an embedded pointer, the
pointer is set, but the lookup in the fresh zero value panics on the nil embedded
pointer. -/
theorem ValueOfV_nil_pointer_not_settable :
    (addrCityColumn.ValueOfV (reflect.ValueOf (some nilAddrRecord) [Step.dyn])
        (GoVal.iface (some nilAddrRecord))).out = Outcome.aborted ∧
    (addrCityColumn.ValueOfV (reflect.ValueOf (some nilAddrRecord) [Step.dyn])
        (GoVal.iface (some nilAddrRecord))).heap = GoVal.iface (some nilAddrRecord) ∧
    (addrCityColumn.ValueOf (some nilAddrRecord)).out = Outcome.aborted ∧
    ((NewColumn "city" "addr.City" ⟨"TEXT", 0, 0⟩ 0 0 true).ValueOfV
        (reflect.record true false)
        (GoVal.struct [("addr", GoVal.ptr addrType none)])).out = Outcome.aborted ∧
    ((NewColumn "city" "addr.City" ⟨"TEXT", 0, 0⟩ 0 0 true).ValueOfV
        (reflect.record true false)
        (GoVal.struct [("addr", GoVal.ptr addrType none)])).heap =
      GoVal.struct [("addr", GoVal.ptr addrType none)] ∧
    ((NewColumn "city" "A.City" ⟨"TEXT", 0, 0⟩ 0 0 true).ValueOfV
        (reflect.record true false)
        (GoVal.struct
          [("A", GoVal.ptr (GoType.struct [("Inner", GoType.ptr addrType)] ["Inner"])
            none)])).out = Outcome.aborted ∧
    ((NewColumn "city" "A.City" ⟨"TEXT", 0, 0⟩ 0 0 true).ValueOfV
        (reflect.record true false)
        (GoVal.struct
          [("A", GoVal.ptr (GoType.struct [("Inner", GoType.ptr addrType)] ["Inner"])
            none)])).heap =
      GoVal.struct
        [("A", GoVal.ptr (GoType.struct [("Inner", GoType.ptr addrType)] ["Inner"])
          (some (GoVal.struct [("Inner", GoVal.ptr addrType none)] ["Inner"])))] :=
  ⟨rfl, rfl, rfl, rfl, rfl, rfl, rfl⟩

/-- C6, amended. Let field `A` of the record, as `FieldByName` resolves it, be settable
(`CanSet`: addressable and not reached through an unexported field) and hold a nil
pointer to a struct type in whose zero value `FieldByName` finds the field `B`, and the
column's `FieldName` be `A.B` (with a coherent cache). Then `ValueOfV` returns no
error; the heap afterwards is the heap before with field `A` set to a pointer to the
zero value of the struct type, the one value the call creates; the returned handle is
valid, and it is the field `B` found in the zero value, seen from where the new
instance sits in the caller's record, below `A`. When `A` and `B` are declared fields,
the handle's path is field `A`, the pointee, field `B`, where the zero value of `B`'s
type is stored, and the handle is read-only exactly when `B` is unexported. -/
theorem ValueOfV_materializes_nil_pointer (c : Column) (A B : String) (dataStruct : Value)
    (heap : GoVal) (fs : List (String × GoVal)) (em : List String)
    (gs : List (String × GoType)) (emT : List String) (fA fB : Value)
    (hname : c.FieldName = A ++ "." ++ B) (hA : '.' ∉ A.data) (hB : '.' ∉ B.data)
    (hcache : c.cacheCoherent) (hvalid : dataStruct.valid = true)
    (hrec : heap.getAt dataStruct.path = some (.struct fs em))
    (hfieldA : dataStruct.FieldByName heap A = some fA) (hcan : fA.CanSet = true)
    (hnil : fA.get heap = some (.ptr (.struct gs emT) none))
    (hfieldB : (Value.mk true [] true false false).FieldByName
      (GoType.zero (.struct gs emT)) B = some fB)
    (hfB : fB.valid = true) :
    (c.ValueOfV dataStruct heap).out = .ok (fB.under (fA.path ++ [Step.deref])) ∧
    (fB.under (fA.path ++ [Step.deref])).valid = true ∧
    (c.ValueOfV dataStruct heap).heap =
      heap.setAt fA.path (reflect.New (.struct gs emT)) ∧
    (c.ValueOfV dataStruct heap).allocated = [fA.path] ∧
    (c.ValueOfV dataStruct heap).heap.getAt fA.path =
      some (.ptr (.struct gs emT) (some (GoType.zero (.struct gs emT)))) ∧
    (fB.under (fA.path ++ [Step.deref])).get (c.ValueOfV dataStruct heap).heap =
      fB.get (GoType.zero (.struct gs emT)) ∧
    (∃ y, fB.get (GoType.zero (.struct gs emT)) = some y) ∧
    (∃ t, fA.path = dataStruct.path ++ t) ∧
    (∀ a : GoVal, fs.lookup A = some a → fA.path = dataStruct.path ++ [Step.field A]) ∧
    (∀ tB : GoType, gs.lookup B = some tB →
      fB = ⟨true, [Step.field B], true, !isExported B && !emT.contains B,
        !isExported B && emT.contains B⟩ ∧
      fB.get (GoType.zero (.struct gs emT)) = some tB.zero) := by
  have h := ValueOfV_materializes c A B dataStruct heap fs em gs emT fA fB hname hA hB
    hcache hvalid hrec hfieldA hcan hnil hfieldB hfB
  obtain ⟨hfAv, _, _, _⟩ := CanSet_spec fA hcan
  have hnil' := hnil
  rw [get_eq_getAt fA heap hfAv] at hnil'
  have hgetA' := getAt_setAt_self heap _ _ (reflect.New (.struct gs emT)) hnil'
  have hgetD := getAt_deref _ _ _ _ hgetA'
  rw [h]
  refine ⟨rfl, by rw [under_valid]; exact hfB, rfl, rfl, hgetA', ?_, ?_, ?_, ?_, ?_⟩
  · exact get_under _ _ _ hgetD fB
  · obtain ⟨_, _, y, hy⟩ := FieldByName_spec _ B _ fB hfieldB hfB
    exact ⟨y, by rw [get_eq_getAt fB _ hfB]; exact hy⟩
  · exact (FieldByName_spec heap A dataStruct fA hfieldA hfAv).2.1
  · intro a ha
    rw [FieldByName_declared_path heap dataStruct fA fs em A a hvalid hrec ha hfieldA hfAv]
  · intro tB htB
    have hz : (GoType.zero (.struct gs emT)).getAt (Value.mk true [] true false false).path =
        some (.struct (GoType.zeroFields gs) emT) := rfl
    have hl : (GoType.zeroFields gs).lookup B = some tB.zero := by
      rw [lookup_zeroFields, htB]
      rfl
    have hfB' := FieldByName_declared_path _ _ fB _ emT B _ rfl hz hl hfieldB hfB
    simp only [List.nil_append, Bool.false_or] at hfB'
    refine ⟨hfB', ?_⟩
    rw [hfB']
    simp [Value.get, GoType.zero, getAt_cons, GoVal.step, hl, getAt_nil]

/-- A declared, exported field of an addressable record that was not reached through an
unexported field can be set. -/
theorem FieldByName_declared_CanSet (heap : GoVal) (v : Value) (fs : List (String × GoVal))
    (em : List String) (name : String) (y : GoVal) (hv : v.valid = true)
    (haddr : v.addr = true) (hro : v.ro = false) (hexp : isExported name = true)
    (hg : heap.getAt v.path = some (.struct fs em)) (hl : fs.lookup name = some y) :
    ∃ f, v.FieldByName heap name = some f ∧ f.CanSet = true ∧
      f.path = v.path ++ [Step.field name] := by
  refine ⟨_, FieldByName_declared heap v fs em name y hv hg (isExported_ne_empty name hexp) hl,
    ?_, rfl⟩
  simp [Value.CanSet, haddr, hro, hexp]

/-- Witness of C6 on the scenario: `Addr.City` against the addressable `{Addr: nil}`. -/
theorem ValueOfV_materializes_nil_pointer_witness :
    (addrCityColumn.ValueOfV (reflect.record true false) nilAddrRecord).out =
      Outcome.ok
        ⟨true, [Step.field "Addr", Step.deref, Step.field "City"], true, false, false⟩ ∧
    (addrCityColumn.ValueOfV (reflect.record true false) nilAddrRecord).heap =
      GoVal.struct [("Addr", GoVal.ptr addrType (some (GoVal.struct [("City", GoVal.str "")])))] ∧
    (addrCityColumn.ValueOfV (reflect.record true false) nilAddrRecord).allocated =
      [[Step.field "Addr"]] :=
  have h := ValueOfV_materializes_nil_pointer addrCityColumn "Addr" "City"
    (reflect.record true false) nilAddrRecord
    [("Addr", GoVal.ptr addrType none)] [] [("City", GoType.string)] []
    ⟨true, [Step.field "Addr"], true, false, false⟩
    ⟨true, [Step.field "City"], true, false, false⟩
    rfl (by decide) (by decide) (Or.inl rfl) rfl rfl rfl rfl rfl rfl rfl
  ⟨h.1, h.2.2.1, h.2.2.2.1⟩

theorem ValueOfV_absent (c : Column) (X : String) (dataStruct : Value) (heap : GoVal)
    (fs : List (String × GoVal)) (em : List String)
    (hname : c.FieldName = X) (hseg : '.' ∉ X.data) (hcache : c.cacheCoherent)
    (hvalid : dataStruct.valid = true)
    (hrec : heap.getAt dataStruct.path = some (.struct fs em))
    (habsent : (GoVal.struct fs em).Type.FieldByName X = none) :
    c.ValueOfV dataStruct heap =
      ⟨c.splitFieldPath, heap, [], Outcome.error ("field  " ++ X ++ " is not valid")⟩ := by
  have hp := splitFieldPath_fieldPath c hcache
  rw [hname, Split_single X '.' hseg] at hp
  rw [ValueOfV_struct_eq c dataStruct heap fs em X [] hvalid hrec hp]
  unfold Column.ValueOfV.turn
  rw [FieldByName_absent heap dataStruct fs em X hvalid hrec habsent]
  simp only [Column.ValueOfV.loop, Value.IsValid, Value.zero, Bool.not_false, if_true,
    fieldError, hname]

/-- C7. When the record is a struct whose type has no field named `X`, declared or
promoted, and the column's `FieldName` is the single segment `X` (with a coherent
cache), `ValueOfV` returns no handle but the error whose message is
`field  X is not valid`, creates no value and leaves the heap as it was. `ValueOf` does
the same for the record passed by value and for a pointer to the record. -/
theorem ValueOfV_absent_field_fails (c : Column) (X : String) (dataStruct : Value)
    (heap : GoVal) (fs : List (String × GoVal)) (em : List String)
    (hname : c.FieldName = X) (hseg : '.' ∉ X.data) (hcache : c.cacheCoherent)
    (hvalid : dataStruct.valid = true)
    (hrec : heap.getAt dataStruct.path = some (.struct fs em))
    (habsent : (GoVal.struct fs em).Type.FieldByName X = none) :
    ((c.ValueOfV dataStruct heap).out = Outcome.error ("field  " ++ X ++ " is not valid") ∧
      (c.ValueOfV dataStruct heap).heap = heap ∧
      (c.ValueOfV dataStruct heap).allocated = []) ∧
    ((c.ValueOf (some (.struct fs em))).out =
        Outcome.error ("field  " ++ X ++ " is not valid") ∧
      (c.ValueOf (some (.struct fs em))).heap = GoVal.iface (some (.struct fs em))) ∧
    (∀ t : GoType,
      (c.ValueOf (some (.ptr t (some (.struct fs em))))).out =
        Outcome.error ("field  " ++ X ++ " is not valid") ∧
      (c.ValueOf (some (.ptr t (some (.struct fs em))))).heap =
        GoVal.iface (some (.ptr t (some (.struct fs em))))) := by
  refine ⟨?_, ?_, ?_⟩
  · rw [ValueOfV_absent c X dataStruct heap fs em hname hseg hcache hvalid hrec habsent]
    exact ⟨rfl, rfl, rfl⟩
  · rw [ValueOf_struct_bean,
      ValueOfV_absent c X ⟨true, [Step.dyn], false, false, false⟩
        (.iface (some (.struct fs em))) fs em hname hseg hcache rfl rfl habsent]
    exact ⟨rfl, rfl⟩
  · intro t
    rw [ValueOf_pointer_bean,
      ValueOfV_absent c X ⟨true, [Step.dyn, Step.deref], true, false, false⟩
        (.iface (some (.ptr t (some (.struct fs em))))) fs em hname hseg hcache rfl rfl
        habsent]
    exact ⟨rfl, rfl⟩

/-- Witness of C7: the field `X` looked up in `{Addr: nil}`, and the field `Zip` looked
up in a record that embeds `{City string}`. -/
theorem ValueOfV_absent_field_fails_witness :
    (NewColumn "x" "X" ⟨"TEXT", 0, 0⟩ 0 0 true).cacheCoherent ∧
    ((NewColumn "x" "X" ⟨"TEXT", 0, 0⟩ 0 0 true).ValueOfV (reflect.record true false)
        nilAddrRecord).out = Outcome.error "field  X is not valid" ∧
    ((NewColumn "x" "X" ⟨"TEXT", 0, 0⟩ 0 0 true).ValueOfV (reflect.record true false)
        nilAddrRecord).heap = nilAddrRecord ∧
    ((NewColumn "z" "Zip" ⟨"TEXT", 0, 0⟩ 0 0 true).ValueOfV (reflect.record true false)
        (GoVal.struct [("Addr", GoVal.struct [("City", GoVal.str "Paris")])] ["Addr"])).out =
      Outcome.error "field  Zip is not valid" :=
  ⟨Or.inl rfl,
    (ValueOfV_absent_field_fails (NewColumn "x" "X" ⟨"TEXT", 0, 0⟩ 0 0 true) "X"
      (reflect.record true false) nilAddrRecord [("Addr", GoVal.ptr addrType none)] []
      rfl (by decide) (Or.inl rfl) rfl rfl rfl).1.1,
    (ValueOfV_absent_field_fails (NewColumn "x" "X" ⟨"TEXT", 0, 0⟩ 0 0 true) "X"
      (reflect.record true false) nilAddrRecord [("Addr", GoVal.ptr addrType none)] []
      rfl (by decide) (Or.inl rfl) rfl rfl rfl).1.2.1,
    (ValueOfV_absent_field_fails (NewColumn "z" "Zip" ⟨"TEXT", 0, 0⟩ 0 0 true) "Zip"
      (reflect.record true false)
      (GoVal.struct [("Addr", GoVal.struct [("City", GoVal.str "Paris")])] ["Addr"])
      [("Addr", GoVal.struct [("City", GoVal.str "Paris")])] ["Addr"]
      rfl (by decide) (Or.inl rfl) rfl rfl rfl).1.1⟩

/-- One turn of the loop of `ValueOfV` on a valid value that is neither a struct nor
a pointer: the function returns the error at once, with the heap as it is. -/
theorem loop_premature_scalar (col : Column) (next : String) (rest : List String)
    (fieldValue : Value) (heap : GoVal) (hvalid : fieldValue.valid = true)
    (hstruct : fieldValue.Kind heap ≠ Kind.Struct) (hptr : fieldValue.Kind heap ≠ Kind.Ptr) :
    Column.ValueOfV.loop col (next :: rest) fieldValue heap =
      (heap, [],
        Except.error (Outcome.error ("field  " ++ col.FieldName ++ " is not valid"))) := by
  unfold Column.ValueOfV.loop
  simp [Value.IsValid, hvalid, hstruct, hptr, fieldError]

/-- C8, at the failing input. The record `{A *int}` and the column `A.B`: the walk
reaches, before the last segment, a pointer whose pointed-to type is no struct.
`ValueOfV` takes the pointer branch, calls `Elem().FieldByName` on an `int` and
panics, for a nil `A` (after setting it to a fresh `int`) and for a non-nil `A`, also
when called through `ValueOf` on a pointer to the record; it returns no error. -/
theorem ValueOfV_pointer_to_non_struct_aborts :
    ((NewColumn "b" "A.B" ⟨"INT", 0, 0⟩ 0 0 true).ValueOfV (reflect.record true false)
        (GoVal.struct [("A", GoVal.ptr GoType.int none)])).out = Outcome.aborted ∧
    ((NewColumn "b" "A.B" ⟨"INT", 0, 0⟩ 0 0 true).ValueOfV (reflect.record true false)
        (GoVal.struct [("A", GoVal.ptr GoType.int none)])).heap =
      GoVal.struct [("A", GoVal.ptr GoType.int (some (GoVal.int 0)))] ∧
    ((NewColumn "b" "A.B" ⟨"INT", 0, 0⟩ 0 0 true).ValueOfV (reflect.record true false)
        (GoVal.struct [("A", GoVal.ptr GoType.int (some (GoVal.int 7)))])).out =
      Outcome.aborted ∧
    ((NewColumn "b" "A.B" ⟨"INT", 0, 0⟩ 0 0 true).ValueOf
        (some (GoVal.ptr (GoType.struct [("A", GoType.ptr GoType.int)])
          (some (GoVal.struct [("A", GoVal.ptr GoType.int none)]))))).out =
      Outcome.aborted :=
  ⟨rfl, rfl, rfl, rfl⟩

/-- C9, refuted as stated. The message of the error has two spaces after `field`: for
the column `X` on a record without fields it is `field  X is not valid`, which is not
`field ` followed by `X` followed by ` is not valid`. -/
theorem error_message_has_two_spaces :
    ((NewColumn "x" "X" ⟨"TEXT", 0, 0⟩ 0 0 true).ValueOfV (reflect.record true false)
        (GoVal.struct [])).out = Outcome.error "field  X is not valid" ∧
    ((NewColumn "x" "X" ⟨"TEXT", 0, 0⟩ 0 0 true).ValueOfV (reflect.record true false)
        (GoVal.struct [])).out ≠ Outcome.error ("field " ++ "X" ++ " is not valid") := by
  refine ⟨rfl, ?_⟩
  have h : ((NewColumn "x" "X" ⟨"TEXT", 0, 0⟩ 0 0 true).ValueOfV (reflect.record true false)
        (GoVal.struct [])).out = Outcome.error "field  X is not valid" := rfl
  rw [h]
  intro hne
  have := Outcome.error.inj hne
  revert this
  decide

/-- C9, amended. Every error `ValueOfV` returns has exactly the message `field `,
one more space, the column's `FieldName`, ` is not valid`: the format string is
`"field  %v is not valid"`, at both places that return an error. -/
theorem ValueOfV_error_message (c : Column) (dataStruct : Value) (heap : GoVal)
    (msg : String) (h : (c.ValueOfV dataStruct heap).out = Outcome.error msg) :
    msg = "field  " ++ c.FieldName ++ " is not valid" := by
  have key : msg = fieldError c.splitFieldPath.FieldName := by
    unfold Column.ValueOfV at h
    simp only at h
    repeat' split at h
    all_goals
      first
      | (rename_i hl
         simp only at h
         subst h
         exact loop_error_msg _ _ _ _ _ _ _ hl)
      | (simp only [Outcome.error.injEq] at h
         exact h.symm)
      | simp at h
  rw [key, splitFieldPath_FieldName]
  rfl

/-- Witness of C9 on both failures: the scalar `Name` reached before the last segment
of `Name.X`, and the absent field `X`. -/
theorem ValueOfV_error_message_witness :
    ((NewColumn "x" "Name.X" ⟨"TEXT", 0, 0⟩ 0 0 true).ValueOfV (reflect.record true false)
        (GoVal.struct [("Name", GoVal.str "n")])).out =
      Outcome.error "field  Name.X is not valid" ∧
    "field  Name.X is not valid" = "field  " ++ "Name.X" ++ " is not valid" ∧
    ((NewColumn "x" "X" ⟨"TEXT", 0, 0⟩ 0 0 true).ValueOfV (reflect.record true false)
        (GoVal.struct [("Name", GoVal.str "n")])).out =
      Outcome.error "field  X is not valid" ∧
    "field  X is not valid" = "field  " ++ "X" ++ " is not valid" :=
  ⟨rfl,
    ValueOfV_error_message (NewColumn "x" "Name.X" ⟨"TEXT", 0, 0⟩ 0 0 true)
      (reflect.record true false) (GoVal.struct [("Name", GoVal.str "n")])
      "field  Name.X is not valid" rfl,
    rfl,
    ValueOfV_error_message (NewColumn "x" "X" ⟨"TEXT", 0, 0⟩ 0 0 true)
      (reflect.record true false) (GoVal.struct [("Name", GoVal.str "n")])
      "field  X is not valid" rfl⟩

theorem getLast?_Split (s : String) (sep : Char) :
    ∃ last, (strings.Split s sep).getLast? = some last := by
  cases h : (strings.Split s sep).getLast? with
  | some last => exact ⟨last, rfl⟩
  | none => exact absurd (List.getLast?_eq_none_iff.1 h) (Split_ne_nil s sep)

/-- C10, refuted as stated. A map whose key type is `int` is map-shaped, but a
`string` is not assignable to its key type: `MapIndex` panics, so `ValueOfV` yields
no value at all. -/
theorem ValueOfV_map_with_int_keys_aborts :
    (addrCityColumn.ValueOfV (reflect.record true false)
        (GoVal.map GoType.int GoType.string [(GoVal.int 1, GoVal.str "x")])).out =
      Outcome.aborted :=
  rfl

/-- C10, amended. For a map whose key type is `string` or `interface{}` (and a column
with a coherent cache), `ValueOfV` returns no error and walks no nested structure: the
key it looks up is the last segment of `FieldName` split on `.`; the value returned
refers to the entry stored under that key, and is the zero `Value` (invalid) when
there is none; the heap is left as it was. -/
theorem ValueOfV_map_lookup (c : Column) (dataStruct : Value) (heap : GoVal)
    (k e : GoType) (es : List (GoVal × GoVal))
    (hcache : c.cacheCoherent) (hvalid : dataStruct.valid = true)
    (hrec : heap.getAt dataStruct.path = some (.map k e es))
    (hkey : k.acceptsString = true) :
    ∃ (last : String) (fieldValue : Value),
      (strings.Split c.FieldName '.').getLast? = some last ∧
      (c.ValueOfV dataStruct heap).out = Outcome.ok fieldValue ∧
      (c.ValueOfV dataStruct heap).heap = heap ∧
      fieldValue.get heap = mapaccess last es ∧
      fieldValue.IsValid = (mapaccess last es).isSome ∧
      (mapaccess last es = none → fieldValue = Value.zero) := by
  obtain ⟨last, hlast⟩ := getLast?_Split c.FieldName '.'
  have hp := splitFieldPath_fieldPath c hcache
  have hout : (c.ValueOfV dataStruct heap).heap = heap ∧
      (c.ValueOfV dataStruct heap).out = Outcome.ok
        (match mapaccess last es with
          | some _ =>
            ⟨true, dataStruct.path ++ [Step.key last], false,
              dataStruct.ro || dataStruct.embedRO, false⟩
          | none => Value.zero) := by
    unfold Column.ValueOfV
    cases hm : mapaccess last es <;>
      simp [hp, hlast, Value.Type, Value.get, hvalid, hrec, GoVal.Type, GoType.Kind,
        Value.MapIndex, hkey, hm]
  refine ⟨last, _, hlast, hout.2, hout.1, ?_, ?_, ?_⟩
  · cases hm : mapaccess last es with
    | none => simp [Value.get, Value.zero]
    | some x => simp [Value.get, getAt_append, hrec, getAt_cons, GoVal.step, getAt_nil, hm]
  · cases hm : mapaccess last es <;> simp [Value.IsValid, Value.zero]
  · intro hm
    simp [hm]

/-- Witness of C10: `Addr.City` against a `map[string]string` looks up `City` only. -/
theorem ValueOfV_map_lookup_witness :
    ∃ (last : String) (fieldValue : Value),
      (strings.Split addrCityColumn.FieldName '.').getLast? = some last ∧
      (addrCityColumn.ValueOfV (reflect.record true false)
        (GoVal.map GoType.string GoType.string
          [(GoVal.str "Addr", GoVal.str "a"), (GoVal.str "City", GoVal.str "c")])).out =
        Outcome.ok fieldValue ∧
      (addrCityColumn.ValueOfV (reflect.record true false)
        (GoVal.map GoType.string GoType.string
          [(GoVal.str "Addr", GoVal.str "a"), (GoVal.str "City", GoVal.str "c")])).heap =
        GoVal.map GoType.string GoType.string
          [(GoVal.str "Addr", GoVal.str "a"), (GoVal.str "City", GoVal.str "c")] ∧
      fieldValue.get (GoVal.map GoType.string GoType.string
          [(GoVal.str "Addr", GoVal.str "a"), (GoVal.str "City", GoVal.str "c")]) =
        mapaccess last [(GoVal.str "Addr", GoVal.str "a"), (GoVal.str "City", GoVal.str "c")] ∧
      fieldValue.IsValid =
        (mapaccess last
          [(GoVal.str "Addr", GoVal.str "a"), (GoVal.str "City", GoVal.str "c")]).isSome ∧
      (mapaccess last [(GoVal.str "Addr", GoVal.str "a"), (GoVal.str "City", GoVal.str "c")] =
        none → fieldValue = Value.zero) :=
  ValueOfV_map_lookup addrCityColumn (reflect.record true false) _ GoType.string
    GoType.string [(GoVal.str "Addr", GoVal.str "a"), (GoVal.str "City", GoVal.str "c")]
    (Or.inl rfl) rfl rfl rfl

/-! ## The column constructor and the field-path cache -/

/-- C14. `NewColumn` returns a column whose `Name`, `FieldName`, `SQLType`, `Length`,
`Length2` and `Nullable` are the arguments, whose `Default` is empty, whose flags are
all false, whose `MapType` is `TWOSIDES`, that is 1, whose `Indexes` and
`EnumOptions` are allocated empty maps, and whose `fieldPath` cache is unset. -/
theorem NewColumn_fields (name fieldName : String) (sqlType : SQLType) (len1 len2 : Int)
    (nullable : Bool) :
    (NewColumn name fieldName sqlType len1 len2 nullable).Name = name ∧
    (NewColumn name fieldName sqlType len1 len2 nullable).FieldName = fieldName ∧
    (NewColumn name fieldName sqlType len1 len2 nullable).SQLType = sqlType ∧
    (NewColumn name fieldName sqlType len1 len2 nullable).Length = len1 ∧
    (NewColumn name fieldName sqlType len1 len2 nullable).Length2 = len2 ∧
    (NewColumn name fieldName sqlType len1 len2 nullable).Nullable = nullable ∧
    (NewColumn name fieldName sqlType len1 len2 nullable).Default = "" ∧
    (NewColumn name fieldName sqlType len1 len2 nullable).IsPrimaryKey = false ∧
    (NewColumn name fieldName sqlType len1 len2 nullable).IsAutoIncrement = false ∧
    (NewColumn name fieldName sqlType len1 len2 nullable).IsCreated = false ∧
    (NewColumn name fieldName sqlType len1 len2 nullable).IsUpdated = false ∧
    (NewColumn name fieldName sqlType len1 len2 nullable).IsDeleted = false ∧
    (NewColumn name fieldName sqlType len1 len2 nullable).IsCascade = false ∧
    (NewColumn name fieldName sqlType len1 len2 nullable).IsVersion = false ∧
    (NewColumn name fieldName sqlType len1 len2 nullable).DefaultIsEmpty = false ∧
    (NewColumn name fieldName sqlType len1 len2 nullable).MapType = TWOSIDES ∧
    TWOSIDES = 1 ∧
    (NewColumn name fieldName sqlType len1 len2 nullable).Indexes = some [] ∧
    (NewColumn name fieldName sqlType len1 len2 nullable).EnumOptions = some [] ∧
    (NewColumn name fieldName sqlType len1 len2 nullable).fieldPath = none :=
  ⟨rfl, rfl, rfl, rfl, rfl, rfl, rfl, rfl, rfl, rfl, rfl, rfl, rfl, rfl, rfl, rfl, rfl, rfl,
    rfl, rfl⟩

theorem ValueOfV_col (c : Column) (dataStruct : Value) (heap : GoVal) :
    (c.ValueOfV dataStruct heap).col = c.splitFieldPath := by
  unfold Column.ValueOfV
  simp only
  repeat' split
  all_goals rfl

theorem ValueOf_col (c : Column) (bean : Option GoVal) :
    (c.ValueOf bean).col = c.splitFieldPath := by
  unfold Column.ValueOf
  exact ValueOfV_col c _ _

theorem splitFieldPath_of_some (c : Column) (p : List String) (h : c.fieldPath = some p) :
    c.splitFieldPath = c := by
  unfold Column.splitFieldPath
  simp [h]

theorem splitFieldPath_of_none (c : Column) (h : c.fieldPath = none) :
    c.splitFieldPath.fieldPath = some (strings.Split c.FieldName '.') := by
  unfold Column.splitFieldPath
  simp [h]

theorem afterEvents_of_some (events : List ColumnEvent) :
    ∀ (c : Column) (p : List String), c.fieldPath = some p →
      (c.afterEvents events).fieldPath = some p := by
  induction events with
  | nil => intro c p h; exact h
  | cons e es ih =>
    intro c p h
    show ((c.afterEvent e).afterEvents es).fieldPath = some p
    apply ih
    cases e with
    | callValueOfV ds heap =>
      show (c.ValueOfV ds heap).col.fieldPath = some p
      rw [ValueOfV_col, splitFieldPath_of_some c p h, h]
    | callValueOf bean =>
      show (c.ValueOf bean).col.fieldPath = some p
      rw [ValueOf_col, splitFieldPath_of_some c p h, h]
    | assignFieldName n => exact h

theorem afterEvents_fieldPath (events : List ColumnEvent) :
    ∀ (c : Column), c.fieldPath = none →
      (c.afterEvents events).fieldPath =
        (fieldNameAtFirstCall c.FieldName events).map (fun s => strings.Split s '.') := by
  induction events with
  | nil => intro c h; simpa [Column.afterEvents, fieldNameAtFirstCall] using h
  | cons e es ih =>
    intro c h
    show ((c.afterEvent e).afterEvents es).fieldPath = _
    cases e with
    | callValueOfV ds heap =>
      simp only [fieldNameAtFirstCall, Option.map_some']
      apply afterEvents_of_some
      show (c.ValueOfV ds heap).col.fieldPath = _
      rw [ValueOfV_col, splitFieldPath_of_none c h]
    | callValueOf bean =>
      simp only [fieldNameAtFirstCall, Option.map_some']
      apply afterEvents_of_some
      show (c.ValueOf bean).col.fieldPath = _
      rw [ValueOf_col, splitFieldPath_of_none c h]
    | assignFieldName n =>
      simp only [fieldNameAtFirstCall]
      exact ih { c with FieldName := n } h

/-- C13. For a column built by `NewColumn` and any sequence of calls of `ValueOfV` and
`ValueOf` and of assignments to `FieldName`, the cached `fieldPath` is unset when no
call was made yet, and otherwise the split on `.` of the value `FieldName` had at the
first call. That split is never empty, for the empty string it is the one empty
segment, so the cache never holds an empty path and the path a call indexes is never
empty. A call on a column whose cache is set leaves the whole column as it is,
whatever `FieldName` has become. -/
theorem fieldPath_cache_invariant (name fieldName : String) (sqlType : SQLType)
    (len1 len2 : Int) (nullable : Bool) (events : List ColumnEvent) :
    ((NewColumn name fieldName sqlType len1 len2 nullable).afterEvents events).fieldPath =
      (fieldNameAtFirstCall fieldName events).map (fun s => strings.Split s '.') ∧
    (∀ s : String, strings.Split s '.' ≠ []) ∧
    strings.Split "" '.' = [""] ∧
    ((NewColumn name fieldName sqlType len1 len2 nullable).afterEvents events).fieldPath ≠
      some [] ∧
    (((NewColumn name fieldName sqlType len1 len2 nullable).afterEvents
      events).splitFieldPath.fieldPath.getD []) ≠ [] ∧
    (∀ (c : Column) (p : List String) (dataStruct : Value) (heap : GoVal)
      (bean : Option GoVal) (n : String),
      c.fieldPath = some p →
        (c.ValueOfV dataStruct heap).col = c ∧ (c.ValueOf bean).col = c ∧
        ({ c with FieldName := n }.ValueOfV dataStruct heap).col.fieldPath = some p ∧
        ({ c with FieldName := n }.ValueOf bean).col.fieldPath = some p) := by
  have h1 := afterEvents_fieldPath events
    (NewColumn name fieldName sqlType len1 len2 nullable) rfl
  have hne : ((NewColumn name fieldName sqlType len1 len2 nullable).afterEvents
      events).fieldPath ≠ some [] := by
    rw [h1]
    cases fieldNameAtFirstCall
      (NewColumn name fieldName sqlType len1 len2 nullable).FieldName events with
    | none => simp
    | some s =>
      simp only [Option.map_some', ne_eq, Option.some.injEq]
      exact Split_ne_nil s '.'
  refine ⟨h1, fun s => Split_ne_nil s '.', rfl, hne, ?_, ?_⟩
  · generalize (NewColumn name fieldName sqlType len1 len2 nullable).afterEvents events = c
      at hne
    cases hc : c.fieldPath with
    | none =>
      rw [splitFieldPath_of_none c hc]
      exact Split_ne_nil _ _
    | some p =>
      rw [splitFieldPath_of_some c p hc, hc]
      intro hp
      apply hne
      rw [hc]
      simpa using hp
  · intro c p ds heap bean n hc
    refine ⟨?_, ?_, ?_, ?_⟩
    · rw [ValueOfV_col, splitFieldPath_of_some c p hc]
    · rw [ValueOf_col, splitFieldPath_of_some c p hc]
    · rw [ValueOfV_col, splitFieldPath_of_some { c with FieldName := n } p hc]
      exact hc
    · rw [ValueOf_col, splitFieldPath_of_some { c with FieldName := n } p hc]
      exact hc

/-- Witness of C13: the field name is assigned before the first call and again after
it; the cache holds the split of the name the first call saw. -/
theorem fieldPath_cache_invariant_witness :
    ((NewColumn "c" "A" ⟨"TEXT", 0, 0⟩ 0 0 true).afterEvents
      [ColumnEvent.assignFieldName "B.C",
       ColumnEvent.callValueOfV (reflect.record true false) nilAddrRecord,
       ColumnEvent.assignFieldName "Z",
       ColumnEvent.callValueOf (some nilAddrRecord)]).fieldPath = some ["B", "C"] ∧
    ({ addrCityColumn.splitFieldPath with FieldName := "Z" }.ValueOfV
      (reflect.record true false) nilAddrRecord).col.fieldPath = some ["Addr", "City"] :=
  ⟨(fieldPath_cache_invariant "c" "A" ⟨"TEXT", 0, 0⟩ 0 0 true
      [ColumnEvent.assignFieldName "B.C",
       ColumnEvent.callValueOfV (reflect.record true false) nilAddrRecord,
       ColumnEvent.assignFieldName "Z",
       ColumnEvent.callValueOf (some nilAddrRecord)]).1,
    ((fieldPath_cache_invariant "c" "A" ⟨"TEXT", 0, 0⟩ 0 0 true []).2.2.2.2.2
      addrCityColumn.splitFieldPath ["Addr", "City"] (reflect.record true false)
      nilAddrRecord none "Z" rfl).2.2.1⟩

/-! ## Writing through the handle, and failing after a write -/

theorem ValueOfV_single_field (c : Column) (A : String) (dataStruct : Value) (heap : GoVal)
    (fs : List (String × GoVal)) (em : List String) (fA : Value)
    (hname : c.FieldName = A) (hA : '.' ∉ A.data) (hcache : c.cacheCoherent)
    (hvalid : dataStruct.valid = true)
    (hrec : heap.getAt dataStruct.path = some (.struct fs em))
    (hfield : dataStruct.FieldByName heap A = some fA) (hfA : fA.valid = true) :
    c.ValueOfV dataStruct heap = ⟨c.splitFieldPath, heap, [], .ok fA⟩ := by
  have hp := splitFieldPath_fieldPath c hcache
  rw [hname, Split_single A '.' hA] at hp
  rw [ValueOfV_struct_eq c dataStruct heap fs em A [] hvalid hrec hp]
  unfold Column.ValueOfV.turn
  rw [hfield]
  simp only [Column.ValueOfV.loop, Value.IsValid, hfA, Bool.not_true, Bool.false_eq_true,
    if_false]

/-- The model of `Set` against two probes of `reflect`: a `string` is not assignable to
a field of type `int`, and a value stored in a field of type `interface{}` is
boxed. -/
theorem Set_checks_assignability :
    Value.Set ⟨true, [Step.field "A"], true, false, false⟩
        (GoVal.struct [("A", GoVal.int 1)]) (GoVal.str "x") = none ∧
    Value.Set ⟨true, [Step.field "A"], true, false, false⟩
        (GoVal.struct [("A", GoVal.iface none)]) (GoVal.str "x") =
      some (GoVal.struct [("A", GoVal.iface (some (GoVal.str "x")))]) :=
  ⟨rfl, rfl⟩

/-- C11, refuted as stated. For the record `{A: 1}` handed to `ValueOf` by value the
handle for `A` is returned but is not addressable, and for the addressable record
`{a: 1}` the handle for the unexported field `a` is read-only: in both cases `Set`
through the handle panics, so nothing can be written through it. -/
theorem handle_not_settable :
    ((NewColumn "a" "A" ⟨"INT", 0, 0⟩ 0 0 true).ValueOf
        (some (GoVal.struct [("A", GoVal.int 1)]))).out =
      Outcome.ok ⟨true, [Step.dyn, Step.field "A"], false, false, false⟩ ∧
    Value.Set ⟨true, [Step.dyn, Step.field "A"], false, false, false⟩
        (GoVal.iface (some (GoVal.struct [("A", GoVal.int 1)]))) (GoVal.int 2) = none ∧
    ((NewColumn "a" "a" ⟨"INT", 0, 0⟩ 0 0 true).ValueOfV (reflect.record true false)
        (GoVal.struct [("a", GoVal.int 1)])).out =
      Outcome.ok ⟨true, [Step.field "a"], true, true, false⟩ ∧
    Value.Set ⟨true, [Step.field "a"], true, true, false⟩
        (GoVal.struct [("a", GoVal.int 1)]) (GoVal.int 2) = none :=
  ⟨rfl, rfl, rfl, rfl⟩

/-- C11, amended. Let field `A` of the record, as `FieldByName` resolves it, declared
or promoted, be settable (`CanSet`: addressable and not reached through an unexported
field), and the column's `FieldName` be `A` (with a coherent cache). Then `ValueOfV`
returns, without touching the heap, the handle of field `A`, which lies in the record;
`Set` of any value `v` of the type of `A` through the handle succeeds, and in the heap
it yields the handle reads `v`, field `A` of the record is still found at the handle,
and every value whose path parts from the handle's path is as before. When `A` is a
declared field, the record has `v` in field `A` and every other field as before. -/
theorem ValueOfV_write_through (c : Column) (A : String) (dataStruct : Value)
    (heap : GoVal) (fs : List (String × GoVal)) (em : List String) (fA : Value) (a v : GoVal)
    (hname : c.FieldName = A) (hA : '.' ∉ A.data) (hcache : c.cacheCoherent)
    (hvalid : dataStruct.valid = true)
    (hrec : heap.getAt dataStruct.path = some (.struct fs em))
    (hfield : dataStruct.FieldByName heap A = some fA) (hcan : fA.CanSet = true)
    (ha : fA.get heap = some a) (htype : v.Type = a.Type) :
    ∃ written : GoVal,
      (c.ValueOfV dataStruct heap).out = Outcome.ok fA ∧
      (c.ValueOfV dataStruct heap).heap = heap ∧
      (c.ValueOfV dataStruct heap).allocated = [] ∧
      (∃ t, fA.path = dataStruct.path ++ t) ∧
      fA.Set heap v = some written ∧
      fA.get written = some v ∧
      dataStruct.FieldByName written A = some fA ∧
      (∀ (p q1 q2 : List Step) (s1 s2 : Step), fA.path = p ++ s1 :: q1 → s1 ≠ s2 →
        written.getAt (p ++ s2 :: q2) = heap.getAt (p ++ s2 :: q2)) ∧
      (∀ a' : GoVal, fs.lookup A = some a' →
        fA.path = dataStruct.path ++ [Step.field A] ∧
        written.getAt dataStruct.path = some (.struct (setField A (fun _ => v) fs) em) ∧
        (setField A (fun _ => v) fs).lookup A = some v ∧
        (∀ B : String, B ≠ A → (setField A (fun _ => v) fs).lookup B = fs.lookup B)) := by
  obtain ⟨hfAv, hfAa, hfAr, hfAe⟩ := CanSet_spec fA hcan
  have h := ValueOfV_single_field c A dataStruct heap fs em fA hname hA hcache hvalid hrec
    hfield hfAv
  have hgetA : heap.getAt fA.path = some a := by
    rw [← get_eq_getAt fA heap hfAv]
    exact ha
  refine ⟨heap.setAt fA.path v, by rw [h], by rw [h], by rw [h],
    (FieldByName_spec heap A dataStruct fA hfield hfAv).2.1, ?_, ?_, ?_, ?_, ?_⟩
  · simp [Value.Set, hcan, Value.Type, ha, assignTo_of_Type v a.Type htype]
  · rw [get_eq_getAt fA _ hfAv]
    exact getAt_setAt_self heap fA.path a v hgetA
  · exact FieldByName_stable heap A dataStruct fA hfield hfAv a v hgetA htype
  · intro p q1 q2 s1 s2 hpath hne
    rw [hpath]
    exact getAt_setAt_diverge heap p s1 s2 q1 q2 v hne
  · intro a' ha'
    have hpath : fA.path = dataStruct.path ++ [Step.field A] := by
      rw [FieldByName_declared_path heap dataStruct fA fs em A a' hvalid hrec ha' hfield hfAv]
    refine ⟨hpath, ?_, ?_, ?_⟩
    · rw [hpath]
      have := getAt_setAt_prefix heap dataStruct.path [Step.field A] v _ hrec
      simpa [GoVal.setAt] using this
    · rw [lookup_setField_same, ha']
      rfl
    · intro B hB
      exact lookup_setField_other A B _ fs hB

/-- Witness of C11: `7` written to field `A` of the addressable `{A: 1, B: 2}`; and the
handle of the field `A` that the unexported embedded struct `inner` promotes, which can
be set as well. -/
theorem ValueOfV_write_through_witness :
    (∃ written : GoVal,
      ((NewColumn "a" "A" ⟨"INT", 0, 0⟩ 0 0 true).ValueOfV (reflect.record true false)
        (GoVal.struct [("A", GoVal.int 1), ("B", GoVal.int 2)])).out =
        Outcome.ok ⟨true, [Step.field "A"], true, false, false⟩ ∧
      Value.Set ⟨true, [Step.field "A"], true, false, false⟩
        (GoVal.struct [("A", GoVal.int 1), ("B", GoVal.int 2)]) (GoVal.int 7) =
        some written ∧
      written.getAt [] = some (GoVal.struct [("A", GoVal.int 7), ("B", GoVal.int 2)])) ∧
    (∃ written : GoVal,
      ((NewColumn "a" "A" ⟨"INT", 0, 0⟩ 0 0 true).ValueOfV (reflect.record true false)
        (GoVal.struct [("inner", GoVal.struct [("A", GoVal.int 1)])] ["inner"])).out =
        Outcome.ok ⟨true, [Step.field "inner", Step.field "A"], true, false, false⟩ ∧
      Value.Set ⟨true, [Step.field "inner", Step.field "A"], true, false, false⟩
        (GoVal.struct [("inner", GoVal.struct [("A", GoVal.int 1)])] ["inner"])
        (GoVal.int 7) = some written ∧
      Value.get ⟨true, [Step.field "inner", Step.field "A"], true, false, false⟩ written =
        some (GoVal.int 7)) := by
  refine ⟨?_, ?_⟩
  · obtain ⟨written, h1, _, _, _, h4, _, _, _, h8⟩ :=
      ValueOfV_write_through (NewColumn "a" "A" ⟨"INT", 0, 0⟩ 0 0 true) "A"
        (reflect.record true false) (GoVal.struct [("A", GoVal.int 1), ("B", GoVal.int 2)])
        [("A", GoVal.int 1), ("B", GoVal.int 2)] []
        ⟨true, [Step.field "A"], true, false, false⟩ (GoVal.int 1) (GoVal.int 7)
        rfl (by decide) (Or.inl rfl) rfl rfl rfl rfl rfl rfl
    exact ⟨written, h1, h4, (h8 (GoVal.int 1) rfl).2.1⟩
  · obtain ⟨written, h1, _, _, _, h4, h5, _⟩ :=
      ValueOfV_write_through (NewColumn "a" "A" ⟨"INT", 0, 0⟩ 0 0 true) "A"
        (reflect.record true false)
        (GoVal.struct [("inner", GoVal.struct [("A", GoVal.int 1)])] ["inner"])
        [("inner", GoVal.struct [("A", GoVal.int 1)])] ["inner"]
        ⟨true, [Step.field "inner", Step.field "A"], true, false, false⟩
        (GoVal.int 1) (GoVal.int 7)
        rfl (by decide) (Or.inl rfl) rfl rfl rfl rfl rfl rfl
    exact ⟨written, h1, h4, h5⟩

/-- C18. `ValueOfV` is not atomic on failure. For `A.B.C` against `{A: nil}` with `A`
a pointer to `{B int}`, and for `A.B` against `{A: nil}` with `A` a pointer to the
empty struct, it returns the error and the record afterwards holds a fresh instance in
`A`, so it differs from the record before. -/
theorem ValueOfV_not_atomic_on_failure :
    ((NewColumn "c" "A.B.C" ⟨"INT", 0, 0⟩ 0 0 true).ValueOfV (reflect.record true false)
        (GoVal.struct [("A", GoVal.ptr (GoType.struct [("B", GoType.int)]) none)])).out =
      Outcome.error "field  A.B.C is not valid" ∧
    ((NewColumn "c" "A.B.C" ⟨"INT", 0, 0⟩ 0 0 true).ValueOfV (reflect.record true false)
        (GoVal.struct [("A", GoVal.ptr (GoType.struct [("B", GoType.int)]) none)])).heap =
      GoVal.struct [("A", GoVal.ptr (GoType.struct [("B", GoType.int)])
        (some (GoVal.struct [("B", GoVal.int 0)])))] ∧
    ((NewColumn "c" "A.B.C" ⟨"INT", 0, 0⟩ 0 0 true).ValueOfV (reflect.record true false)
        (GoVal.struct [("A", GoVal.ptr (GoType.struct [("B", GoType.int)]) none)])).heap ≠
      GoVal.struct [("A", GoVal.ptr (GoType.struct [("B", GoType.int)]) none)] ∧
    ((NewColumn "b" "A.B" ⟨"INT", 0, 0⟩ 0 0 true).ValueOfV (reflect.record true false)
        (GoVal.struct [("A", GoVal.ptr (GoType.struct []) none)])).out =
      Outcome.error "field  A.B is not valid" ∧
    ((NewColumn "b" "A.B" ⟨"INT", 0, 0⟩ 0 0 true).ValueOfV (reflect.record true false)
        (GoVal.struct [("A", GoVal.ptr (GoType.struct []) none)])).heap =
      GoVal.struct [("A", GoVal.ptr (GoType.struct []) (some (GoVal.struct [])))] ∧
    ((NewColumn "b" "A.B" ⟨"INT", 0, 0⟩ 0 0 true).ValueOfV (reflect.record true false)
        (GoVal.struct [("A", GoVal.ptr (GoType.struct []) none)])).heap ≠
      GoVal.struct [("A", GoVal.ptr (GoType.struct []) none)] := by
  refine ⟨rfl, rfl, ?_, rfl, rfl, ?_⟩
  · have h : ((NewColumn "c" "A.B.C" ⟨"INT", 0, 0⟩ 0 0 true).ValueOfV
        (reflect.record true false)
        (GoVal.struct [("A", GoVal.ptr (GoType.struct [("B", GoType.int)]) none)])).heap =
        GoVal.struct [("A", GoVal.ptr (GoType.struct [("B", GoType.int)])
          (some (GoVal.struct [("B", GoVal.int 0)])))] := rfl
    rw [h]
    simp
  · have h : ((NewColumn "b" "A.B" ⟨"INT", 0, 0⟩ 0 0 true).ValueOfV
        (reflect.record true false)
        (GoVal.struct [("A", GoVal.ptr (GoType.struct []) none)])).heap =
        GoVal.struct [("A", GoVal.ptr (GoType.struct []) (some (GoVal.struct [])))] := rfl
    rw [h]
    simp

/-! ## The walk: stopping, unwrapping -/

theorem ValueOfV_ok_valid (c : Column) (dataStruct : Value) (heap : GoVal) (handle : Value)
    (hkind : dataStruct.Kind heap ≠ Kind.Map)
    (h : (c.ValueOfV dataStruct heap).out = .ok handle) : handle.valid = true := by
  unfold Column.ValueOfV at h
  unfold Value.Kind at hkind
  simp only at h
  repeat' split at h
  all_goals
    first
    | (rename_i hl
       simp only at h
       subst h
       rcases loop_error_cases _ _ _ _ _ _ _ hl with h1 | h1 <;> cases h1)
    | (simp only [Outcome.ok.injEq] at h
       subst h
       simp_all [Value.IsValid])
    | simp_all

/-- C15. Let the record be a struct and the column's path be `first`, then the segments
`a`, then the segments `b`. If the walk of `ValueOfV` over `first` and `a` ends on an
invalid value, a lookup having found no field, then the walk over the whole path ends
there as well, with the same heap and the same values created, whatever `b` holds, and
`ValueOfV` returns the error. And whenever `ValueOfV` returns without error on a
record that is no map, the handle it returns is valid. -/
theorem ValueOfV_stops_at_missing_field (c : Column) (dataStruct : Value) (heap : GoVal)
    (fs : List (String × GoVal)) (em : List String) (first : String) (a b : List String)
    (found : Value) (heap' : GoVal) (allocated : List (List Step)) (missing : Value)
    (hcache : c.cacheCoherent)
    (hsplit : strings.Split c.FieldName '.' = first :: (a ++ b))
    (hvalid : dataStruct.valid = true)
    (hrec : heap.getAt dataStruct.path = some (.struct fs em))
    (hfirst : dataStruct.FieldByName heap first = some found)
    (hwalk : Column.ValueOfV.loop c.splitFieldPath a found heap =
      (heap', allocated, .ok missing))
    (hmissing : missing.IsValid = false) :
    Column.ValueOfV.loop c.splitFieldPath (a ++ b) found heap =
      (heap', allocated, .ok missing) ∧
    (c.ValueOfV dataStruct heap).out =
      Outcome.error ("field  " ++ c.FieldName ++ " is not valid") ∧
    (c.ValueOfV dataStruct heap).heap = heap' ∧
    (c.ValueOfV dataStruct heap).allocated = allocated ∧
    (∀ (c' : Column) (record : Value) (heap'' : GoVal) (handle : Value),
      record.Kind heap'' ≠ Kind.Map →
      (c'.ValueOfV record heap'').out = Outcome.ok handle → handle.IsValid = true) := by
  have hp := splitFieldPath_fieldPath c hcache
  rw [hsplit] at hp
  have hloop : Column.ValueOfV.loop c.splitFieldPath (a ++ b) found heap =
      (heap', allocated, .ok missing) := by
    rw [loop_append, hwalk]
    simp only [loop_invalid _ b missing heap' hmissing, Column.ValueOfV.after,
      List.append_nil]
  have hres : c.ValueOfV dataStruct heap =
      ⟨c.splitFieldPath, heap', allocated, .error (fieldError c.FieldName)⟩ := by
    rw [ValueOfV_struct_eq c dataStruct heap fs em first (a ++ b) hvalid hrec hp]
    unfold Column.ValueOfV.turn
    rw [hfirst]
    simp only [hloop, hmissing, Bool.not_false, if_true]
  refine ⟨hloop, ?_, ?_, ?_, ?_⟩
  · rw [hres]
    rfl
  · rw [hres]
  · rw [hres]
  · intro c' record heap'' handle hk h
    exact ValueOfV_ok_valid c' record heap'' handle hk h

/-- Witness of C15: `Addr.Zip.Code` against `{Addr: nil}`. `Addr` is set to a fresh
`{City string}`, the lookup of `Zip` in it finds no field, and `Code` is never looked
at. -/
theorem ValueOfV_stops_at_missing_field_witness :
    ((NewColumn "z" "Addr.Zip.Code" ⟨"TEXT", 0, 0⟩ 0 0 true).ValueOfV
        (reflect.record true false) nilAddrRecord).out =
      Outcome.error ("field  " ++ "Addr.Zip.Code" ++ " is not valid") ∧
    ((NewColumn "z" "Addr.Zip.Code" ⟨"TEXT", 0, 0⟩ 0 0 true).ValueOfV
        (reflect.record true false) nilAddrRecord).heap =
      GoVal.struct [("Addr", GoVal.ptr addrType (some (GoVal.struct [("City", GoVal.str "")])))] ∧
    ((NewColumn "z" "Addr.Zip.Code" ⟨"TEXT", 0, 0⟩ 0 0 true).ValueOfV
        (reflect.record true false) nilAddrRecord).allocated = [[Step.field "Addr"]] :=
  have h := ValueOfV_stops_at_missing_field
    (NewColumn "z" "Addr.Zip.Code" ⟨"TEXT", 0, 0⟩ 0 0 true) (reflect.record true false)
    nilAddrRecord [("Addr", GoVal.ptr addrType none)] [] "Addr" ["Zip"] ["Code"]
    ⟨true, [Step.field "Addr"], true, false, false⟩
    (GoVal.struct [("Addr", GoVal.ptr addrType (some (GoVal.struct [("City", GoVal.str "")])))])
    [[Step.field "Addr"]]
    Value.zero (Or.inl rfl) rfl rfl rfl rfl rfl rfl
  ⟨h.2.1, h.2.2.1, h.2.2.2.1⟩

/-! ### Unwrapping an interface -/

/-- C16, refuted as stated. The boxed `{Addr: nil}` and the column `Addr.City`:
resolving the record itself, addressable, succeeds and sets `Addr`; resolving the
wrapper panics, because the unwrapped value is an unaddressable copy. The boxed
`{A: nil}` with `A` a pointer to the empty struct and the column `A.B`: resolving the
record itself returns the error, resolving the wrapper returns none. -/
theorem boxed_record_differs_from_record :
    (addrCityColumn.ValueOfV (reflect.record true false) nilAddrRecord).out =
      Outcome.ok
        ⟨true, [Step.field "Addr", Step.deref, Step.field "City"], true, false, false⟩ ∧
    (addrCityColumn.ValueOfV (reflect.record true false)
        (GoVal.iface (some nilAddrRecord))).out = Outcome.aborted ∧
    ((NewColumn "b" "A.B" ⟨"INT", 0, 0⟩ 0 0 true).ValueOfV (reflect.record true false)
        (GoVal.struct [("A", GoVal.ptr (GoType.struct []) none)])).out =
      Outcome.error "field  A.B is not valid" ∧
    ((NewColumn "b" "A.B" ⟨"INT", 0, 0⟩ 0 0 true).ValueOfV (reflect.record true false)
        (GoVal.iface (some (GoVal.struct [("A", GoVal.ptr (GoType.struct []) none)])))).out =
      Outcome.aborted :=
  ⟨rfl, rfl, rfl, rfl⟩

theorem ValueOfV_boxed (c : Column) (fs : List (String × GoVal)) (em : List String)
    (addr : Bool) (hcache : c.cacheCoherent) :
    c.ValueOfV (reflect.record addr false) (.iface (some (.struct fs em))) =
      ⟨(c.ValueOfV (reflect.record false false) (.struct fs em)).col,
        .iface (some (c.ValueOfV (reflect.record false false) (.struct fs em)).heap),
        (c.ValueOfV (reflect.record false false) (.struct fs em)).allocated.map
          (fun path => [Step.dyn] ++ path),
        (c.ValueOfV (reflect.record false false) (.struct fs em)).out.under [Step.dyn]⟩ := by
  have hp := splitFieldPath_fieldPath c hcache
  obtain ⟨first, rest, hs⟩ : ∃ first rest, strings.Split c.FieldName '.' = first :: rest := by
    cases h : strings.Split c.FieldName '.' with
    | nil => exact absurd h (Split_ne_nil _ _)
    | cons a b => exact ⟨a, b, rfl⟩
  rw [hs] at hp
  have hdirect := ValueOfV_struct_eq c (reflect.record false false) (.struct fs em) fs em
    first rest rfl rfl hp
  have hboxed : c.ValueOfV (reflect.record addr false) (.iface (some (.struct fs em))) =
      c.ValueOfV ((reflect.record false false).under [Step.dyn])
        (.iface (some (.struct fs em))) := by
    unfold Column.ValueOfV
    simp [reflect.record, Value.Type, Value.get, GoVal.getAt, GoVal.Type, GoType.Kind,
      Value.Interface, reflect.ValueOf, Value.under, GoVal.step]
  have hunder := ValueOfV_struct_eq c ((reflect.record false false).under [Step.dyn])
    (.iface (some (.struct fs em))) fs em first rest rfl rfl hp
  rw [hboxed, hunder, hdirect,
    turn_seenFrom _ first rest [Step.dyn] _ (.iface (some (.struct fs em))) (.struct fs em) rfl]
  cases hl : Column.ValueOfV.turn c.splitFieldPath first rest (reflect.record false false)
    (.struct fs em) with
  | mk heap' r =>
    obtain ⟨al, res⟩ := r
    cases res with
    | error out =>
      simp only [Column.ValueOfV.seenFrom, GoVal.setAt]
      have hout : out = .aborted ∨ out = .error (fieldError c.splitFieldPath.FieldName) := by
        unfold Column.ValueOfV.turn at hl
        cases hF : (reflect.record false false).FieldByName (.struct fs em) first with
        | none =>
          rw [hF] at hl
          simp only [Prod.mk.injEq, Except.error.injEq] at hl
          exact Or.inl hl.2.2.symm
        | some fv =>
          rw [hF] at hl
          exact loop_error_cases _ _ _ _ _ _ _ hl
      rcases hout with h | h <;> subst h <;> rfl
    | ok fv' =>
      simp only [Column.ValueOfV.seenFrom, GoVal.setAt, Value.IsValid, under_valid]
      by_cases hv : fv'.valid = true <;> simp [hv, Outcome.under]

/-- C16, amended. Resolving the boxed wrapper around the struct `s` (the wrapper not
being read-only, the column's cache coherent) unwraps one level and then behaves as
resolving the unaddressable value `reflect.ValueOf(s)`: the column is left the same,
the heap is the wrapper around the heap the resolution of `s` leaves, the values
created are the same, and the outcome is the same with the handle's path lengthened by
the unwrapping step. So the one returns an error exactly when the other does, with the
same message, and on success the handle of the one refers to what the handle of the
other refers to in `s`. -/
theorem ValueOfV_boxed_record (c : Column) (fs : List (String × GoVal)) (em : List String)
    (addr : Bool) (hcache : c.cacheCoherent) :
    (c.ValueOfV (reflect.record addr false) (.iface (some (.struct fs em)))).col =
      (c.ValueOfV (reflect.record false false) (.struct fs em)).col ∧
    (c.ValueOfV (reflect.record addr false) (.iface (some (.struct fs em)))).heap =
      .iface (some (c.ValueOfV (reflect.record false false) (.struct fs em)).heap) ∧
    (c.ValueOfV (reflect.record addr false) (.iface (some (.struct fs em)))).allocated =
      (c.ValueOfV (reflect.record false false) (.struct fs em)).allocated.map
        (fun path => [Step.dyn] ++ path) ∧
    (c.ValueOfV (reflect.record addr false) (.iface (some (.struct fs em)))).out =
      (c.ValueOfV (reflect.record false false) (.struct fs em)).out.under [Step.dyn] ∧
    (∀ msg : String,
      (c.ValueOfV (reflect.record addr false) (.iface (some (.struct fs em)))).out =
          Outcome.error msg ↔
        (c.ValueOfV (reflect.record false false) (.struct fs em)).out = Outcome.error msg) ∧
    (∀ handle : Value,
      (c.ValueOfV (reflect.record false false) (.struct fs em)).out = Outcome.ok handle →
        (c.ValueOfV (reflect.record addr false) (.iface (some (.struct fs em)))).out =
          Outcome.ok (handle.under [Step.dyn]) ∧
        (handle.under [Step.dyn]).get
            (c.ValueOfV (reflect.record addr false) (.iface (some (.struct fs em)))).heap =
          handle.get (c.ValueOfV (reflect.record false false) (.struct fs em)).heap) := by
  have h := ValueOfV_boxed c fs em addr hcache
  refine ⟨by rw [h], by rw [h], by rw [h], by rw [h], ?_, ?_⟩
  · intro msg
    rw [h]
    cases (c.ValueOfV (reflect.record false false) (.struct fs em)).out <;>
      simp [Outcome.under]
  · intro handle hok
    rw [h]
    simp only [hok, Outcome.under, true_and]
    exact get_under (.iface (some (c.ValueOfV (reflect.record false false)
      (.struct fs em)).heap)) _ [Step.dyn] rfl handle

/-- Witness of C16: `City` resolved in the boxed `{City: "x"}`. -/
theorem ValueOfV_boxed_record_witness :
    ((NewColumn "city" "City" ⟨"TEXT", 0, 0⟩ 0 0 true).ValueOfV (reflect.record true false)
        (GoVal.iface (some (GoVal.struct [("City", GoVal.str "x")])))).out =
      Outcome.ok ⟨true, [Step.dyn, Step.field "City"], false, false, false⟩ :=
  ((ValueOfV_boxed_record (NewColumn "city" "City" ⟨"TEXT", 0, 0⟩ 0 0 true)
      [("City", GoVal.str "x")] [] true (Or.inl rfl)).2.2.2.2.2
    ⟨true, [Step.field "City"], false, false, false⟩ rfl).1

/-! ## The frame of the walk -/

theorem ValueOfV_struct_heap (c : Column) (dataStruct : Value) (heap : GoVal)
    (fs : List (String × GoVal)) (em : List String) (first : String) (rest : List String)
    (hvalid : dataStruct.valid = true)
    (hrec : heap.getAt dataStruct.path = some (.struct fs em))
    (hpath : c.splitFieldPath.fieldPath = some (first :: rest)) :
    (c.ValueOfV dataStruct heap).heap =
      (Column.ValueOfV.turn c.splitFieldPath first rest dataStruct heap).1 ∧
    (c.ValueOfV dataStruct heap).allocated =
      (Column.ValueOfV.turn c.splitFieldPath first rest dataStruct heap).2.1 := by
  rw [ValueOfV_struct_eq c dataStruct heap fs em first rest hvalid hrec hpath]
  rcases Column.ValueOfV.turn c.splitFieldPath first rest dataStruct heap with ⟨h', al, res⟩
  cases res with
  | error out => exact ⟨rfl, rfl⟩
  | ok fv =>
    simp only
    split_ifs <;> exact ⟨rfl, rfl⟩

/-- The heap `ValueOfV` leaves, for a struct record: the heap before with the record
replaced by `materialize` of it along a first part of the path. -/
theorem ValueOfV_heap (c : Column) (dataStruct : Value) (heap : GoVal)
    (fs : List (String × GoVal)) (em : List String) (hcache : c.cacheCoherent)
    (hvalid : dataStruct.valid = true)
    (hrec : heap.getAt dataStruct.path = some (.struct fs em)) :
    ∃ n : Nat,
      (c.ValueOfV dataStruct heap).heap =
        heap.setAt dataStruct.path
          (materialize ((strings.Split c.FieldName '.').take n) (.struct fs em)) := by
  have hp := splitFieldPath_fieldPath c hcache
  obtain ⟨first, rest, hs⟩ : ∃ first rest, strings.Split c.FieldName '.' = first :: rest := by
    cases h : strings.Split c.FieldName '.' with
    | nil => exact absurd h (Split_ne_nil _ _)
    | cons a b => exact ⟨a, b, rfl⟩
  rw [hs] at hp ⊢
  obtain ⟨m, hm⟩ := turn_heap c.splitFieldPath first rest
    (loop_heap_root c.splitFieldPath rest) dataStruct.atRoot (.struct fs em) hvalid rfl
  refine ⟨m + 1, ?_⟩
  rw [(ValueOfV_struct_heap c dataStruct heap fs em first rest hvalid hrec hp).1,
    turn_at_root _ first rest dataStruct heap _ hvalid hrec]
  simp only [Column.ValueOfV.seenFrom, hm, List.take_succ_cons, materialize]

theorem descend_of_nonNil (f : GoVal → GoVal) (below : GoVal → Bool) (next : String)
    (x : GoVal) (h : pointersNonNilBelow next x below = true)
    (hf : ∀ z, below z = true → f z = z) : descend f next x = x := by
  unfold pointersNonNilBelow at h
  unfold descend
  cases hq : fieldPlace next x with
  | none => rfl
  | some q =>
    simp only [hq] at h ⊢
    cases hz : x.getAt q with
    | none => rfl
    | some z =>
      simp only [hz] at h ⊢
      rw [hf z h]
      exact setAt_getAt_self x q z hz

theorem materializeField_of_nonNil (rest : List String) :
    ∀ (y : GoVal) (n : Nat), pointersNonNilFrom rest y = true →
      materializeField (rest.take n) y = y := by
  induction rest with
  | nil =>
    intro y n _
    simp only [List.take_nil, materializeField_nil]
  | cons next rest ih =>
    intro y n h
    cases n with
    | zero => simp only [List.take_zero, materializeField_nil]
    | succ n =>
      simp only [List.take_succ_cons]
      cases y with
      | struct gs em =>
        simp only [materializeField]
        simp only [pointersNonNilFrom] at h
        exact descend_of_nonNil _ _ next _ h (fun z hz => ih z n hz)
      | ptr e t =>
        cases t with
        | none => simp [pointersNonNilFrom] at h
        | some z =>
          simp only [materializeField]
          simp only [pointersNonNilFrom] at h
          rw [descend_of_nonNil _ _ next _ h (fun z hz => ih z n hz)]
      | str _ => rfl
      | int _ => rfl
      | bool _ => rfl
      | map _ _ _ => rfl
      | iface _ => rfl

theorem materialize_of_nonNil (segments : List String) (r : GoVal)
    (n : Nat) (h : pointersNonNil segments r = true) :
    materialize (segments.take n) r = r := by
  cases segments with
  | nil => simp [materialize]
  | cons first rest =>
    cases n with
    | zero => simp [materialize]
    | succ n =>
      simp only [List.take_succ_cons, materialize]
      simp only [pointersNonNil] at h
      exact descend_of_nonNil _ _ first _ h
        (fun z hz => materializeField_of_nonNil rest z n hz)

theorem materialize_single (first : String) (n : Nat) (r : GoVal) :
    materialize ([first].take n) r = r := by
  cases n with
  | zero => rfl
  | succ n =>
    simp only [List.take_succ_cons, List.take_nil, materialize]
    exact descend_id _ first r materializeField_nil

theorem entryField_of_place (name : String) (x : GoVal) (entry : String) (q : List Step)
    (h : fieldPlace name x = some (Step.field entry :: q)) :
    entryField name x = some entry := by
  simp [entryField, h]

/-- What `materialize` leaves of a struct is a struct in which every declared field is as
before, but for the one through which the way to the first segment leaves the struct. -/
theorem materialize_off_path (segments : List String) (fs : List (String × GoVal))
    (em : List String) :
    ∃ fs', materialize segments (.struct fs em) = .struct fs' em ∧
      ∀ B : String,
        segments.head?.bind (fun first => entryField first (.struct fs em)) ≠ some B →
        fs'.lookup B = fs.lookup B := by
  cases segments with
  | nil => exact ⟨fs, rfl, fun _ _ => rfl⟩
  | cons first rest =>
    simp only [materialize, List.head?_cons, Option.some_bind]
    unfold descend
    cases hq : fieldPlace first (.struct fs em) with
    | none => exact ⟨fs, rfl, fun _ _ => rfl⟩
    | some q =>
      obtain ⟨⟨entry, q', hq'⟩, z, hz⟩ := fieldPlace_spec _ first q hq
      subst hq'
      simp only [hz, GoVal.setAt]
      refine ⟨_, rfl, ?_⟩
      intro B hB
      rw [entryField_of_place first _ entry q' hq] at hB
      apply lookup_setField_other
      intro h
      apply hB
      rw [h]

theorem promotedIn_head (name : String) (em : List String) (fs : List (String × GoType)) :
    ∀ index ∈ GoType.promotedIn name em fs,
      ∃ n t, index = n :: t ∧ (n = name ∨ n ∈ em) := by
  induction fs with
  | nil =>
    intro index h
    simp [GoType.promotedIn] at h
  | cons f fs ih =>
    obtain ⟨n, t⟩ := f
    intro index h
    rw [GoType.promotedIn] at h
    rcases List.mem_append.1 h with h | h
    · split_ifs at h with h1 h2
      · rw [List.mem_singleton.1 h]
        exact ⟨n, [], rfl, Or.inl h1⟩
      · obtain ⟨a, _, rfl⟩ := List.mem_map.1 h
        exact ⟨n, a, rfl, Or.inr (by simpa using h2)⟩
      · cases h
    · exact ih index h

theorem typeFieldByName_head (fs : List (String × GoType)) (em : List String)
    (name : String) (index : List String)
    (h : (GoType.struct fs em).FieldByName name = some index) :
    ∃ n t, index = n :: t ∧ (n = name ∨ n ∈ em) := by
  unfold GoType.FieldByName at h
  simp only at h
  split_ifs at h
  · simp only [Option.some.injEq] at h
    exact ⟨name, [], h.symm, Or.inl rfl⟩
  · split at h
    · rename_i i hs
      simp only [Option.some.injEq] at h
      subst h
      apply promotedIn_head name em fs
      apply shallowest_subset
      rw [hs]
      exact List.mem_singleton_self _
    · cases h

/-- The field through which the way to a field leaves a struct is the field itself or
an embedded field. -/
theorem entryField_spec (name : String) (fs : List (String × GoVal)) (em : List String)
    (entry : String) (h : entryField name (.struct fs em) = some entry) :
    entry = name ∨ entry ∈ em := by
  unfold entryField at h
  cases hq : fieldPlace name (.struct fs em) with
  | none => simp [hq] at h
  | some q =>
    rw [hq] at h
    unfold fieldPlace at hq
    cases hr : (reflect.record false false).FieldByName (.struct fs em) name with
    | none => simp [hr] at hq
    | some f =>
      simp only [hr] at hq
      split_ifs at hq with hf
      simp only [Option.some.injEq] at hq
      subst hq
      unfold Value.FieldByName at hr
      simp only [Value.get, reflect.record, if_true, GoVal.getAt] at hr
      cases hi : (GoVal.struct fs em).Type.FieldByName name with
      | none =>
        simp only [hi, Option.some.injEq] at hr
        subst hr
        simp [Value.zero] at hf
      | some index =>
        simp only [hi] at hr
        obtain ⟨n, t, hnt, hn⟩ := typeFieldByName_head _ em name index hi
        subst hnt
        simp only [Value.FieldByIndex] at hr
        cases hF : (Value.mk true [] false false false).Field (.struct fs em) n with
        | none => simp [hF] at hr
        | some g =>
          rw [hF] at hr
          obtain ⟨hgv, hgp, fs', em', y', _, _, hgy⟩ := Field_spec _ g _ n hF
          rw [get_eq_getAt g _ hgv] at hgy
          obtain ⟨_, ⟨t2, ht2, _⟩, _⟩ :=
            FieldByIndex_loop_spec _ t g f hgv ⟨y', hgy⟩ hr
          rw [ht2, hgp] at h
          simp only [List.nil_append, List.singleton_append, Option.some.injEq] at h
          rw [← h]
          exact hn

/-- C17. For a struct record and a column with a coherent cache, the heap after
`ValueOfV` is the heap before with the record replaced by `materialize` of it along a
first part of the column's path: the record with the nil pointers on the walked part
of the path, the field of the last segment apart, replaced by pointers to zero values
of their element types, and nothing else. In that record every declared field is as
before, but for the one through which the way to the first segment leaves the record:
the field of the first segment, or the embedded field that promotes it; so every field
that is neither the first segment nor embedded is as before. The heap is unchanged when
the path has one segment, and when every pointer on the path is non-nil already. -/
theorem ValueOfV_frame (c : Column) (dataStruct : Value) (heap : GoVal)
    (fs : List (String × GoVal)) (em : List String) (hcache : c.cacheCoherent)
    (hvalid : dataStruct.valid = true)
    (hrec : heap.getAt dataStruct.path = some (.struct fs em)) :
    (∃ n : Nat,
      (c.ValueOfV dataStruct heap).heap =
        heap.setAt dataStruct.path
          (materialize ((strings.Split c.FieldName '.').take n) (.struct fs em)) ∧
      (c.ValueOfV dataStruct heap).heap.getAt dataStruct.path =
        some (materialize ((strings.Split c.FieldName '.').take n) (.struct fs em)) ∧
      ∃ fs', materialize ((strings.Split c.FieldName '.').take n) (.struct fs em) =
          .struct fs' em ∧
        (∀ B : String,
          (strings.Split c.FieldName '.').head?.bind
              (fun first => entryField first (.struct fs em)) ≠ some B →
          fs'.lookup B = fs.lookup B) ∧
        (∀ B : String, (strings.Split c.FieldName '.').head? ≠ some B → B ∉ em →
          fs'.lookup B = fs.lookup B)) ∧
    ((strings.Split c.FieldName '.').length = 1 → (c.ValueOfV dataStruct heap).heap = heap) ∧
    (pointersNonNil (strings.Split c.FieldName '.') (.struct fs em) = true →
      (c.ValueOfV dataStruct heap).heap = heap) := by
  obtain ⟨n, hn⟩ := ValueOfV_heap c dataStruct heap fs em hcache hvalid hrec
  have hoff : ∃ fs', materialize ((strings.Split c.FieldName '.').take n) (.struct fs em) =
      .struct fs' em ∧
      ∀ B : String,
        (strings.Split c.FieldName '.').head?.bind
            (fun first => entryField first (.struct fs em)) ≠ some B →
        fs'.lookup B = fs.lookup B := by
    obtain ⟨fs', h1, h2⟩ :=
      materialize_off_path ((strings.Split c.FieldName '.').take n) fs em
    refine ⟨fs', h1, ?_⟩
    intro B hB
    apply h2
    intro h
    apply hB
    cases hs : strings.Split c.FieldName '.' with
    | nil => rw [hs] at h; cases n <;> simp at h
    | cons a b =>
      rw [hs] at h
      cases n with
      | zero => simp at h
      | succ n => simpa using h
  refine ⟨⟨n, hn, ?_, ?_⟩, ?_, ?_⟩
  · rw [hn]
    exact getAt_setAt_self heap dataStruct.path _ _ hrec
  · obtain ⟨fs', h1, h2⟩ := hoff
    refine ⟨fs', h1, h2, ?_⟩
    intro B hB hem
    apply h2
    intro h
    cases hs : (strings.Split c.FieldName '.').head? with
    | none => simp [hs] at h
    | some first =>
      rw [hs] at h hB
      simp only [Option.some_bind] at h
      rcases entryField_spec first fs em B h with h3 | h3
      · exact hB (by rw [h3])
      · exact hem h3
  · intro hlen
    rw [hn]
    cases hs : strings.Split c.FieldName '.' with
    | nil => rw [hs] at hlen; simp at hlen
    | cons a b =>
      rw [hs] at hlen
      have hb : b = [] := by
        cases b with
        | nil => rfl
        | cons _ _ => simp at hlen
      subst hb
      rw [materialize_single]
      exact setAt_getAt_self heap dataStruct.path _ hrec
  · intro hnn
    rw [hn, materialize_of_nonNil _ _ n hnn]
    exact setAt_getAt_self heap dataStruct.path _ hrec

/-- Witness of C17: `Addr.City` against the addressable `{Addr: nil}`; the heap after
is the record with `Addr` materialised, as `materialize` says. -/
theorem ValueOfV_frame_witness :
    materialize ["Addr", "City"] nilAddrRecord =
      GoVal.struct [("Addr", GoVal.ptr addrType (some (GoVal.struct [("City", GoVal.str "")])))] ∧
    (addrCityColumn.ValueOfV (reflect.record true false) nilAddrRecord).heap =
      materialize ["Addr", "City"] nilAddrRecord ∧
    ∃ n : Nat,
      (addrCityColumn.ValueOfV (reflect.record true false) nilAddrRecord).heap =
        nilAddrRecord.setAt []
          (materialize ((strings.Split addrCityColumn.FieldName '.').take n)
            nilAddrRecord) :=
  have h := ValueOfV_frame addrCityColumn (reflect.record true false) nilAddrRecord
    [("Addr", GoVal.ptr addrType none)] [] (Or.inl rfl) rfl rfl
  ⟨rfl, rfl, h.1.elim (fun n hn => ⟨n, hn.1⟩)⟩

/-! ## Resolving twice -/

theorem splitFieldPath_idem (c : Column) : c.splitFieldPath.splitFieldPath = c.splitFieldPath := by
  cases h : c.fieldPath with
  | none =>
    exact splitFieldPath_of_some _ _ (splitFieldPath_of_none c h)
  | some p =>
    rw [splitFieldPath_of_some c p h, splitFieldPath_of_some c p h]

theorem splitFieldPath_isSome (c : Column) : ∃ p, c.splitFieldPath.fieldPath = some p := by
  cases h : c.fieldPath with
  | none => exact ⟨_, splitFieldPath_of_none c h⟩
  | some p => exact ⟨p, by rw [splitFieldPath_of_some c p h, h]⟩

theorem turn_error_cases (col : Column) (next : String) (rest : List String) (v : Value)
    (heap heap' : GoVal) (al : List (List Step)) (out : Outcome)
    (h : Column.ValueOfV.turn col next rest v heap = (heap', al, .error out)) :
    out = .aborted ∨ out = .error (fieldError col.FieldName) := by
  unfold Column.ValueOfV.turn at h
  cases hF : v.FieldByName heap next with
  | none =>
    rw [hF] at h
    simp only [Prod.mk.injEq, Except.error.injEq] at h
    exact Or.inl h.2.2.symm
  | some fv =>
    rw [hF] at h
    exact loop_error_cases _ _ _ _ _ _ _ h

/-- A turn of the loop that found a field, run again on the heap it left: it finds the
same field, creates no value and leaves the heap as it is. -/
theorem turn_again_at (col : Column) (next : String) (rest : List String) (v : Value)
    (heap x heap' : GoVal) (al : List (List Step)) (h : Value)
    (hv : v.valid = true) (hx : heap.getAt v.path = some x)
    (hrun : Column.ValueOfV.turn col next rest v heap = (heap', al, .ok h))
    (hh : h.valid = true) :
    Column.ValueOfV.turn col next rest v heap' = (heap', [], .ok h) ∧
    ∃ x', heap'.getAt v.path = some x' ∧ x'.Type = x.Type := by
  rw [turn_at_root col next rest v heap x hv hx] at hrun
  obtain ⟨h0, hr, hh0, hheap', _⟩ := seenFrom_ok _ _ _ _ _ _ hrun
  have hh0v : h0.valid = true := by
    rw [hh0, under_valid] at hh
    exact hh
  have hsecond := turn_again col next rest (loop_again_root col rest) v.atRoot x _ _ h0 hr hh0v
  have hx' : heap'.getAt v.path = some (Column.ValueOfV.turn col next rest v.atRoot x).1 := by
    rw [hheap']
    exact getAt_setAt_self heap v.path x _ hx
  have hT : (Column.ValueOfV.turn col next rest v.atRoot x).1.Type = x.Type := by
    obtain ⟨m, hm⟩ := turn_heap col next rest (loop_heap_root col rest) v.atRoot x hv rfl
    rw [hm]
    exact descend_Type _ next x (materializeField_Type _)
  refine ⟨?_, _, hx', hT⟩
  rw [turn_at_root col next rest v heap' _ hv hx', hsecond]
  simp only [Column.ValueOfV.seenFrom, List.map_nil, ← hh0,
    setAt_getAt_self heap' v.path _ hx']

/-- A turn of the loop that found a field without creating a value or changing the heap
does the same after the field it found has been overwritten by a value of its type. -/
theorem turn_settled_at (col : Column) (next : String) (rest : List String) (v : Value)
    (heap x : GoVal) (h : Value) (z c : GoVal)
    (hv : v.valid = true) (hx : heap.getAt v.path = some x)
    (hrun : Column.ValueOfV.turn col next rest v heap = (heap, [], .ok h))
    (hh : h.valid = true) (hz : heap.getAt h.path = some z) (hT : c.Type = z.Type) :
    Column.ValueOfV.turn col next rest v (heap.setAt h.path c) =
      (heap.setAt h.path c, [], .ok h) ∧
    ∃ x', (heap.setAt h.path c).getAt v.path = some x' ∧ x'.Type = x.Type := by
  rw [turn_at_root col next rest v heap x hv hx] at hrun
  obtain ⟨h0, hr, hh0⟩ := seenFrom_fixed _ _ _ _ _ hx hrun
  have hh0v : h0.valid = true := by
    rw [hh0, under_valid] at hh
    exact hh
  have hpath : h.path = v.path ++ h0.path := by
    rw [hh0, under_of_valid _ h0 hh0v]
  have hz0 : x.getAt h0.path = some z := by
    rw [hpath, getAt_append, hx] at hz
    simpa using hz
  have hsecond := turn_settled col next rest (loop_settled_root col rest) v.atRoot x h0 z c
    hr hh0v hz0 hT
  have hset : heap.setAt h.path c = heap.setAt v.path (x.setAt h0.path c) := by
    rw [hpath]
    exact setAt_append heap v.path h0.path c x hx
  have hx2 : (heap.setAt v.path (x.setAt h0.path c)).getAt v.path =
      some (x.setAt h0.path c) := getAt_setAt_self heap v.path x _ hx
  rw [hset]
  refine ⟨?_, _, hx2, Type_setAt x h0.path z c hz0 hT⟩
  rw [turn_at_root col next rest v _ _ hv hx2, hsecond]
  simp only [Column.ValueOfV.seenFrom, List.map_nil, ← hh0,
    setAt_getAt_self _ v.path _ hx2]

theorem ValueOfV_again (c : Column) (dataStruct : Value) (heap : GoVal)
    (fs : List (String × GoVal)) (em : List String) (handle : Value)
    (hvalid : dataStruct.valid = true)
    (hrec : heap.getAt dataStruct.path = some (.struct fs em))
    (hok : (c.ValueOfV dataStruct heap).out = Outcome.ok handle) :
    (c.ValueOfV dataStruct heap).col.ValueOfV dataStruct (c.ValueOfV dataStruct heap).heap =
      ⟨(c.ValueOfV dataStruct heap).col, (c.ValueOfV dataStruct heap).heap, [],
        Outcome.ok handle⟩ ∧
    ∀ z v : GoVal, (c.ValueOfV dataStruct heap).heap.getAt handle.path = some z →
      v.Type = z.Type →
      (c.ValueOfV dataStruct heap).col.ValueOfV dataStruct
          ((c.ValueOfV dataStruct heap).heap.setAt handle.path v) =
        ⟨(c.ValueOfV dataStruct heap).col,
          (c.ValueOfV dataStruct heap).heap.setAt handle.path v, [], Outcome.ok handle⟩ := by
  have hh : handle.valid = true := by
    apply ValueOfV_ok_valid c dataStruct heap handle _ hok
    rw [Kind_of_getAt dataStruct heap _ hvalid hrec]
    simp [GoVal.Type, GoType.Kind]
  obtain ⟨p, hp⟩ := splitFieldPath_isSome c
  cases p with
  | nil =>
    unfold Column.ValueOfV at hok
    simp [hp, Value.Type, Value.get, hvalid, hrec, GoVal.Type, GoType.Kind] at hok
  | cons first rest =>
    have heq := ValueOfV_struct_eq c dataStruct heap fs em first rest hvalid hrec hp
    have hturn : ∃ heap' al, Column.ValueOfV.turn c.splitFieldPath first rest dataStruct heap =
        (heap', al, .ok handle) ∧ c.ValueOfV dataStruct heap =
          ⟨c.splitFieldPath, heap', al, .ok handle⟩ := by
      rw [heq] at hok ⊢
      generalize hr : Column.ValueOfV.turn c.splitFieldPath first rest dataStruct heap = r
        at hok ⊢
      obtain ⟨heap', al, res⟩ := r
      cases res with
      | error out =>
        simp only at hok
        subst hok
        rcases turn_error_cases _ _ _ _ _ _ _ _ hr with h1 | h1 <;> cases h1
      | ok fv =>
        simp only at hok ⊢
        by_cases hfv : (!fv.IsValid) = true
        · simp [hfv] at hok
        · simp only [hfv, if_false, Outcome.ok.injEq, Bool.false_eq_true] at hok ⊢
          subst hok
          exact ⟨heap', al, rfl, rfl⟩
    obtain ⟨heap', al, hrun, hres⟩ := hturn
    obtain ⟨hsecond, x', hx', hT⟩ :=
      turn_again_at c.splitFieldPath first rest dataStruct heap _ heap' al handle hvalid hrec
        hrun hh
    obtain ⟨fs', hfs'⟩ := struct_of_Type x' (GoVal.fieldTypes fs) em hT
    rw [hfs'] at hx'
    rw [hres]
    have hp' : c.splitFieldPath.splitFieldPath.fieldPath = some (first :: rest) := by
      rw [splitFieldPath_idem, hp]
    refine ⟨?_, ?_⟩
    · rw [ValueOfV_struct_eq c.splitFieldPath dataStruct heap' fs' em first rest hvalid hx'
        hp', splitFieldPath_idem, hsecond]
      simp only [Value.IsValid, hh, Bool.not_true, Bool.false_eq_true, if_false]
    · intro z v hz hv
      simp only at hz ⊢
      obtain ⟨hthird, x'', hx'', hT''⟩ :=
        turn_settled_at c.splitFieldPath first rest dataStruct heap' _ handle z v hvalid hx'
          hsecond hh hz hv
      obtain ⟨fs'', hfs''⟩ := struct_of_Type x'' (GoVal.fieldTypes fs') em hT''
      rw [hfs''] at hx''
      rw [ValueOfV_struct_eq c.splitFieldPath dataStruct _ fs'' em first rest hvalid hx'' hp',
        splitFieldPath_idem, hthird]
      simp only [Value.IsValid, hh, Bool.not_true, Bool.false_eq_true, if_false]

/-- C12. When `ValueOfV` succeeds on a struct record, a second call with the same
column, as the first call left it, on the heap as the first call left it succeeds as
well, returns the very same handle, which refers to the same place of the same heap,
creates no value at all (it never calls `reflect.New`), and leaves heap and column
exactly as they were. The same holds after any value of the field's type has been
written through the handle: the call returns the handle, creates nothing and leaves the
heap with the written value in place, so no pointer on the path is set anew. -/
theorem ValueOfV_twice (c : Column) (dataStruct : Value) (heap : GoVal)
    (fs : List (String × GoVal)) (em : List String) (handle : Value)
    (hvalid : dataStruct.valid = true)
    (hrec : heap.getAt dataStruct.path = some (.struct fs em))
    (hok : (c.ValueOfV dataStruct heap).out = Outcome.ok handle) :
    ((c.ValueOfV dataStruct heap).col.ValueOfV dataStruct
        (c.ValueOfV dataStruct heap).heap).out = Outcome.ok handle ∧
    ((c.ValueOfV dataStruct heap).col.ValueOfV dataStruct
        (c.ValueOfV dataStruct heap).heap).allocated = [] ∧
    ((c.ValueOfV dataStruct heap).col.ValueOfV dataStruct
        (c.ValueOfV dataStruct heap).heap).heap = (c.ValueOfV dataStruct heap).heap ∧
    ((c.ValueOfV dataStruct heap).col.ValueOfV dataStruct
        (c.ValueOfV dataStruct heap).heap).col = (c.ValueOfV dataStruct heap).col ∧
    handle.get ((c.ValueOfV dataStruct heap).col.ValueOfV dataStruct
        (c.ValueOfV dataStruct heap).heap).heap =
      handle.get (c.ValueOfV dataStruct heap).heap ∧
    (∀ z v : GoVal, handle.get (c.ValueOfV dataStruct heap).heap = some z →
      v.Type = z.Type →
      ((c.ValueOfV dataStruct heap).col.ValueOfV dataStruct
          ((c.ValueOfV dataStruct heap).heap.setAt handle.path v)).out = Outcome.ok handle ∧
      ((c.ValueOfV dataStruct heap).col.ValueOfV dataStruct
          ((c.ValueOfV dataStruct heap).heap.setAt handle.path v)).allocated = [] ∧
      ((c.ValueOfV dataStruct heap).col.ValueOfV dataStruct
          ((c.ValueOfV dataStruct heap).heap.setAt handle.path v)).heap =
        (c.ValueOfV dataStruct heap).heap.setAt handle.path v ∧
      handle.get ((c.ValueOfV dataStruct heap).heap.setAt handle.path v) = some v) := by
  have h := ValueOfV_again c dataStruct heap fs em handle hvalid hrec hok
  have hh : handle.valid = true := by
    apply ValueOfV_ok_valid c dataStruct heap handle _ hok
    rw [Kind_of_getAt dataStruct heap _ hvalid hrec]
    simp [GoVal.Type, GoType.Kind]
  refine ⟨by rw [h.1], by rw [h.1], by rw [h.1], by rw [h.1], by rw [h.1], ?_⟩
  intro z v hz hv
  rw [get_eq_getAt handle _ hh] at hz
  rw [h.2 z v hz hv]
  refine ⟨rfl, rfl, rfl, ?_⟩
  rw [get_eq_getAt handle _ hh]
  exact getAt_setAt_self _ handle.path z v hz

/-- Witness of C12: `Addr.City` resolved twice against the addressable `{Addr: nil}`;
the first call sets `Addr` to the one value it creates, the second finds it set and
creates none. After `Paris` has been written through the handle, a further call leaves
it in place. -/
theorem ValueOfV_twice_witness :
    (addrCityColumn.ValueOfV (reflect.record true false) nilAddrRecord).heap =
      GoVal.struct [("Addr", GoVal.ptr addrType (some (GoVal.struct [("City", GoVal.str "")])))] ∧
    (addrCityColumn.ValueOfV (reflect.record true false) nilAddrRecord).allocated =
      [[Step.field "Addr"]] ∧
    ((addrCityColumn.ValueOfV (reflect.record true false) nilAddrRecord).col.ValueOfV
        (reflect.record true false)
        (addrCityColumn.ValueOfV (reflect.record true false) nilAddrRecord).heap).out =
      Outcome.ok
        ⟨true, [Step.field "Addr", Step.deref, Step.field "City"], true, false, false⟩ ∧
    ((addrCityColumn.ValueOfV (reflect.record true false) nilAddrRecord).col.ValueOfV
        (reflect.record true false)
        (addrCityColumn.ValueOfV (reflect.record true false) nilAddrRecord).heap).allocated =
      [] ∧
    (addrCityColumn.ValueOfV (reflect.record true false) nilAddrRecord).heap.setAt
        [Step.field "Addr", Step.deref, Step.field "City"] (GoVal.str "Paris") =
      GoVal.struct
        [("Addr", GoVal.ptr addrType (some (GoVal.struct [("City", GoVal.str "Paris")])))] ∧
    ((addrCityColumn.ValueOfV (reflect.record true false) nilAddrRecord).col.ValueOfV
        (reflect.record true false)
        ((addrCityColumn.ValueOfV (reflect.record true false) nilAddrRecord).heap.setAt
          [Step.field "Addr", Step.deref, Step.field "City"] (GoVal.str "Paris"))).heap =
      (addrCityColumn.ValueOfV (reflect.record true false) nilAddrRecord).heap.setAt
        [Step.field "Addr", Step.deref, Step.field "City"] (GoVal.str "Paris") :=
  have h := ValueOfV_twice addrCityColumn (reflect.record true false) nilAddrRecord
    [("Addr", GoVal.ptr addrType none)] []
    ⟨true, [Step.field "Addr", Step.deref, Step.field "City"], true, false, false⟩ rfl rfl rfl
  ⟨rfl, rfl, h.1, h.2.1, rfl, (h.2.2.2.2.2 (GoVal.str "") (GoVal.str "Paris") rfl rfl).2.2.1⟩
